import Mathlib

/-!
# Free-list allocator of A12, steganography of A06, search tree of A11

Shallow embedding of `malloc` and `free` from `src/A12/mylloc_list.c` and of
`memstats` from `src/A12/memstats.c` (namespace `Mylloc`), of the loops of
`src/A06/encode.c` and `src/A06/decode.c` (namespace `Stego`) and of `find` and
`insert` from `src/A11/tree.c` (namespace `Bst`).  The definitions of the three
parts come first, the theorems after them.

Modelling decisions for the allocator:

* Addresses are natural numbers, `NULL` is `0`.
* Memory is seen at header granularity: `mem a` is the `struct chunk` read at
  address `a`.  Headers at different addresses are independent cells.
* The target is LP64 Linux (the platform of `sbrk`): `int` has 32 bits,
  `size_t` and pointers have 64 bits, `sizeof(struct chunk)` is 16.
  Conversions between `size_t` and `int` wrap modulo the width, as gcc and
  clang define them.
* Pointer arithmetic is plain arithmetic on addresses: `current + 1` is the
  address plus `sizeof(struct chunk)`, `(struct chunk *)memory - 1` the address
  minus it.
* `sbrk` belongs to libc, not to this repository.  It is modelled by its contract:
  the break moves by the signed increment unless it would leave `[0, limit]`.
  The state keeps a record of the increments passed to it, so that the absence of a call
  and the size of a request can be stated.
* The scan of the free list is a `while` loop over a linked structure that may
  be cyclic, so it takes fuel: `none` means that the fuel ran out.  Claims that
  `malloc` returns are proved for every fuel above a bound.
* The accumulators of `memstats` are `int`.  C leaves signed overflow undefined;
  the model reduces every sum modulo `2^32` into the range of `int`, which is what
  the target computes.  The ratio is kept as the exact quotient of two integers:
  the rounding of `float` is not modelled.
* A run pairs the allocator state with the bookkeeping of the caller: the pointers
  it holds and the chunks created so far.  Runs are reached by `malloc` calls of
  bounded size and by `free` calls on pointers that are held.  The sum
  `size + sizeof(struct chunk)` is computed in `size_t` and wraps: `malloc(2^64 - 16)`
  calls `sbrk(0)`, which returns the break without moving it, and writes its header
  there.
* `printf` belongs to libc.  It is modelled by its contract towards the allocator:
  the first output to `stdout` takes the buffer of the stream from `malloc`.
-/

namespace Mylloc

/-- Values of the C type `int`: 32 bits, range `[-2^31, 2^31)`. -/
abbrev c_int : Type := { i : Int // -2147483648 ≤ i ∧ i < 2147483648 }

/-- The `int` constant `0`. -/
def int_zero : c_int := ⟨0, by decide⟩

/-- Header `struct chunk` of mylloc_list.c: `int size; int used; struct chunk *next;`. -/
structure chunk where
  size : c_int
  used : c_int
  next : Nat
deriving DecidableEq

/-- The null pointer. -/
def NULL : Nat := 0

/-- Value of `sizeof(struct chunk)`: two 4-byte ints and one 8-byte pointer. -/
def sizeof_chunk : Nat := 16

/-- Conversion of a `size_t` value to `int`, as done by the assignments
`current->used = size` and `new_chunk->size = size`: the value is reduced
modulo `2^32 = 4294967296` into the range `[-2^31, 2^31)`. -/
def to_int (n : Nat) : c_int :=
  if h : n % 4294967296 < 2147483648 then ⟨((n % 4294967296 : Nat) : Int), by omega⟩
  else ⟨((n % 4294967296 : Nat) : Int) - 4294967296, by omega⟩

/-- Conversion of an `int` to `size_t`, as done by the usual arithmetic
conversions in the comparison `current->size >= size`: reduction modulo
`2^64 = 18446744073709551616`. -/
def to_size_t (i : c_int) : Nat := (i.val % 18446744073709551616).toNat

/-- Conversion of a `size_t` value to `intptr_t`, the parameter type of `sbrk`. -/
def to_intptr (n : Nat) : Int :=
  if n % 18446744073709551616 < 9223372036854775808 then ((n % 18446744073709551616 : Nat) : Int)
  else ((n % 18446744073709551616 : Nat) : Int) - 18446744073709551616

/-- Memory write of one header cell. -/
def write (mem : Nat → chunk) (a : Nat) (c : chunk) : Nat → chunk :=
  fun x => if x = a then c else mem x

/-- State of the process as far as the allocator is concerned.
`mem` holds the headers, `flist` is the global head of the free list,
`brk` is the program break and `limit` the highest break the system grants.
`sbrk_calls` records the increments passed to `sbrk`, most recent first. -/
structure Heap where
  mem : Nat → chunk
  flist : Nat
  brk : Nat
  limit : Nat
  sbrk_calls : List Int

/-- The libc primitive `void *sbrk(intptr_t increment)`, which mylloc_list.c calls
but does not define.  On success the break moves by `increment` and the previous
break is returned; when the new break would leave `[0, limit]` the call fails
(the C function returns `(void *)-1`, here `none`) and the break stays. -/
def sbrk (h : Heap) (increment : Int) : Option Nat × Heap :=
  if 0 ≤ (h.brk : Int) + increment ∧ (h.brk : Int) + increment ≤ (h.limit : Int) then
    (some h.brk,
      { h with brk := ((h.brk : Int) + increment).toNat, sbrk_calls := increment :: h.sbrk_calls })
  else
    (none, { h with sbrk_calls := increment :: h.sbrk_calls })

/-- The test `current->size >= size` of the scan: the `int` field is converted
to `size_t` before the comparison. -/
def fits (c : chunk) (size : Nat) : Prop := to_size_t c.size ≥ size

instance fits.decidable (c : chunk) (size : Nat) : Decidable (fits c size) :=
  inferInstanceAs (Decidable (to_size_t c.size ≥ size))

/-- The `while (current != NULL)` loop of `malloc` (lines 48-64), started with the
given `prev` and `current`.
`none`: the fuel ran out.  `some none`: the loop ended with `current == NULL`.
`some (some (p, h1))`: the `return` inside the loop gave `p`, leaving state `h1`. -/
def malloc_loop (size : Nat) (h : Heap) : Nat → Nat → Nat → Option (Option (Nat × Heap))
  | fuel, prev, current =>
    if current = NULL then some none
    else
      match fuel with
      | 0 => none
      | fuel + 1 =>
        if fits (h.mem current) size then
          -- current->used = size;
          let mem1 := write h.mem current { h.mem current with used := to_int size }
          if prev = NULL then
            -- flist = current->next;
            some (some (current + sizeof_chunk, { h with mem := mem1, flist := (mem1 current).next }))
          else
            -- prev->next = current->next;
            let mem2 := write mem1 prev { mem1 prev with next := (mem1 current).next }
            some (some (current + sizeof_chunk, { h with mem := mem2 }))
        else
          malloc_loop size h fuel current (h.mem current).next

/-- The function `void *malloc(size_t size)` of mylloc_list.c.  The result is the returned pointer and
the state after the call, or `none` when the scan did not finish within `fuel`
iterations. -/
def malloc (fuel : Nat) (h : Heap) (size : Nat) : Option (Nat × Heap) :=
  if size = 0 then some (NULL, h)
  else
    match malloc_loop size h fuel NULL h.flist with
    | none => none
    | some (some r) => some r
    | some none =>
      match sbrk h (to_intptr ((size + sizeof_chunk) % 18446744073709551616)) with
      | (none, h1) => some (NULL, h1)
      | (some new_chunk, h1) =>
        -- new_chunk->size = size; new_chunk->used = size; new_chunk->next = NULL;
        let mem1 := write h1.mem new_chunk { h1.mem new_chunk with size := to_int size }
        let mem2 := write mem1 new_chunk { mem1 new_chunk with used := to_int size }
        let mem3 := write mem2 new_chunk { mem2 new_chunk with next := NULL }
        some (new_chunk + sizeof_chunk, { h1 with mem := mem3 })

/-- The function `void free(void *memory)` of mylloc_list.c. -/
def free (h : Heap) (memory : Nat) : Heap :=
  if memory = NULL then h
  else
    -- struct chunk *chunk_to_free = (struct chunk *)memory - 1;
    let chunk_to_free := memory - sizeof_chunk
    -- chunk_to_free->used = 0;
    let mem1 := write h.mem chunk_to_free { h.mem chunk_to_free with used := int_zero }
    -- chunk_to_free->next = flist;
    let mem2 := write mem1 chunk_to_free { mem1 chunk_to_free with next := h.flist }
    -- flist = chunk_to_free;
    { h with mem := mem2, flist := chunk_to_free }

/-- The allocator before any call: empty free list (`flist = NULL`), break at `b`,
no call to `sbrk` made yet.  The header cells hold zeroes. -/
def init (b limit : Nat) : Heap :=
  { mem := fun _ => ⟨int_zero, int_zero, NULL⟩, flist := NULL, brk := b, limit := limit, sbrk_calls := [] }

/-- Chain of headers: starting at `p` and following `next`, the chunks visited are
exactly those of `l`, in order, and the chain ends in `NULL`. -/
def isList (mem : Nat → chunk) : Nat → List Nat → Prop
  | p, [] => p = NULL
  | p, a :: l => p = a ∧ a ≠ NULL ∧ isList mem (mem a).next l

instance isList.decidable (mem : Nat → chunk) :
    (p : Nat) → (l : List Nat) → Decidable (isList mem p l)
  | p, [] => inferInstanceAs (Decidable (p = NULL))
  | p, a :: l =>
    have := isList.decidable mem (mem a).next l
    inferInstanceAs (Decidable (p = a ∧ a ≠ NULL ∧ isList mem (mem a).next l))

/-- Address reached from `p` after `k` links; `NULL` once the chain has ended. -/
def nth_chunk (mem : Nat → chunk) : Nat → Nat → Nat
  | p, 0 => p
  | p, k + 1 => if p = NULL then NULL else nth_chunk mem (mem p).next k

/-- A state with one free chunk of capacity 100 at address 4096 and a break that
cannot move any more: what `init 4096 4300` becomes after `malloc(100)` and the
release of the pointer it returned. -/
def full_heap : Heap :=
  { mem := write (init 4096 4300).mem 4096 ⟨to_int 100, int_zero, NULL⟩,
    flist := 4096, brk := 4212, limit := 4300, sbrk_calls := [116] }

/-- A state with two chunks in use and an empty free list: what `init 4096 65536`
becomes after `malloc(100)` (header at 4096, pointer 4112) and `malloc(50)` (header
at 4212, pointer 4228). -/
def both_live : Heap :=
  { mem := write (write (init 4096 65536).mem 4096 ⟨to_int 100, to_int 100, NULL⟩) 4212
      ⟨to_int 50, to_int 50, NULL⟩,
    flist := NULL, brk := 4278, limit := 65536, sbrk_calls := [66, 116] }

/-- State left by the `return` inside the loop when `current` is taken and `prev` is
its predecessor (`NULL` when `current` is the head). -/
def hit_state (h : Heap) (size prev current : Nat) : Heap :=
  let mem1 := write h.mem current { h.mem current with used := to_int size }
  if prev = NULL then { h with mem := mem1, flist := (mem1 current).next }
  else { h with mem := write mem1 prev { mem1 prev with next := (mem1 current).next } }

/-- Last element of `l`, or `d` when `l` is empty: the value of `prev` after the scan
has walked over `l`. -/
def last_or (d : Nat) : List Nat → Nat
  | [] => d
  | a :: l => last_or a l

/-- A state with the chunk at 4096 (capacity 100) on the free list and the chunk at
4212 (capacity 50) in use: what `init 4096 65536` becomes after `malloc(100)`,
`malloc(50)` and the release of the first pointer. -/
def one_free : Heap :=
  { mem := write (write (init 4096 65536).mem 4096 ⟨to_int 100, int_zero, NULL⟩) 4212
      ⟨to_int 50, to_int 50, NULL⟩,
    flist := 4096, brk := 4278, limit := 65536, sbrk_calls := [66, 116] }

/-! ## The audit of memstats.c -/

/-- Reduction of an integer into the range of `int`, modulo `2^32`.  C leaves the
overflow of signed arithmetic undefined; on the target gcc and clang without
optimisation produce this wrapped value, which is what the model computes. -/
def wrap_int (i : Int) : c_int :=
  if h : i % 4294967296 < 2147483648 then ⟨i % 4294967296, by omega⟩
  else ⟨i % 4294967296 - 4294967296, by omega⟩

/-- The `int` constant `1`. -/
def int_one : c_int := ⟨1, by decide⟩

/-- Addition of two `int` values, as in `free_memory += node->size`. -/
def int_add (a b : c_int) : c_int := wrap_int (a.val + b.val)

/-- Subtraction of two `int` values, as in `header->size - header->used`. -/
def int_sub (a b : c_int) : c_int := wrap_int (a.val - b.val)

/-- Values of the C type `float` as far as the audit needs them.  `quot n d` is the
result of dividing the float of `n` by the float of `d` for `d ≠ 0`, that is the
float nearest to the rational `n / d`: rounding is not modelled. -/
inductive c_float where
  | quot (num den : Int)
  | nan
  | inf (negative : Bool)
deriving DecidableEq

/-- The rational number a float stands for; NaN and the infinities stand for none. -/
def c_float.value : c_float → Option ℚ
  | c_float.quot n d => some ((n : ℚ) / (d : ℚ))
  | c_float.nan => none
  | c_float.inf _ => none

/-- The expression `(float)a / (float)b` for two `int` values: IEEE division, which
gives NaN for `0 / 0` and an infinity for any other division by zero. -/
def float_div (a b : c_int) : c_float :=
  if b.val = 0 then
    if a.val = 0 then c_float.nan else c_float.inf (decide (a.val < 0))
  else c_float.quot a.val b.val

/-- What `memstats` prints (and the local `unapplied_memory`, whose line is commented
out in the source). -/
structure Stats where
  total_blocks : c_int
  free_blocks : c_int
  used_blocks : c_int
  total_memory : c_int
  free_memory : c_int
  used_memory : c_int
  unapplied_memory : c_int
  underutilized_memory : c_float

/-- The `while (node != NULL)` loop of `memstats` (lines 46-51) with its two
accumulators; `none` when the fuel ran out. -/
def memstats_free (mem : Nat → chunk) : Nat → Nat → c_int → c_int → Option (c_int × c_int)
  | fuel, node, free_blocks, free_memory =>
    if node = NULL then some (free_blocks, free_memory)
    else
      match fuel with
      | 0 => none
      | fuel + 1 =>
        -- free_blocks++; free_memory += node->size; node = node->next;
        memstats_free mem fuel (mem node).next (int_add free_blocks int_one)
          (int_add free_memory (mem node).size)

/-- The `for` loop of `memstats` (lines 58-69) over the entries of `buffer`, with the
accumulators `used_blocks`, `used_memory` and `unapplied_memory`. -/
def memstats_used (mem : Nat → chunk) : List Nat → c_int × c_int × c_int → c_int × c_int × c_int
  | [], acc => acc
  | entry :: rest, (used_blocks, used_memory, unapplied_memory) =>
    if entry ≠ NULL then
      -- struct chunk* header = (struct chunk*)buffer[i] - 1;
      let header := mem (entry - sizeof_chunk)
      memstats_used mem rest
        (int_add used_blocks int_one, int_add used_memory header.size,
          if header.size.val > header.used.val then
            int_add unapplied_memory (int_sub header.size header.used)
          else unapplied_memory)
    else memstats_used mem rest (used_blocks, used_memory, unapplied_memory)

/-- The function `memstats(freelist, buffer, len)` of memstats.c, with `buffer` given as the list of its
`len` entries.  The result is the record of the values it computes, or `none` when
the traversal of the free list did not finish within `fuel` steps. -/
def memstats (fuel : Nat) (mem : Nat → chunk) (freelist : Nat) (buffer : List Nat) :
    Option Stats :=
  match memstats_free mem fuel freelist int_zero int_zero with
  | none => none
  | some (free_blocks, free_memory) =>
    match memstats_used mem buffer (int_zero, int_zero, int_zero) with
    | (used_blocks, used_memory, unapplied_memory) =>
      some
        { total_blocks := int_add free_blocks used_blocks
          free_blocks := free_blocks
          used_blocks := used_blocks
          total_memory := int_add used_memory free_memory
          free_memory := free_memory
          used_memory := used_memory
          unapplied_memory := unapplied_memory
          underutilized_memory := float_div unapplied_memory used_memory }

/-- Sum of the capacities of the chunks of a free list, as the specification words
`free_memory`. -/
def free_capacity (mem : Nat → chunk) (l : List Nat) : Int :=
  (l.map (fun a => (mem a).size.val)).sum

/-- The non-null entries of the array of live handles. -/
def live_entries (buffer : List Nat) : List Nat := buffer.filter (fun p => p ≠ NULL)

/-- Sum of the capacities of the chunks behind the non-null entries, as the
specification words `used_memory`. -/
def used_capacity (mem : Nat → chunk) (buffer : List Nat) : Int :=
  ((live_entries buffer).map (fun p => (mem (p - sizeof_chunk)).size.val)).sum

/-- Sum of `capacity - live_size` over the non-null entries whose capacity is above
their live size, as the specification words `wasted_memory`. -/
def wasted_capacity (mem : Nat → chunk) (buffer : List Nat) : Int :=
  (((live_entries buffer).filter
      (fun p => (mem (p - sizeof_chunk)).size.val > (mem (p - sizeof_chunk)).used.val)).map
    (fun p => (mem (p - sizeof_chunk)).size.val - (mem (p - sizeof_chunk)).used.val)).sum

/-! ## Runs of a caller -/

/-- Largest value of `int`. -/
def INT_MAX : Nat := 2147483647

/-- Largest value of `intptr_t`, the parameter type of `sbrk`. -/
def PTRDIFF_MAX : Nat := 9223372036854775807

/-- The allocator state together with the bookkeeping of its caller: `live` holds the
pointers returned by `malloc` and not yet released, `chunks` the header addresses
of all chunks created so far, newest first. -/
structure Run where
  heap : Heap
  live : List Nat
  chunks : List Nat

/-- Bookkeeping after `malloc` has returned `p` and left the state `h1`: a non-null
`p` becomes live, and when `sbrk` was called for it its header is a new chunk. -/
def after_malloc (r : Run) (p : Nat) (h1 : Heap) : Run :=
  if p = NULL then { r with heap := h1 }
  else if h1.sbrk_calls = r.heap.sbrk_calls then { r with heap := h1, live := p :: r.live }
  else { heap := h1, live := p :: r.live, chunks := (p - sizeof_chunk) :: r.chunks }

/-- Bookkeeping after `free(p)`: the pointer is no longer live. -/
def after_free (r : Run) (p : Nat) : Run :=
  { r with heap := free r.heap p, live := r.live.erase p }

/-- States reached from an empty allocator (empty free list, no chunk, a break that
is not the null address) by calls of `malloc` with sizes of at most `B` bytes and
calls of `free` on pointers that are live. -/
inductive Reachable (B : Nat) : Run → Prop
  | start (h : Heap) : h.flist = NULL → 0 < h.brk → Reachable B ⟨h, [], []⟩
  | alloc (r : Run) (fuel size p : Nat) (h1 : Heap) :
      Reachable B r → size ≤ B → malloc fuel r.heap size = some (p, h1) →
      Reachable B (after_malloc r p h1)
  | release (r : Run) (p : Nat) : Reachable B r → p ∈ r.live → Reachable B (after_free r p)

/-- One call `malloc(size)` made by the caller; the run stays as it is when the scan
does not finish within the fuel. -/
def run_malloc (fuel : Nat) (r : Run) (size : Nat) : Run :=
  match malloc fuel r.heap size with
  | some (p, h1) => after_malloc r p h1
  | none => r

/-- One call `free(p)` made by the caller on a pointer it holds; other pointers are
not released. -/
def run_free (r : Run) (p : Nat) : Run :=
  if p ∈ r.live then after_free r p else r

/-- The run that starts at `init b limit`. -/
def run_init (b limit : Nat) : Run := ⟨init b limit, [], []⟩

/-- Sum of the stored capacities of all chunks created so far. -/
def total_capacity (r : Run) : Int :=
  (r.chunks.map (fun c => (r.heap.mem c).size.val)).sum

/-- Ownership in a run: the break is not null, every chunk created lies below it at
a non-null address, no chunk was created twice, every live pointer is the address
after a header, and the chunks created are exactly those of the free list together
with those behind the live pointers, each once. -/
def Owned (r : Run) : Prop :=
  0 < r.heap.brk ∧ (∀ c ∈ r.chunks, c ≠ NULL ∧ c < r.heap.brk) ∧ r.chunks.Nodup ∧
    (∀ p ∈ r.live, sizeof_chunk ≤ p) ∧
    ∃ l, isList r.heap.mem r.heap.flist l ∧
      (l ++ r.live.map (fun p => p - sizeof_chunk)).Perm r.chunks

/-- The run of `malloc(100)`, `malloc(50)` and the release of the first pointer. -/
def demo_run : Run :=
  run_free (run_malloc 0 (run_malloc 0 (run_init 4096 65536) 100) 50) 4112

/-- Sizes in range in a run: every chunk created has a positive stored capacity, and
every chunk behind a live pointer has a live size between 0 and its capacity. -/
def InRange (r : Run) : Prop :=
  (∀ c ∈ r.chunks, 0 < (r.heap.mem c).size.val) ∧
    ∀ p ∈ r.live, 0 ≤ (r.heap.mem (p - sizeof_chunk)).used.val ∧
      (r.heap.mem (p - sizeof_chunk)).used.val ≤ (r.heap.mem (p - sizeof_chunk)).size.val

/-- Layout of the chunks in a run: the region of every chunk, header and payload of
the stored capacity, ends at or below the break, and in the list of chunks, newest
first, every older chunk ends at or below the start of every newer one. -/
def Layout (r : Run) : Prop :=
  (∀ c ∈ r.chunks, (c : Int) + sizeof_chunk + (r.heap.mem c).size.val ≤ r.heap.brk) ∧
    r.chunks.Pairwise
      (fun (c d : Nat) => (d : Int) + sizeof_chunk + (r.heap.mem d).size.val ≤ (c : Int))

/-- The libc function `printf` as far as the allocator is concerned.  libc is not part
of this repository; its contract here: the first output to `stdout` allocates the
buffer of the stream with a call `malloc(bufsize)`, which in this program is the
`malloc` of mylloc_list.c, and every later output uses that buffer.  `buffered`
tells whether `stdout` has its buffer; `bufsize` is the choice of libc (the block
size of the output file) and a parameter.  The result is the new value of
`buffered` and the allocator state, or `none` when the scan of `malloc` ran out of
fuel. -/
def printf (fuel bufsize : Nat) (buffered : Bool) (h : Heap) : Option (Bool × Heap) :=
  if buffered then some (true, h)
  else
    match malloc fuel h bufsize with
    | none => none
    | some (_, h1) => some (true, h1)

/-- A call `memstats(flist, buffer, len)` as a step of the process: the values computed
from the state of entry, then the three calls of `printf` (lines 76-79).  The
result holds these values, whether `stdout` has its buffer, the allocator state
and the array of handles after the call.  No statement of `memstats` itself
assigns to a header, to `flist` or to an entry of `buffer`. -/
def memstats_call (fuel bufsize : Nat) (buffered : Bool) (h : Heap) (buffer : List Nat) :
    Option (Stats × Bool × Heap × List Nat) :=
  match memstats fuel h.mem h.flist buffer with
  | none => none
  | some s =>
    match printf fuel bufsize buffered h with
    | none => none
    | some (buffered1, h1) =>
      match printf fuel bufsize buffered1 h1 with
      | none => none
      | some (buffered2, h2) =>
        match printf fuel bufsize buffered2 h2 with
        | none => none
        | some (buffered3, h3) => some (s, buffered3, h3, buffer)

/-- The run of two calls `malloc(18446744073709551600)`, for which
`size + sizeof(struct chunk)` wraps to 0, and of two calls `free` on the pointer
that both returned. -/
def wrap_run : Run :=
  run_free (run_free (run_malloc 0 (run_malloc 0 (run_init 4096 65536) 18446744073709551600)
    18446744073709551600) 4112) 4112

/-- The run of `malloc(2147483647)`, `malloc(2147483647)` and `malloc(3)`, the release
of the first two pointers, and two calls `malloc(1)`, which reuse the two chunks
released. -/
def reuse_run : Run :=
  run_malloc 1 (run_malloc 2 (run_free (run_free (run_malloc 0 (run_malloc 0
    (run_malloc 0 (run_init 4096 1099511627776) 2147483647) 2147483647) 3) 4112) 2147487775) 1) 1

/-- The run of two calls `malloc(1073741824)`. -/
def gib_run : Run :=
  run_malloc 0 (run_malloc 0 (run_init 4096 1099511627776) 1073741824) 1073741824

end Mylloc

/-! # Steganography of A06 (encode.c, decode.c)

The colour bytes of the image (`unsigned char`, three for each pixel) and the
characters of the message are lists of numbers from 0 to 255.  The image has
`width * height * 3` bytes, a number within the range of `int`.  Reading and
writing the PPM file are outside the model.
-/

namespace Stego

/-- Conversion of an `int` to `size_t`, as done by the usual arithmetic conversions
in the comparison `strlen(message) > maxChars`: reduction modulo `2^64`. -/
def to_size_t (i : Int) : Nat := (i % 18446744073709551616).toNat

/-- The C string held in a `char` array, given as the list of its bytes: the bytes
before the first NUL.  The end of the list stands for the terminator that `fgets`
writes. -/
def c_string (message : List Nat) : List Nat := message.takeWhile (fun c => c ≠ 0)

/-- The libc function `strlen`. -/
def strlen (message : List Nat) : Nat := (c_string message).length

/-- The expression `(width * height * 3) / 8 - 1` of encode.c (line 40), for an image of
`n = width * height * 3` colour bytes. -/
def maxChars (n : Nat) : Int := (n : Int) / 8 - 1

/-- The statement `bytePtr[bitIndex] = (bytePtr[bitIndex] & ~1) | bitValue;` of encode.c.
The byte is an `unsigned char`, so `& ~1` keeps its bits 1 to 7, which is `&&& 254`.
`none` when `bitIndex` lies outside the array, which C leaves undefined. -/
def write_lsb (bytes : List Nat) (bitIndex bitValue : Nat) : Option (List Nat) :=
  if h : bitIndex < bytes.length then
    some (bytes.set bitIndex ((bytes[bitIndex] &&& 254) ||| bitValue))
  else none

/-- The inner loop of encode.c (lines 58-65) for the character `c`, started at `bitIndex`:
`bit` runs from 0 to 7 and `bitValue = (message[i] >> bit) & 1`, which is bit `bit`
of the byte also where `char` is signed and the character negative. -/
def embed_char (c bitIndex : Nat) (bytes : List Nat) : Option (List Nat) :=
  (List.range 8).foldlM (fun bs bit => write_lsb bs (bitIndex + bit) ((c >>> bit) &&& 1)) bytes

/-- The outer loop of encode.c (lines 57-66) over the characters of `message`, which
ends at the first NUL. -/
def embed_message : List Nat → Nat → List Nat → Option (List Nat)
  | [], _, bytes => some bytes
  | c :: rest, bitIndex, bytes =>
    if c = 0 then some bytes
    else
      match embed_char c bitIndex bytes with
      | none => none
      | some bytes1 => embed_message rest (bitIndex + 8) bytes1

/-- The loop of encode.c (lines 69-76) that clears eight least significant bits after
the message: `bitIndex = 8 * strlen(message) + bit`. -/
def embed_terminator (message bytes : List Nat) : Option (List Nat) :=
  (List.range 8).foldlM (fun bs bit => write_lsb bs (8 * strlen message + bit) 0) bytes

/-- What `main` of encode.c does once the image is read.  `too_long`: the message
"Error: Message too long for the image" and `return 1`, no byte written.
`written bytes`: both loops ran, and these are the bytes handed to `write_ppm`.
`out_of_bounds`: a store fell outside the array of pixels. -/
inductive encode_result where
  | too_long
  | written (bytes : List Nat)
  | out_of_bounds
deriving DecidableEq

/-- The function `main` of encode.c from line 40 on, for the colour bytes of the image and the
array `message` after `fgets` and the removal of the newline.  The `size_t` value
`strlen(message)` is compared with the `int` value `maxChars` converted to
`size_t`. -/
def encode_main (bytes message : List Nat) : encode_result :=
  if strlen message > to_size_t (maxChars bytes.length) then encode_result.too_long
  else
    match embed_message message 0 bytes with
    | none => encode_result.out_of_bounds
    | some bytes1 =>
      match embed_terminator message bytes1 with
      | none => encode_result.out_of_bounds
      | some bytes2 => encode_result.written bytes2

/-- The loop of decode.c (lines 54-71) over the colour bytes still to read, with the
locals `bitPos` and `currentChar` and the characters stored in `message` so far.
`currentChar` is an `unsigned char`; the value computed never leaves its range. -/
def decode_loop : List Nat → Nat → Nat → List Nat → List Nat
  | [], _, _, message => message
  | b :: rest, bitPos, currentChar, message =>
    -- unsigned char lsb = bytePtr[i] & 1; currentChar |= (lsb << (7 - bitPos)); bitPos++;
    let currentChar1 := currentChar ||| ((b &&& 1) <<< (7 - bitPos))
    if bitPos + 1 = 8 then
      if currentChar1 = 0 then message
      else decode_loop rest 0 0 (message ++ [currentChar1])
    else decode_loop rest (bitPos + 1) currentChar1 message

/-- The string that `main` of decode.c prints for the colour bytes of an image. -/
def decode_main (bytes : List Nat) : List Nat := decode_loop bytes 0 0 []

end Stego

/-! # Binary search tree of A11 (tree.c)

Strings are lists of bytes, the bytes before the terminator.  A tree is a value:
the pointer structure of the nodes is not modelled.
-/

namespace Bst

/-- A value of type `struct tree_node *`: the null pointer, or a node with the string
held in `data.name` (its bytes before the terminator) and its two children. -/
inductive tree_node where
  | null
  | node (name : List Nat) (left right : tree_node)
deriving DecidableEq

/-- The libc function `strcmp` on two strings given by their bytes before the
terminator: bytes are compared as `unsigned char`, and a string that ends first is
the smaller one.  The result is negative, zero or positive; tree.c tests its sign
only, and the model returns -1, 0 or 1. -/
def strcmp : List Nat → List Nat → Int
  | [], [] => 0
  | [], _ :: _ => -1
  | _ :: _, [] => 1
  | a :: s, b :: t => if a < b then -1 else if b < a then 1 else strcmp s t

/-- The function `find(name, root)` of tree.c. -/
def find (name : List Nat) : tree_node → tree_node
  | tree_node.null => tree_node.null
  | tree_node.node root_name left right =>
    if strcmp root_name name = 0 then tree_node.node root_name left right
    else if strcmp name root_name < 0 then find name left
    else find name right

/-- The function `insert(name, root)` of tree.c.  The array `data.name` is declared in tree.h,
which is not among the sources: its number of bytes is the parameter `name_size`.
`strcpy` stays inside the array when the string and its terminator fit; otherwise
it writes past the array, which C leaves undefined: `none`.  `malloc` is taken to
succeed (on failure the program exits). -/
def insert (name_size : Nat) (name : List Nat) : tree_node → Option tree_node
  | tree_node.null =>
    if name.length < name_size then some (tree_node.node name tree_node.null tree_node.null)
    else none
  | tree_node.node root_name left right =>
    if strcmp name root_name < 0 then
      -- root->left = insert(name, root->left);
      match insert name_size name left with
      | none => none
      | some left1 => some (tree_node.node root_name left1 right)
    else if strcmp name root_name > 0 then
      -- root->right = insert(name, root->right);
      match insert name_size name right with
      | none => none
      | some right1 => some (tree_node.node root_name left right1)
    else some (tree_node.node root_name left right)

/-- A sequence of calls `root = insert(name, root)`, one for each name of the list in
order. -/
def insert_calls (name_size : Nat) : List (List Nat) → tree_node → Option tree_node
  | [], root => some root
  | name :: rest, root =>
    match insert name_size name root with
    | none => none
    | some root1 => insert_calls name_size rest root1

/-- The names held in a tree, left subtree first. -/
def names : tree_node → List (List Nat)
  | tree_node.null => []
  | tree_node.node name left right => names left ++ name :: names right

/-- Search-tree order: at every node the names of the left subtree compare below the
name of the node and those of the right subtree above it. -/
def Ordered : tree_node → Prop
  | tree_node.null => True
  | tree_node.node name left right =>
    Ordered left ∧ Ordered right ∧ (∀ x ∈ names left, strcmp x name < 0) ∧
      (∀ x ∈ names right, strcmp x name > 0)

end Bst

namespace Mylloc

/-! ## Basic facts about the conversions and the memory -/

/-- Reading the cell that was just written gives the written header. -/
theorem write_same (mem : Nat → chunk) (a : Nat) (c : chunk) : write mem a c a = c := by
  simp [write]

/-- A write leaves every other cell as it was. -/
theorem write_other (mem : Nat → chunk) (a x : Nat) (c : chunk) (hx : x ≠ a) :
    write mem a c x = mem x := by
  simp [write, hx]

/-- Within the range of `int`, the stored value is the requested size. -/
theorem to_int_val_of_lt (n : Nat) (hn : n < 2147483648) : (to_int n).val = (n : Int) := by
  unfold to_int
  split <;> simp <;> omega

/-- A header whose stored capacity is at least `size` passes the test of the scan. -/
theorem fits_of_le (c : chunk) (size : Nat) (hc : (size : Int) ≤ c.size.val) : fits c size := by
  have hr := c.size.property
  unfold fits to_size_t
  omega

/-- For a non-negative stored capacity the test of the scan is the comparison of
the capacity with the size. -/
theorem fits_iff_of_nonneg (c : chunk) (size : Nat) (hc : 0 ≤ c.size.val) :
    fits c size ↔ (size : Int) ≤ c.size.val := by
  have hr := c.size.property
  unfold fits to_size_t
  omega

/-- A negative stored capacity passes the test of the scan for every size up to
`2^64 - 2^31`: the conversion to `size_t` turns it into a value of at least that. -/
theorem fits_of_neg (c : chunk) (size : Nat) (hc : c.size.val < 0)
    (hs : size ≤ 18446744071562067968) : fits c size := by
  have hr := c.size.property
  unfold fits to_size_t
  omega

/-! ## Chains of headers -/

/-- A write to a cell outside the chain leaves the chain as it was. -/
theorem isList_write_of_not_mem (mem : Nat → chunk) (c : Nat) (x : chunk) :
    ∀ (l : List Nat) (p : Nat), c ∉ l → isList mem p l → isList (write mem c x) p l := by
  intro l
  induction l with
  | nil => intro p _ hl; exact hl
  | cons a l ih =>
    intro p hc hl
    simp only [isList] at hl ⊢
    obtain ⟨hp, ha, hl⟩ := hl
    have hac : a ≠ c := fun e => hc (by simp [e])
    refine ⟨hp, ha, ?_⟩
    rw [write_other _ _ _ _ hac]
    exact ih _ (fun hm => hc (by simp [hm])) hl

/-- The chain that starts at an address is determined by the memory. -/
theorem isList_unique (mem : Nat → chunk) :
    ∀ (l l2 : List Nat) (p : Nat), isList mem p l → isList mem p l2 → l = l2 := by
  intro l
  induction l with
  | nil =>
    intro l2 p h1 h2
    cases l2 with
    | nil => rfl
    | cons b l2 =>
      simp only [isList] at h1 h2
      exact absurd (h2.1 ▸ h1) h2.2.1
  | cons a l ih =>
    intro l2 p h1 h2
    cases l2 with
    | nil =>
      simp only [isList] at h1 h2
      exact absurd (h1.1 ▸ h2) h1.2.1
    | cons b l2 =>
      simp only [isList] at h1 h2
      obtain ⟨e1, _, t1⟩ := h1
      obtain ⟨e2, _, t2⟩ := h2
      have hab : a = b := e1.symm.trans e2
      subst hab
      rw [ih l2 _ t1 t2]

/-- Every chunk of a chain starts a chain of its own, which is shorter. -/
theorem isList_of_mem (mem : Nat → chunk) :
    ∀ (l : List Nat) (p a : Nat), isList mem p l → a ∈ l →
      ∃ l2, isList mem a (a :: l2) ∧ l2.length < l.length := by
  intro l
  induction l with
  | nil => intro p a _ ha; simp at ha
  | cons b l ih =>
    intro p a hl ha
    simp only [isList] at hl
    rcases List.mem_cons.1 ha with rfl | hmem
    · exact ⟨l, by simp only [isList]; exact ⟨trivial, hl.2.1, hl.2.2⟩, by simp⟩
    · obtain ⟨l2, h2, hlen⟩ := ih _ a hl.2.2 hmem
      exact ⟨l2, h2, by simp; omega⟩

/-- A chain that ends in `NULL` visits no chunk twice. -/
theorem isList_nodup (mem : Nat → chunk) :
    ∀ (l : List Nat) (p : Nat), isList mem p l → l.Nodup := by
  intro l
  induction l with
  | nil => intro p _; exact List.nodup_nil
  | cons a l ih =>
    intro p hl
    have hl2 := hl
    simp only [isList] at hl2
    obtain ⟨rfl, ha, ht⟩ := hl2
    refine List.nodup_cons.2 ⟨?_, ih _ ht⟩
    intro hmem
    obtain ⟨l2, h2, hlen⟩ := isList_of_mem mem l _ p ht hmem
    have := isList_unique mem _ _ p hl h2
    simp at this
    subst this
    omega

/-- The part of a chain from one of its chunks on is a chain. -/
theorem isList_append_right (mem : Nat → chunk) :
    ∀ (l1 l2 : List Nat) (p c : Nat), isList mem p (l1 ++ c :: l2) → isList mem c (c :: l2) := by
  intro l1
  induction l1 with
  | nil =>
    intro l2 p c hl
    simp only [List.nil_append, isList] at hl ⊢
    exact ⟨trivial, hl.2.1, hl.2.2⟩
  | cons a l1 ih =>
    intro l2 p c hl
    simp only [List.cons_append, isList] at hl
    exact ih l2 _ c hl.2.2

/-- Unlinking patches one link: with `p` the predecessor of `c`, the chain that went
through `p` and `c` goes through `p` alone afterwards. -/
theorem isList_patch (mem : Nat → chunk) (p c : Nat) (x : chunk) (l2 : List Nat) :
    ∀ (l1 : List Nat) (head : Nat), isList mem head (l1 ++ p :: c :: l2) →
      (l1 ++ p :: c :: l2).Nodup →
      isList (write (write mem c x) p { write mem c x p with next := (mem c).next }) head
        (l1 ++ p :: l2) := by
  intro l1
  induction l1 with
  | nil =>
    intro head hl hnd
    simp only [List.nil_append, isList] at hl ⊢
    obtain ⟨rfl, hp, _, hc, ht⟩ := hl
    simp only [List.nil_append, List.nodup_cons, List.mem_cons, not_or] at hnd
    obtain ⟨⟨_, hpl⟩, hcl, _⟩ := hnd
    refine ⟨rfl, hp, ?_⟩
    rw [write_same]
    exact isList_write_of_not_mem _ _ _ _ _ hpl (isList_write_of_not_mem _ _ _ _ _ hcl ht)
  | cons a l1 ih =>
    intro head hl hnd
    simp only [List.cons_append, isList] at hl ⊢
    obtain ⟨rfl, ha, ht⟩ := hl
    simp only [List.cons_append, List.nodup_cons, List.mem_append, List.mem_cons, not_or] at hnd
    obtain ⟨⟨_, hap, hac, _⟩, hnd⟩ := hnd
    refine ⟨rfl, ha, ?_⟩
    rw [write_other _ _ _ _ hap, write_other _ _ _ _ hac]
    exact ih _ ht hnd

/-- After the scan has walked over `l ++ [p]`, `prev` is `p`. -/
theorem last_or_concat : ∀ (l : List Nat) (d p : Nat), last_or d (l ++ [p]) = p := by
  intro l
  induction l with
  | nil => intro d p; rfl
  | cons a l ih => intro d p; simp only [List.cons_append, last_or]; exact ih a p

/-! ## The scan of `malloc` -/

/-- When some chunk reachable from `current` passes the test, the loop returns from
inside its body: it gives a non-null pointer and touches neither the break nor `sbrk`. -/
theorem malloc_loop_hit (size : Nat) (h : Heap) :
    ∀ (k fuel prev current : Nat), k < fuel →
      nth_chunk h.mem current k ≠ NULL →
      fits (h.mem (nth_chunk h.mem current k)) size →
      ∃ r, malloc_loop size h fuel prev current = some (some r) ∧ r.1 ≠ NULL ∧
        r.2.sbrk_calls = h.sbrk_calls ∧ r.2.brk = h.brk ∧ r.2.limit = h.limit := by
  intro k
  induction k with
  | zero =>
    intro fuel prev current hk hne hfit
    obtain ⟨f, rfl⟩ : ∃ f, fuel = f + 1 := ⟨fuel - 1, by omega⟩
    simp only [nth_chunk] at hne hfit
    unfold malloc_loop
    simp only [hne, hfit, if_true, if_false]
    by_cases hp : prev = NULL
    · rw [if_pos hp]
      exact ⟨_, rfl, by simp [NULL, sizeof_chunk], rfl, rfl, rfl⟩
    · rw [if_neg hp]
      exact ⟨_, rfl, by simp [NULL, sizeof_chunk], rfl, rfl, rfl⟩
  | succ k ih =>
    intro fuel prev current hk hne hfit
    obtain ⟨f, rfl⟩ : ∃ f, fuel = f + 1 := ⟨fuel - 1, by omega⟩
    have hcur : current ≠ NULL := by
      intro hc
      simp [nth_chunk, hc] at hne
    simp only [nth_chunk, hcur, if_false] at hne hfit
    unfold malloc_loop
    simp only [hcur, if_false]
    by_cases hf : fits (h.mem current) size
    · simp only [hf, if_true]
      by_cases hp : prev = NULL
      · rw [if_pos hp]
        exact ⟨_, rfl, by simp [NULL, sizeof_chunk], rfl, rfl, rfl⟩
      · rw [if_neg hp]
        exact ⟨_, rfl, by simp [NULL, sizeof_chunk], rfl, rfl, rfl⟩
    · simp only [hf, if_false]
      exact ih f current (h.mem current).next (by omega) hne hfit

/-- When the chain from `current` is a list on which no chunk passes the test,
the loop runs off its end, for any fuel that covers the list. -/
theorem malloc_loop_miss (size : Nat) (h : Heap) :
    ∀ (l : List Nat) (fuel prev current : Nat), l.length ≤ fuel →
      isList h.mem current l → (∀ a ∈ l, ¬ fits (h.mem a) size) →
      malloc_loop size h fuel prev current = some none := by
  intro l
  induction l with
  | nil =>
    intro fuel prev current _ hl _
    simp only [isList] at hl
    unfold malloc_loop
    simp [hl]
  | cons a l ih =>
    intro fuel prev current hk hl hno
    obtain ⟨f, rfl⟩ : ∃ f, fuel = f + 1 := ⟨fuel - 1, by simp at hk; omega⟩
    simp only [isList] at hl
    obtain ⟨rfl, ha, hl⟩ := hl
    unfold malloc_loop
    have hfa : ¬ fits (h.mem current) size := hno current (by simp)
    simp only [ha, hfa, if_false]
    exact ih f current (h.mem current).next (by simp at hk; omega) hl
      (fun b hb => hno b (by simp [hb]))

/-- The scan stops at the first chunk that passes the test: with `l1` the chunks
before it, the loop returns its payload pointer and leaves `hit_state`. -/
theorem malloc_loop_first_fit (size : Nat) (h : Heap) (c : Nat) (l2 : List Nat) :
    ∀ (l1 : List Nat) (fuel prev current : Nat), l1.length < fuel →
      isList h.mem current (l1 ++ c :: l2) → (∀ a ∈ l1, ¬ fits (h.mem a) size) →
      fits (h.mem c) size →
      malloc_loop size h fuel prev current
        = some (some (c + sizeof_chunk, hit_state h size (last_or prev l1) c)) := by
  intro l1
  induction l1 with
  | nil =>
    intro fuel prev current hk hl _ hc
    obtain ⟨f, rfl⟩ : ∃ f, fuel = f + 1 := ⟨fuel - 1, by simp at hk; omega⟩
    simp only [List.nil_append, isList] at hl
    obtain ⟨rfl, hne, _⟩ := hl
    unfold malloc_loop
    simp only [hne, hc, if_true, if_false, hit_state, last_or]
    by_cases hp : prev = NULL
    · simp only [hp, if_true]
    · simp only [hp, if_false]
  | cons a l1 ih =>
    intro fuel prev current hk hl hno hc
    obtain ⟨f, rfl⟩ : ∃ f, fuel = f + 1 := ⟨fuel - 1, by simp at hk; omega⟩
    simp only [List.cons_append, isList] at hl
    obtain ⟨rfl, hne, hl⟩ := hl
    have hfa : ¬ fits (h.mem current) size := hno current (by simp)
    unfold malloc_loop
    simp only [hne, hfa, if_false]
    rw [ih f current (h.mem current).next (by simp at hk; omega) hl
      (fun b hb => hno b (by simp [hb])) hc]
    simp only [last_or]

/-- A request that the head of the free list satisfies: the head is unlinked and returned. -/
theorem malloc_head_hit (h : Heap) (size f c : Nat) (hs : size ≠ 0) (hhead : h.flist = c)
    (hc : c ≠ NULL) (hf : fits (h.mem c) size) :
    malloc (f + 1) h size = some (c + sizeof_chunk,
      { h with mem := write h.mem c { h.mem c with used := to_int size },
               flist := (h.mem c).next }) := by
  subst hhead
  simp only [malloc, hs, if_false, malloc_loop, hc, hf, if_true, write_same]

/-- First fit, by the test of the scan.  When the free list is `l1 ++ c :: l2`, no
chunk of `l1` passes the test `current->size >= size` and `c` does, then with any
fuel above the length of `l1`, `malloc` returns the payload pointer of `c`; the
free list becomes `l1 ++ l2`; the `used` field of `c` is `size` converted to `int`;
no capacity changes, no other `used` field changes, and the break and the record
of `sbrk` calls stay as they were. -/
theorem malloc_first_fit (h : Heap) (size c : Nat) (l1 l2 : List Nat) (hs : 0 < size)
    (hl : isList h.mem h.flist (l1 ++ c :: l2)) (hno : ∀ a ∈ l1, ¬ fits (h.mem a) size)
    (hc : fits (h.mem c) size) :
    ∀ fuel, l1.length < fuel → ∃ h1, malloc fuel h size = some (c + sizeof_chunk, h1) ∧
      isList h1.mem h1.flist (l1 ++ l2) ∧ (h1.mem c).used = to_int size ∧
      (∀ a, (h1.mem a).size = (h.mem a).size) ∧
      (∀ a, a ≠ c → (h1.mem a).used = (h.mem a).used) ∧
      h1.brk = h.brk ∧ h1.limit = h.limit ∧ h1.sbrk_calls = h.sbrk_calls := by
  intro fuel hfuel
  have hs0 : size ≠ 0 := by omega
  have hloop := malloc_loop_first_fit size h c l2 l1 fuel NULL h.flist hfuel hl hno hc
  refine ⟨hit_state h size (last_or NULL l1) c, ?_, ?_⟩
  · simp only [malloc, hs0, if_false, hloop]
  have hnd := isList_nodup _ _ _ hl
  rcases List.eq_nil_or_concat l1 with rfl | ⟨l0, p, rfl⟩
  · -- the head is taken
    simp only [List.nil_append, isList] at hl
    obtain ⟨_, _, ht⟩ := hl
    have hcl : c ∉ l2 := (List.nodup_cons.1 hnd).1
    simp only [last_or, hit_state, if_true, write_same, List.nil_append]
    refine ⟨isList_write_of_not_mem _ _ _ _ _ hcl ht, trivial, ?_, ?_, trivial, trivial, trivial⟩
    · intro a
      by_cases hac : a = c
      · subst hac; rw [write_same]
      · rw [write_other _ _ _ _ hac]
    · intro a hac
      rw [write_other _ _ _ _ hac]
  · -- the predecessor `p` is patched
    have hl3 : isList h.mem h.flist (l0 ++ p :: c :: l2) := by simpa using hl
    have hnd3 : (l0 ++ p :: c :: l2).Nodup := by simpa using hnd
    have hp : p ≠ NULL := by
      have := isList_append_right _ _ _ _ _ hl3
      simp only [isList] at this
      exact this.2.1
    have hpc : p ≠ c := by
      have := (List.nodup_append.1 hnd3).2.1
      simp only [List.nodup_cons, List.mem_cons, not_or] at this
      exact this.1.1
    have hlast : last_or NULL (l0 ++ [p]) = p := last_or_concat _ _ _
    simp only [List.concat_eq_append, hlast, hit_state, hp, if_false, write_same]
    refine ⟨?_, ?_, ?_, ?_, trivial, trivial, trivial⟩
    · have := isList_patch h.mem p c { h.mem c with used := to_int size } l2 l0 h.flist hl3 hnd3
      simpa using this
    · rw [write_other _ _ _ _ (fun e => hpc e.symm), write_same]
    · intro a
      by_cases hap : a = p
      · subst hap; rw [write_same, write_other _ _ _ _ hpc]
      · rw [write_other _ _ _ _ hap]
        by_cases hac : a = c
        · subst hac; rw [write_same]
        · rw [write_other _ _ _ _ hac]
    · intro a hac
      by_cases hap : a = p
      · subst hap; rw [write_same, write_other _ _ _ _ hpc]
      · rw [write_other _ _ _ _ hap, write_other _ _ _ _ hac]

/-- First fit for capacities in range.  When the chunks of `l1` have non-negative
capacities below `size` and the capacity of `c` is at least `size`, `malloc` takes
`c`, and the `used` field of `c` holds `size` itself. -/
theorem malloc_first_fit_nonneg (h : Heap) (size c : Nat) (l1 l2 : List Nat) (hs : 0 < size)
    (hl : isList h.mem h.flist (l1 ++ c :: l2))
    (hno : ∀ a ∈ l1, 0 ≤ (h.mem a).size.val ∧ (h.mem a).size.val < (size : Int))
    (hc : (size : Int) ≤ (h.mem c).size.val) :
    ∀ fuel, l1.length < fuel → ∃ h1, malloc fuel h size = some (c + sizeof_chunk, h1) ∧
      isList h1.mem h1.flist (l1 ++ l2) ∧ (h1.mem c).used.val = (size : Int) ∧
      (∀ a, (h1.mem a).size = (h.mem a).size) ∧
      (∀ a, a ≠ c → (h1.mem a).used = (h.mem a).used) ∧
      h1.brk = h.brk ∧ h1.limit = h.limit ∧ h1.sbrk_calls = h.sbrk_calls := by
  intro fuel hfuel
  have hno2 : ∀ a ∈ l1, ¬ fits (h.mem a) size := by
    intro a ha hf
    have := (fits_iff_of_nonneg _ _ (hno a ha).1).1 hf
    have := (hno a ha).2
    omega
  obtain ⟨h1, e, hlist, hu, rest⟩ :=
    malloc_first_fit h size c l1 l2 hs hl hno2 (fits_of_le _ _ hc) fuel hfuel
  refine ⟨h1, e, hlist, ?_, rest⟩
  rw [hu]
  have hr := (h.mem c).size.property
  exact to_int_val_of_lt size (by omega)

/-- Miss with a successful `sbrk`.  When the free list is `l`, no chunk of it passes
the test of the scan and the break may move by the requested increment, `malloc`
asks `sbrk` for `size + sizeof(struct chunk)` bytes (as an `intptr_t`), writes the
header at the old break with both `int` fields set to `size` converted to `int`,
and returns the address after it; the head and every other header stay. -/
theorem malloc_miss (h : Heap) (size : Nat) (l : List Nat) (hs : 0 < size)
    (hl : isList h.mem h.flist l) (hno : ∀ a ∈ l, ¬ fits (h.mem a) size)
    (hok : 0 ≤ (h.brk : Int) + to_intptr ((size + sizeof_chunk) % 18446744073709551616) ∧
      (h.brk : Int) + to_intptr ((size + sizeof_chunk) % 18446744073709551616) ≤ (h.limit : Int)) :
    ∀ fuel, l.length ≤ fuel → ∃ h1, malloc fuel h size = some (h.brk + sizeof_chunk, h1) ∧
      h1.flist = h.flist ∧ h1.mem h.brk = ⟨to_int size, to_int size, NULL⟩ ∧
      (∀ a, a ≠ h.brk → h1.mem a = h.mem a) ∧
      h1.sbrk_calls = to_intptr ((size + sizeof_chunk) % 18446744073709551616) :: h.sbrk_calls ∧
      (h1.brk : Int) = (h.brk : Int) + to_intptr ((size + sizeof_chunk) % 18446744073709551616) := by
  intro fuel hfuel
  have hloop := malloc_loop_miss size h l fuel NULL h.flist hfuel hl hno
  have hs0 : size ≠ 0 := by omega
  apply Exists.intro
  refine And.intro ?_ ?_
  · simp only [malloc, hs0, hloop, if_false, sbrk, hok, and_self, if_true]
    rfl
  · refine ⟨rfl, ?_, ?_, rfl, ?_⟩
    · simp only [write_same]
    · intro a ha
      simp only [write_other _ _ _ _ ha]
    · simp only
      omega

/-- A pointer returned from inside the loop is the payload pointer of a chunk that
passed the test; its capacity field is untouched and its `used` field holds the
converted size. -/
theorem malloc_loop_result (size : Nat) (h : Heap) :
    ∀ (fuel prev current p : Nat) (h1 : Heap),
      malloc_loop size h fuel prev current = some (some (p, h1)) →
      ∃ c, c ≠ NULL ∧ p = c + sizeof_chunk ∧ fits (h.mem c) size ∧
        (h1.mem c).size = (h.mem c).size ∧ (h1.mem c).used = to_int size := by
  intro fuel
  induction fuel with
  | zero =>
    intro prev current p h1 hm
    unfold malloc_loop at hm
    by_cases hc : current = NULL
    · simp [hc] at hm
    · simp [hc] at hm
  | succ f ih =>
    intro prev current p h1 hm
    unfold malloc_loop at hm
    by_cases hc : current = NULL
    · simp [hc] at hm
    · simp only [hc, if_false] at hm
      by_cases hf : fits (h.mem current) size
      · simp only [hf, if_true] at hm
        refine ⟨current, hc, ?_, hf, ?_⟩
        · by_cases hp : prev = NULL
          · simp only [hp, if_true, Option.some.injEq, Prod.mk.injEq] at hm
            exact hm.1.symm
          · simp only [hp, if_false, Option.some.injEq, Prod.mk.injEq] at hm
            exact hm.1.symm
        · by_cases hp : prev = NULL
          · simp only [hp, if_true, Option.some.injEq, Prod.mk.injEq] at hm
            obtain ⟨_, rfl⟩ := hm
            simp only [write_same, and_self]
          · simp only [hp, if_false, Option.some.injEq, Prod.mk.injEq] at hm
            obtain ⟨_, rfl⟩ := hm
            by_cases hcp : current = prev
            · subst hcp
              simp only [write_same, and_self]
            · simp only [write_other _ _ _ _ hcp, write_same, and_self]
      · simp only [hf, if_false] at hm
        exact ih _ _ _ _ hm

/-- Capacity sufficiency within the range of `int`.  When every header holds a
non-negative capacity and `size` is at most `INT_MAX`, a non-null pointer returned
by `malloc(size)` has a header whose stored capacity is at least `size`. -/
theorem malloc_capacity_sufficient_in_range (h : Heap) (size fuel p : Nat) (h1 : Heap)
    (hsz : size < 2147483648) (hnn : ∀ a, 0 ≤ (h.mem a).size.val)
    (hm : malloc fuel h size = some (p, h1)) (hp : p ≠ NULL) :
    (size : Int) ≤ (h1.mem (p - sizeof_chunk)).size.val := by
  unfold malloc at hm
  by_cases hs : size = 0
  · simp only [hs, if_true, Option.some.injEq, Prod.mk.injEq] at hm
    exact absurd hm.1.symm hp
  · simp only [hs, if_false] at hm
    cases hloop : malloc_loop size h fuel NULL h.flist with
    | none => simp [hloop] at hm
    | some r =>
      cases r with
      | some r =>
        obtain ⟨q, h2⟩ := r
        simp only [hloop, Option.some.injEq, Prod.mk.injEq] at hm
        obtain ⟨rfl, rfl⟩ := hm
        obtain ⟨c, _, rfl, hf, hsize, _⟩ := malloc_loop_result size h fuel NULL h.flist _ _ hloop
        rw [Nat.add_sub_cancel, hsize]
        exact (fits_iff_of_nonneg _ _ (hnn c)).1 hf
      | none =>
        simp only [hloop, sbrk] at hm
        by_cases hok : 0 ≤ (h.brk : Int) + to_intptr ((size + sizeof_chunk) % 18446744073709551616) ∧
            (h.brk : Int) + to_intptr ((size + sizeof_chunk) % 18446744073709551616) ≤ (h.limit : Int)
        · simp only [hok, and_self, if_true, Option.some.injEq, Prod.mk.injEq] at hm
          obtain ⟨rfl, rfl⟩ := hm
          simp only [Nat.add_sub_cancel, write_same]
          rw [to_int_val_of_lt size hsz]
        · simp only [hok, if_false, Option.some.injEq, Prod.mk.injEq] at hm
          exact absurd hm.1.symm hp

/-! ## Effect of `free` -/

/-- After `free` the head of the free list is the released chunk. -/
theorem free_flist (h : Heap) (c : Nat) : (free h (c + sizeof_chunk)).flist = c := by
  simp [free, NULL, sizeof_chunk]

/-- After `free` the released header keeps its capacity, has `used = 0` and links to
the old head. -/
theorem free_mem_self (h : Heap) (c : Nat) :
    (free h (c + sizeof_chunk)).mem c = ⟨(h.mem c).size, int_zero, h.flist⟩ := by
  simp [free, NULL, sizeof_chunk, write_same]

/-- The call of `free` writes no header but the released one. -/
theorem free_mem_other (h : Heap) (c a : Nat) (ha : a ≠ c) :
    (free h (c + sizeof_chunk)).mem a = h.mem a := by
  simp [free, NULL, sizeof_chunk, write_other _ _ _ _ ha]

/-! ## The example states are reached by calls -/

/-- The state `full_heap` is what `malloc(100)` and the release of its result leave. -/
theorem full_heap_reached :
    ∃ h1, malloc 0 (init 4096 4300) 100 = some (4112, h1) ∧
      (free h1 4112).mem = full_heap.mem ∧ (free h1 4112).flist = full_heap.flist ∧
      (free h1 4112).brk = full_heap.brk ∧ (free h1 4112).limit = full_heap.limit ∧
      (free h1 4112).sbrk_calls = full_heap.sbrk_calls := by
  refine ⟨_, rfl, ?_, rfl, rfl, rfl, rfl⟩
  funext a
  by_cases h2 : a = 4096
  · subst h2; rfl
  · simp [full_heap, free, init, write, h2, NULL, sizeof_chunk]

/-- The state `both_live` is what `malloc(100)` and `malloc(50)` leave. -/
theorem both_live_reached :
    ∃ h1 h2, malloc 0 (init 4096 65536) 100 = some (4112, h1) ∧
      malloc 0 h1 50 = some (4228, h2) ∧ h2.mem = both_live.mem ∧ h2.flist = both_live.flist ∧
      h2.brk = both_live.brk ∧ h2.limit = both_live.limit ∧
      h2.sbrk_calls = both_live.sbrk_calls := by
  refine ⟨_, _, rfl, rfl, ?_, rfl, rfl, rfl, rfl⟩
  funext a
  by_cases h1 : a = 4212
  · subst h1; rfl
  · by_cases h2 : a = 4096
    · subst h2; rfl
    · have e0 : to_intptr ((100 + sizeof_chunk) % 18446744073709551616) = 116 := by decide
      have e1 : to_intptr 116 = 116 := by decide
      simp [both_live, init, write, h1, h2, e0, e1]

/-- The state `one_free` is what `malloc(100)`, `malloc(50)` and the release of the first
result leave. -/
theorem one_free_reached :
    ∃ h1 h2, malloc 0 (init 4096 65536) 100 = some (4112, h1) ∧
      malloc 0 h1 50 = some (4228, h2) ∧ (free h2 4112).mem = one_free.mem ∧
      (free h2 4112).flist = one_free.flist ∧ (free h2 4112).brk = one_free.brk ∧
      (free h2 4112).limit = one_free.limit ∧
      (free h2 4112).sbrk_calls = one_free.sbrk_calls := by
  refine ⟨_, _, rfl, rfl, ?_, rfl, rfl, rfl, rfl⟩
  funext a
  by_cases h1 : a = 4212
  · subst h1; rfl
  · by_cases h2 : a = 4096
    · subst h2; rfl
    · have e0 : to_intptr ((100 + sizeof_chunk) % 18446744073709551616) = 116 := by decide
      have e1 : to_intptr 116 = 116 := by decide
      simp [one_free, free, init, write, h1, h2, NULL, sizeof_chunk, e0, e1]

/-! ## Claims C1 to C10 -/

/-- C1 (defect of the code).  On the empty allocator, with a break that `sbrk` may move
by 2 GiB, `malloc(2147483648)` returns the non-null pointer 4112, and the header
before it, at 4096, records the capacity `-2147483648`: the `size_t` request was
narrowed into the `int` field `size`.  The stored capacity is below the request. -/
theorem malloc_capacity_below_request :
    ∃ p h1, malloc 0 (init 4096 1099511627776) 2147483648 = some (p, h1) ∧ p = 4112 ∧
      (h1.mem (p - sizeof_chunk)).size.val = -2147483648 := by
  refine ⟨4112, _, rfl, rfl, ?_⟩
  decide

/-- C2 (defect of the code).  After `q = malloc(100)`, `p = malloc(2147483648)`,
`free(q)`, `free(p)` the free list is the chunk of `p` (stored capacity
`-2147483648`) followed by the chunk of `q` (capacity 100).  The call `malloc(50)`
returns `p`: the negative `int` capacity is converted to `size_t` in the test
`current->size >= size` and passes it, although the first chunk in link order
whose capacity is at least 50 is the chunk of `q`. -/
theorem first_fit_takes_negative_capacity :
    (do
      let (q, h1) ← malloc 0 (init 4096 1099511627776) 100
      let (p, h2) ← malloc 0 h1 2147483648
      let h4 := free (free h2 q) p
      let (r, _) ← malloc 2 h4 50
      pure (q, p, decide (isList h4.mem h4.flist [p - sizeof_chunk, q - sizeof_chunk]),
        (h4.mem (p - sizeof_chunk)).size.val, (h4.mem (q - sizeof_chunk)).size.val, r))
      = some (4112, 4228, true, -2147483648, 100, 4228) := by
  decide

/-- C3.  Reuse before growth: in every state and for every `size > 0`, when the chunk
reached from the head of the free list after `k` links has a stored capacity of
at least `size`, `malloc(size)` returns (any fuel above `k` is enough) a non-null
pointer, makes no call to `sbrk` and leaves the break where it was. -/
theorem malloc_reuses_before_growth (h : Heap) (size k : Nat) (hs : 0 < size)
    (hk : nth_chunk h.mem h.flist k ≠ NULL)
    (hcap : (size : Int) ≤ (h.mem (nth_chunk h.mem h.flist k)).size.val) :
    ∀ fuel, k < fuel → ∃ p h1, malloc fuel h size = some (p, h1) ∧ p ≠ NULL ∧
      h1.sbrk_calls = h.sbrk_calls ∧ h1.brk = h.brk := by
  intro fuel hfuel
  obtain ⟨r, hr, hp, hc, hb, _⟩ :=
    malloc_loop_hit size h k fuel NULL h.flist hfuel hk (fits_of_le _ _ hcap)
  refine ⟨r.1, r.2, ?_, hp, hc, hb⟩
  have hs0 : size ≠ 0 := by omega
  simp [malloc, hs0, hr]

/-- C3 at `full_heap`, whose free chunk has capacity 100, for a request of 50 bytes. -/
theorem malloc_reuses_before_growth_witness :
    0 < 50 ∧ nth_chunk full_heap.mem full_heap.flist 0 ≠ NULL ∧
      ((50 : Nat) : Int) ≤ (full_heap.mem (nth_chunk full_heap.mem full_heap.flist 0)).size.val ∧
      ∃ p h1, malloc 1 full_heap 50 = some (p, h1) ∧ p ≠ NULL ∧
        h1.sbrk_calls = full_heap.sbrk_calls ∧ h1.brk = full_heap.brk :=
  ⟨by decide, by decide, by decide,
    malloc_reuses_before_growth full_heap 50 0 (by decide) (by decide) (by decide) 1 (by decide)⟩

/-- C4 (defect of the code).  After `p = malloc(2147483648)` and `free(p)`, the call
`malloc(2147483648)` reuses the chunk (it returns `p` again and `sbrk` has been
called once in all), and `current->used = size` leaves `-2147483648` in the field
`used`: the live size of the reused chunk is not the requested size. -/
theorem reuse_truncates_live_size :
    (do
      let (p, h1) ← malloc 0 (init 4096 1099511627776) 2147483648
      let (r, h3) ← malloc 1 (free h1 p) 2147483648
      pure (p, r, h3.sbrk_calls.length, (h3.mem (r - sizeof_chunk)).used.val))
      = some (4112, 4112, 1, -2147483648) := by
  decide

/-- C5 (defect of the code).  On the empty allocator `malloc(2147483648)` misses, asks
`sbrk` for `2147483648 + 16` bytes, returns the address after the new header and
leaves the free list empty, but the new header holds `size = -2147483648` and
`used = -2147483648`: capacity and live size are not the requested size. -/
theorem malloc_miss_truncates :
    ∃ p h1, malloc 0 (init 4096 1099511627776) 2147483648 = some (p, h1) ∧
      p = 4096 + sizeof_chunk ∧ h1.sbrk_calls = [2147483664] ∧ h1.flist = NULL ∧
      (h1.mem 4096).size.val = -2147483648 ∧ (h1.mem 4096).used.val = -2147483648 := by
  refine ⟨4112, _, rfl, rfl, rfl, rfl, ?_, ?_⟩ <;> decide

/-- C7 as stated fails for a size of 0.  With `a = malloc(100)` and `b = malloc(50)`,
after `free(a)` then `free(b)` the size 0 is at most both capacities (100 and 50),
yet `malloc(0)` returns `NULL` and not `b`: the guard `if (size == 0)` comes first. -/
theorem lifo_fails_for_size_zero :
    (do
      let (a, h1) ← malloc 0 (init 4096 65536) 100
      let (b, h2) ← malloc 0 h1 50
      let (r, _) ← malloc 2 (free (free h2 a) b) 0
      pure (a, b, r, (h2.mem (a - sizeof_chunk)).size.val, (h2.mem (b - sizeof_chunk)).size.val))
      = some (4112, 4228, NULL, 100, 50) := by
  decide

/-- C7, amended.  LIFO order: for two distinct chunks `A` and `B` (non-null header
addresses) and sizes `s1 > 0`, `s2 > 0` that are at most the capacity of both,
after `free` of the pointer of `A` and then of the pointer of `B`, `malloc(s1)`
returns the payload pointer of `B` and the next call `malloc(s2)` returns the
payload pointer of `A`, in every state and with any fuel above 0. -/
theorem malloc_after_two_frees (h : Heap) (A B s1 s2 : Nat)
    (hA : A ≠ NULL) (hB : B ≠ NULL) (hAB : A ≠ B) (h1pos : 0 < s1) (h2pos : 0 < s2)
    (_h1A : (s1 : Int) ≤ (h.mem A).size.val) (h1B : (s1 : Int) ≤ (h.mem B).size.val)
    (h2A : (s2 : Int) ≤ (h.mem A).size.val) (_h2B : (s2 : Int) ≤ (h.mem B).size.val) :
    ∀ fuel, 0 < fuel → ∃ h1 h2,
      malloc fuel (free (free h (A + sizeof_chunk)) (B + sizeof_chunk)) s1
        = some (B + sizeof_chunk, h1) ∧
      malloc fuel h1 s2 = some (A + sizeof_chunk, h2) := by
  intro fuel hfuel
  obtain ⟨f, rfl⟩ : ∃ f, fuel = f + 1 := ⟨fuel - 1, by omega⟩
  have hs1 : s1 ≠ 0 := by omega
  have hs2 : s2 ≠ 0 := by omega
  have hmB : (free (free h (A + sizeof_chunk)) (B + sizeof_chunk)).mem B
      = ⟨(h.mem B).size, int_zero, A⟩ := by
    rw [free_mem_self, free_flist, free_mem_other _ _ _ (fun e => hAB e.symm)]
  have hmA : (free (free h (A + sizeof_chunk)) (B + sizeof_chunk)).mem A
      = ⟨(h.mem A).size, int_zero, h.flist⟩ := by
    rw [free_mem_other _ _ _ hAB, free_mem_self]
  have e1 := malloc_head_hit (free (free h (A + sizeof_chunk)) (B + sizeof_chunk)) s1 f B hs1
    (free_flist _ _) hB (by rw [hmB]; exact fits_of_le _ _ h1B)
  obtain ⟨h1, e1, hfl, hm⟩ : ∃ h1,
      malloc (f + 1) (free (free h (A + sizeof_chunk)) (B + sizeof_chunk)) s1
        = some (B + sizeof_chunk, h1) ∧ h1.flist = A ∧
      h1.mem A = ⟨(h.mem A).size, int_zero, h.flist⟩ :=
    ⟨_, e1, by simp only [hmB], by simp only [write_other _ _ _ _ hAB, hmA]⟩
  exact ⟨h1, _, e1, malloc_head_hit h1 s2 f A hs2 hfl hA (by rw [hm]; exact fits_of_le _ _ h2A)⟩

/-- C7 amended, at `both_live`: chunks at 4096 and 4212, sizes 30 and 50. -/
theorem malloc_after_two_frees_witness :
    (4096 : Nat) ≠ NULL ∧ (4212 : Nat) ≠ NULL ∧ (4096 : Nat) ≠ 4212 ∧ 0 < 30 ∧ 0 < 50 ∧
      ((30 : Nat) : Int) ≤ (both_live.mem 4096).size.val ∧
      ((30 : Nat) : Int) ≤ (both_live.mem 4212).size.val ∧
      ((50 : Nat) : Int) ≤ (both_live.mem 4096).size.val ∧
      ((50 : Nat) : Int) ≤ (both_live.mem 4212).size.val ∧
      ∃ h1 h2,
        malloc 1 (free (free both_live (4096 + sizeof_chunk)) (4212 + sizeof_chunk)) 30
          = some (4212 + sizeof_chunk, h1) ∧
        malloc 1 h1 50 = some (4096 + sizeof_chunk, h2) :=
  ⟨by decide, by decide, by decide, by decide, by decide, by decide, by decide, by decide,
    by decide,
    malloc_after_two_frees both_live 4096 4212 30 50 (by decide) (by decide) (by decide)
      (by decide) (by decide) (by decide) (by decide) (by decide) (by decide) 1 (by decide)⟩

/-- Heap exhaustion as the code sees it: when the free list is the chain `l`, no chunk
of it passes the test of the scan, `size > 0` and `sbrk` fails for the request,
`malloc(size)` returns `NULL` (any fuel that covers the list is enough) and the
head of the free list, every header and the break are exactly as before the call. -/
theorem malloc_exhausted_atomic (h : Heap) (size : Nat) (l : List Nat) (hs : 0 < size)
    (hl : isList h.mem h.flist l) (hno : ∀ a ∈ l, ¬ fits (h.mem a) size)
    (hfail : (sbrk h (to_intptr ((size + sizeof_chunk) % 18446744073709551616))).1 = none) :
    ∀ fuel, l.length ≤ fuel → ∃ h1, malloc fuel h size = some (NULL, h1) ∧
      h1.flist = h.flist ∧ h1.mem = h.mem ∧ h1.brk = h.brk ∧ h1.limit = h.limit := by
  intro fuel hfuel
  have hloop := malloc_loop_miss size h l fuel NULL h.flist hfuel hl hno
  have hs0 : size ≠ 0 := by omega
  unfold sbrk at hfail
  split at hfail
  · simp at hfail
  · rename_i hcond
    refine ⟨(sbrk h (to_intptr ((size + sizeof_chunk) % 18446744073709551616))).2, ?_, ?_⟩
    · simp only [malloc, hs0, hloop, if_false, sbrk, hcond]
    · simp only [sbrk, hcond, if_false, and_self]

/-- Heap exhaustion at `full_heap`: a request of 200 bytes misses the free chunk of
capacity 100 and the break cannot move. -/
theorem malloc_exhausted_atomic_example :
    0 < 200 ∧ isList full_heap.mem full_heap.flist [4096] ∧
      (∀ a ∈ [4096], ¬ fits (full_heap.mem a) 200) ∧
      (sbrk full_heap (to_intptr ((200 + sizeof_chunk) % 18446744073709551616))).1 = none ∧
      ∃ h1, malloc 1 full_heap 200 = some (NULL, h1) ∧
        h1.flist = full_heap.flist ∧ h1.mem = full_heap.mem ∧ h1.brk = full_heap.brk ∧
        h1.limit = full_heap.limit :=
  ⟨by decide, by decide, by decide, by decide,
    malloc_exhausted_atomic full_heap 200 [4096] (by decide) (by decide) (by decide) (by decide)
      1 (by decide)⟩

/-- Heap exhaustion for non-negative stored capacities: when every chunk of the free
list has a stored capacity between 0 and `size`, `size` excluded, and `sbrk` fails
for the request, `malloc(size)` returns `NULL` and leaves the state as it was. -/
theorem malloc_exhausted_atomic_nonneg (h : Heap) (size : Nat) (l : List Nat) (hs : 0 < size)
    (hl : isList h.mem h.flist l)
    (hno : ∀ a ∈ l, 0 ≤ (h.mem a).size.val ∧ (h.mem a).size.val < (size : Int))
    (hfail : (sbrk h (to_intptr ((size + sizeof_chunk) % 18446744073709551616))).1 = none) :
    ∀ fuel, l.length ≤ fuel → ∃ h1, malloc fuel h size = some (NULL, h1) ∧
      h1.flist = h.flist ∧ h1.mem = h.mem ∧ h1.brk = h.brk ∧ h1.limit = h.limit :=
  malloc_exhausted_atomic h size l hs hl
    (fun a ha hf => by
      have := (fits_iff_of_nonneg _ _ (hno a ha).1).1 hf
      have := (hno a ha).2
      omega) hfail

/-- C9.  Zero-size request: `malloc(0)` returns `NULL` and leaves the whole state
as it was (head of the free list, every header, the break and the record of `sbrk`
calls, so no call to `sbrk` was made), whatever the state and the fuel. -/
theorem malloc_zero (fuel : Nat) (h : Heap) : malloc fuel h 0 = some (NULL, h) := by
  simp [malloc]

/-- C10.  Release of the null pointer: `free(NULL)` leaves the whole state as it was
(head of the free list and every field of every header). -/
theorem free_null (h : Heap) : free h NULL = h := by
  simp [free]

/-! ## Totality and frame of `malloc` -/

/-- On a free list that ends in `NULL` the loop finishes within as many iterations
as the list has chunks. -/
theorem malloc_loop_total (size : Nat) (h : Heap) :
    ∀ (l : List Nat) (fuel prev current : Nat), isList h.mem current l → l.length ≤ fuel →
      ∃ x, malloc_loop size h fuel prev current = some x := by
  intro l
  induction l with
  | nil =>
    intro fuel prev current hl _
    simp only [isList] at hl
    unfold malloc_loop
    exact ⟨none, by simp [hl]⟩
  | cons a l ih =>
    intro fuel prev current hl hk
    obtain ⟨f, rfl⟩ : ∃ f, fuel = f + 1 := ⟨fuel - 1, by simp at hk; omega⟩
    simp only [isList] at hl
    obtain ⟨rfl, ha, hl⟩ := hl
    unfold malloc_loop
    simp only [ha, if_false]
    by_cases hf : fits (h.mem current) size
    · simp only [hf, if_true]
      by_cases hp : prev = NULL
      · exact ⟨_, by rw [if_pos hp]⟩
      · exact ⟨_, by rw [if_neg hp]⟩
    · simp only [hf, if_false]
      exact ih f current (h.mem current).next hl (by simp at hk; omega)

/-- On a free list that ends in `NULL` the call `malloc(size)` returns, whatever the
size, with any fuel that covers the list. -/
theorem malloc_total (h : Heap) (l : List Nat) (size fuel : Nat)
    (hl : isList h.mem h.flist l) (hfuel : l.length ≤ fuel) :
    ∃ p h1, malloc fuel h size = some (p, h1) := by
  unfold malloc
  by_cases hs : size = 0
  · exact ⟨NULL, h, by simp [hs]⟩
  · simp only [hs, if_false]
    obtain ⟨x, hx⟩ := malloc_loop_total size h l fuel NULL h.flist hl hfuel
    rw [hx]
    cases x with
    | some r => exact ⟨r.1, r.2, rfl⟩
    | none =>
      simp only
      split <;> exact ⟨_, _, rfl⟩

/-- The state left by a hit differs from the old one in the `used` field of the
chunk taken and in one link: capacities stay, the `next` field of the chunk taken
stays, and so do the break, its limit and the record of `sbrk` calls. -/
theorem hit_state_frame (h : Heap) (size prev c : Nat) :
    (∀ a, ((hit_state h size prev c).mem a).size = (h.mem a).size) ∧
      ((hit_state h size prev c).mem c).next = (h.mem c).next ∧
      ((hit_state h size prev c).mem c).used = to_int size ∧
      (∀ a, a ≠ c → ((hit_state h size prev c).mem a).used = (h.mem a).used) ∧
      (hit_state h size prev c).brk = h.brk ∧ (hit_state h size prev c).limit = h.limit ∧
      (hit_state h size prev c).sbrk_calls = h.sbrk_calls := by
  unfold hit_state
  by_cases hp : prev = NULL
  · simp only [hp, if_true, write_same]
    refine ⟨?_, trivial, trivial, ?_, trivial, trivial, trivial⟩
    · intro a
      by_cases hac : a = c
      · subst hac; rw [write_same]
      · rw [write_other _ _ _ _ hac]
    · intro a hac
      rw [write_other _ _ _ _ hac]
  · simp only [hp, if_false, write_same]
    refine ⟨?_, ?_, ?_, ?_, trivial, trivial, trivial⟩
    · intro a
      by_cases hap : a = prev
      · subst hap
        rw [write_same]
        by_cases hac : a = c
        · subst hac; rw [write_same]
        · rw [write_other _ _ _ _ hac]
      · rw [write_other _ _ _ _ hap]
        by_cases hac : a = c
        · subst hac; rw [write_same]
        · rw [write_other _ _ _ _ hac]
    · by_cases hcp : c = prev
      · subst hcp; rw [write_same]
      · rw [write_other _ _ _ _ hcp, write_same]
    · by_cases hcp : c = prev
      · subst hcp; rw [write_same, write_same]
      · rw [write_other _ _ _ _ hcp, write_same]
    · intro a hac
      by_cases hap : a = prev
      · subst hap; rw [write_same, write_other _ _ _ _ hac]
      · rw [write_other _ _ _ _ hap, write_other _ _ _ _ hac]

/-- A result returned from inside the loop is `hit_state` at the first chunk of the
list that passes the test. -/
theorem malloc_loop_list (size : Nat) (h : Heap) :
    ∀ (l : List Nat) (fuel prev current p : Nat) (h1 : Heap), isList h.mem current l →
      malloc_loop size h fuel prev current = some (some (p, h1)) →
      ∃ l1 c l2, l = l1 ++ c :: l2 ∧ (∀ a ∈ l1, ¬ fits (h.mem a) size) ∧
        fits (h.mem c) size ∧ p = c + sizeof_chunk ∧
        h1 = hit_state h size (last_or prev l1) c := by
  intro l
  induction l with
  | nil =>
    intro fuel prev current p h1 hl hm
    simp only [isList] at hl
    unfold malloc_loop at hm
    simp [hl] at hm
  | cons a l ih =>
    intro fuel prev current p h1 hl hm
    simp only [isList] at hl
    obtain ⟨rfl, ha, hl⟩ := hl
    unfold malloc_loop at hm
    simp only [ha, if_false] at hm
    cases fuel with
    | zero => simp at hm
    | succ f =>
      simp only at hm
      by_cases hf : fits (h.mem current) size
      · simp only [hf, if_true] at hm
        refine ⟨[], current, l, rfl, by simp, hf, ?_, ?_⟩
        · by_cases hp : prev = NULL
          · simp only [hp, if_true, Option.some.injEq, Prod.mk.injEq] at hm
            exact hm.1.symm
          · simp only [hp, if_false, Option.some.injEq, Prod.mk.injEq] at hm
            exact hm.1.symm
        · simp only [last_or, hit_state]
          by_cases hp : prev = NULL
          · simp only [hp, if_true, Option.some.injEq, Prod.mk.injEq] at hm ⊢
            exact hm.2.symm
          · simp only [hp, if_false, Option.some.injEq, Prod.mk.injEq] at hm ⊢
            exact hm.2.symm
      · simp only [hf, if_false] at hm
        obtain ⟨l1, c, l2, rfl, hno, hc, hp, hh⟩ := ih f current _ p h1 hl hm
        refine ⟨current :: l1, c, l2, rfl, ?_, hc, hp, ?_⟩
        · intro b hb
          rcases List.mem_cons.1 hb with rfl | hb
          · exact hf
          · exact hno b hb
        · simpa [last_or] using hh

/-- After a hit at `c`, the free list is the old one without `c`. -/
theorem hit_state_isList (h : Heap) (size c : Nat) (l1 l2 : List Nat) (hs : 0 < size)
    (hl : isList h.mem h.flist (l1 ++ c :: l2)) (hno : ∀ a ∈ l1, ¬ fits (h.mem a) size)
    (hc : fits (h.mem c) size) :
    isList (hit_state h size (last_or NULL l1) c).mem (hit_state h size (last_or NULL l1) c).flist
      (l1 ++ l2) := by
  obtain ⟨h1, hm, hlist, _⟩ :=
    malloc_first_fit h size c l1 l2 hs hl hno hc (l1.length + 1) (by omega)
  have hloop := malloc_loop_first_fit size h c l2 l1 (l1.length + 1) NULL h.flist (by omega)
    hl hno hc
  have hs0 : size ≠ 0 := by omega
  simp only [malloc, hs0, if_false, hloop, Option.some.injEq, Prod.mk.injEq, true_and] at hm
  rw [hm]
  exact hlist

/-- When the loop runs off the end of the list, no chunk of the list passed the test. -/
theorem malloc_loop_none_no_fit (size : Nat) (h : Heap) :
    ∀ (l : List Nat) (fuel prev current : Nat), isList h.mem current l →
      malloc_loop size h fuel prev current = some none → ∀ a ∈ l, ¬ fits (h.mem a) size := by
  intro l
  induction l with
  | nil => intro fuel prev current _ _ a ha; simp at ha
  | cons b l ih =>
    intro fuel prev current hl hm
    simp only [isList] at hl
    obtain ⟨rfl, hb, hl⟩ := hl
    unfold malloc_loop at hm
    simp only [hb, if_false] at hm
    cases fuel with
    | zero => simp at hm
    | succ f =>
      simp only at hm
      by_cases hf : fits (h.mem current) size
      · simp only [hf, if_true] at hm
        by_cases hp : prev = NULL
        · simp [hp] at hm
        · simp [hp] at hm
      · simp only [hf, if_false] at hm
        intro a ha
        rcases List.mem_cons.1 ha with rfl | ha
        · exact hf
        · exact ih f current _ hl hm a ha

/-- What a call of `malloc` that returns has done, on a free list `l` that ends in
`NULL`.  Either it returned `NULL` and wrote nothing; or it took the first chunk
`c` of `l` that passes the test, leaving the list without `c`; or no chunk passed
and it wrote a new header at the old break, which `sbrk` moved by the increment. -/
theorem malloc_spec (h : Heap) (l : List Nat) (fuel size p : Nat) (h1 : Heap)
    (hl : isList h.mem h.flist l) (hm : malloc fuel h size = some (p, h1)) :
    (p = NULL ∧ h1.mem = h.mem ∧ h1.flist = h.flist ∧ h1.brk = h.brk ∧ h1.limit = h.limit) ∨
    (∃ l1 c l2, l = l1 ++ c :: l2 ∧ p = c + sizeof_chunk ∧ 0 < size ∧
      (∀ a ∈ l1, ¬ fits (h.mem a) size) ∧ fits (h.mem c) size ∧
      isList h1.mem h1.flist (l1 ++ l2) ∧
      (∀ a, (h1.mem a).size = (h.mem a).size) ∧ (h1.mem c).next = (h.mem c).next ∧
      (h1.mem c).used = to_int size ∧ (∀ a, a ≠ c → (h1.mem a).used = (h.mem a).used) ∧
      h1.brk = h.brk ∧ h1.limit = h.limit ∧ h1.sbrk_calls = h.sbrk_calls) ∨
    (0 < size ∧ (∀ a ∈ l, ¬ fits (h.mem a) size) ∧ p = h.brk + sizeof_chunk ∧
      h1.flist = h.flist ∧
      h1.mem h.brk = ⟨to_int size, to_int size, NULL⟩ ∧ (∀ a, a ≠ h.brk → h1.mem a = h.mem a) ∧
      h1.sbrk_calls = to_intptr ((size + sizeof_chunk) % 18446744073709551616) :: h.sbrk_calls ∧
      (h1.brk : Int) = (h.brk : Int) + to_intptr ((size + sizeof_chunk) % 18446744073709551616) ∧
      h1.limit = h.limit) := by
  unfold malloc at hm
  by_cases hs : size = 0
  · simp only [hs, if_true, Option.some.injEq, Prod.mk.injEq] at hm
    obtain ⟨rfl, rfl⟩ := hm
    exact Or.inl ⟨rfl, rfl, rfl, rfl, rfl⟩
  · have hpos : 0 < size := by omega
    simp only [hs, if_false] at hm
    cases hloop : malloc_loop size h fuel NULL h.flist with
    | none => simp [hloop] at hm
    | some x =>
      cases x with
      | some r =>
        obtain ⟨q, h2⟩ := r
        simp only [hloop, Option.some.injEq, Prod.mk.injEq] at hm
        obtain ⟨rfl, rfl⟩ := hm
        obtain ⟨l1, c, l2, rfl, hno, hc, hp, hh⟩ :=
          malloc_loop_list size h l fuel NULL h.flist _ _ hl hloop
        have hfr := hit_state_frame h size (last_or NULL l1) c
        have hli := hit_state_isList h size c l1 l2 hpos hl hno hc
        rw [← hh] at hfr hli
        exact Or.inr (Or.inl ⟨l1, c, l2, rfl, hp, hpos, hno, hc, hli, hfr⟩)
      | none =>
        have hno := malloc_loop_none_no_fit size h l fuel NULL h.flist hl hloop
        simp only [hloop, sbrk] at hm
        by_cases hok : 0 ≤ (h.brk : Int) + to_intptr ((size + sizeof_chunk) % 18446744073709551616) ∧
            (h.brk : Int) + to_intptr ((size + sizeof_chunk) % 18446744073709551616) ≤ (h.limit : Int)
        · simp only [hok, and_self, if_true, Option.some.injEq, Prod.mk.injEq] at hm
          obtain ⟨rfl, rfl⟩ := hm
          refine Or.inr (Or.inr ⟨hpos, hno, rfl, rfl, ?_, ?_, rfl, ?_, rfl⟩)
          · simp only [write_same]
          · intro a ha
            simp only [write_other _ _ _ _ ha]
          · simp only
            omega
        · simp only [hok, if_false, Option.some.injEq, Prod.mk.injEq] at hm
          obtain ⟨rfl, rfl⟩ := hm
          exact Or.inl ⟨rfl, rfl, rfl, rfl, rfl⟩

/-- The call of `free` changes no capacity. -/
theorem free_size (h : Heap) (p a : Nat) : ((free h p).mem a).size = (h.mem a).size := by
  unfold free
  by_cases hp : p = NULL
  · simp only [hp, if_true]
  · simp only [hp, if_false]
    by_cases ha : a = p - sizeof_chunk
    · subst ha; simp only [write_same]
    · simp only [write_other _ _ _ _ ha]

/-! ## Ownership in reachable runs -/

/-- A chain depends only on the headers of its chunks. -/
theorem isList_congr (m1 m2 : Nat → chunk) :
    ∀ (l : List Nat) (p : Nat), (∀ a ∈ l, m2 a = m1 a) → isList m1 p l → isList m2 p l := by
  intro l
  induction l with
  | nil => intro p _ hl; exact hl
  | cons a l ih =>
    intro p hm hl
    simp only [isList] at hl ⊢
    obtain ⟨hp, ha, hl⟩ := hl
    refine ⟨hp, ha, ?_⟩
    rw [hm a (by simp)]
    exact ih _ (fun b hb => hm b (by simp [hb])) hl

/-- Pushing a chunk that is not on the free list puts it in front of the list. -/
theorem free_isList (h : Heap) (p : Nat) (l : List Nat) (hp : p ≠ NULL)
    (hl : isList h.mem h.flist l) (hc : p - sizeof_chunk ≠ NULL) (hnot : p - sizeof_chunk ∉ l) :
    isList (free h p).mem (free h p).flist ((p - sizeof_chunk) :: l) := by
  simp only [free, hp, if_false, isList, write_same]
  exact ⟨trivial, hc, isList_write_of_not_mem _ _ _ _ _ hnot
    (isList_write_of_not_mem _ _ _ _ _ hnot hl)⟩

/-- For a request of at most `B` bytes with `B + sizeof(struct chunk) <= PTRDIFF_MAX`,
the increment passed to `sbrk` is the sum itself. -/
theorem request_eq (B size : Nat) (hB : B + sizeof_chunk ≤ PTRDIFF_MAX) (hs : size ≤ B) :
    to_intptr ((size + sizeof_chunk) % 18446744073709551616) = ((size + sizeof_chunk : Nat) : Int) := by
  simp only [PTRDIFF_MAX, sizeof_chunk] at hB ⊢
  unfold to_intptr
  have h1 : (size + 16) % 18446744073709551616 = size + 16 := Nat.mod_eq_of_lt (by omega)
  rw [h1, h1, if_pos (by omega)]

/-- Ownership holds at the start of a run. -/
theorem owned_start (h : Heap) (hf : h.flist = NULL) (hb : 0 < h.brk) : Owned ⟨h, [], []⟩ := by
  refine ⟨hb, ?_, List.nodup_nil, ?_, [], ?_, ?_⟩
  · intro c hc; simp at hc
  · intro p hp; simp at hp
  · simpa [isList] using hf
  · simp

/-- Ownership is kept by `free` of a live pointer. -/
theorem owned_release (r : Run) (p : Nat) (ho : Owned r) (hp : p ∈ r.live) :
    Owned (after_free r p) := by
  obtain ⟨hb, hch, hnd, hlive, l, hl, hperm⟩ := ho
  have hp16 : sizeof_chunk ≤ p := hlive p hp
  have hpn : p ≠ NULL := by simp only [sizeof_chunk, NULL] at hp16 ⊢; omega
  have hcm : p - sizeof_chunk ∈ r.live.map (fun q => q - sizeof_chunk) :=
    List.mem_map.2 ⟨p, hp, rfl⟩
  have hcc : p - sizeof_chunk ∈ r.chunks :=
    hperm.subset (List.mem_append.2 (Or.inr hcm))
  have hnd2 : (l ++ r.live.map (fun q => q - sizeof_chunk)).Nodup := hperm.nodup_iff.2 hnd
  have hcl : p - sizeof_chunk ∉ l := fun hm =>
    (List.nodup_append.1 hnd2).2.2 hm hcm
  have hfb : (free r.heap p).brk = r.heap.brk := by simp [free, hpn]
  refine ⟨?_, ?_, hnd, ?_, (p - sizeof_chunk) :: l, ?_, ?_⟩
  · simpa [after_free, hfb] using hb
  · intro c hc
    have := hch c hc
    simpa [after_free, hfb] using this
  · intro q hq
    exact hlive q (List.mem_of_mem_erase hq)
  · exact free_isList r.heap p l hpn hl (hch _ hcc).1 hcl
  · have h1 : (r.live.map (fun q => q - sizeof_chunk)).Perm
        ((p - sizeof_chunk) :: (r.live.erase p).map (fun q => q - sizeof_chunk)) :=
      (List.perm_cons_erase hp).map _
    have h2 : ((p - sizeof_chunk) :: l ++ (r.live.erase p).map (fun q => q - sizeof_chunk)).Perm
        (l ++ r.live.map (fun q => q - sizeof_chunk)) := by
      refine List.Perm.trans ?_ (List.Perm.append_left l h1.symm)
      exact (List.perm_middle).symm
    exact h2.trans hperm

/-- Ownership is kept by `malloc` when the request fits the parameter of `sbrk`. -/
theorem owned_alloc (B : Nat) (r : Run) (fuel size p : Nat) (h1 : Heap)
    (hB : B + sizeof_chunk ≤ PTRDIFF_MAX) (ho : Owned r) (hs : size ≤ B)
    (hm : malloc fuel r.heap size = some (p, h1)) : Owned (after_malloc r p h1) := by
  obtain ⟨hb, hch, hnd, hlive, l, hl, hperm⟩ := ho
  rcases malloc_spec r.heap l fuel size p h1 hl hm with
    ⟨hp, hmem, hfl, hbrk, _⟩ |
    ⟨l1, c, l2, rfl, hp, _, _, _, hli, _, _, _, _, hbrk, _, hcalls⟩ |
    ⟨_, _, hp, hfl, _, hoth, hcalls, hbrk, _⟩
  · -- `NULL` was returned
    simp only [after_malloc, hp, if_true]
    refine ⟨by rw [hbrk]; exact hb, ?_, hnd, hlive, l, ?_, hperm⟩
    · intro c hc; rw [hbrk]; exact hch c hc
    · rw [hmem, hfl]; exact hl
  · -- the chunk `c` of the free list was taken
    have hpn : p ≠ NULL := by rw [hp]; simp [NULL, sizeof_chunk]
    simp only [after_malloc, hpn, if_false, hcalls, if_true]
    refine ⟨by rw [hbrk]; exact hb, ?_, hnd, ?_, l1 ++ l2, hli, ?_⟩
    · intro a ha; rw [hbrk]; exact hch a ha
    · intro q hq
      rcases List.mem_cons.1 hq with rfl | hq
      · rw [hp]; exact Nat.le_add_left _ _
      · exact hlive q hq
    · have e : p - sizeof_chunk = c := by rw [hp]; omega
      simp only [List.map_cons, e]
      refine List.Perm.trans ?_ hperm
      have h1 : (l1 ++ l2 ++ c :: r.live.map (fun q => q - sizeof_chunk)).Perm
          (c :: (l1 ++ l2 ++ r.live.map (fun q => q - sizeof_chunk))) := List.perm_middle
      have h2 : (l1 ++ c :: l2 ++ r.live.map (fun q => q - sizeof_chunk)).Perm
          (c :: (l1 ++ l2 ++ r.live.map (fun q => q - sizeof_chunk))) := by
        simp
      exact h1.trans h2.symm
  · -- a new chunk was made at the old break
    have hpn : p ≠ NULL := by rw [hp]; simp [NULL, sizeof_chunk]
    have hne : ¬ h1.sbrk_calls = r.heap.sbrk_calls := by
      rw [hcalls]
      intro e
      have := congrArg List.length e
      simp at this
    have e : p - sizeof_chunk = r.heap.brk := by rw [hp]; omega
    rw [request_eq B size hB hs] at hbrk
    have hgrow : r.heap.brk < h1.brk := by
      simp only [sizeof_chunk] at hbrk
      omega
    have hlsub : ∀ a ∈ l, a ∈ r.chunks := fun a ha =>
      hperm.subset (List.mem_append.2 (Or.inl ha))
    have hbn : r.heap.brk ≠ NULL := by simp only [NULL]; omega
    simp only [after_malloc, hpn, if_false, hne, e, Owned]
    refine ⟨by omega, ?_, ?_, ?_, l, ?_, ?_⟩
    · intro a ha
      rcases List.mem_cons.1 ha with rfl | ha
      · exact ⟨hbn, hgrow⟩
      · exact ⟨(hch a ha).1, by have := (hch a ha).2; omega⟩
    · refine List.nodup_cons.2 ⟨?_, hnd⟩
      intro hmem
      have := (hch _ hmem).2
      omega
    · intro q hq
      rcases List.mem_cons.1 hq with rfl | hq
      · rw [hp]; exact Nat.le_add_left _ _
      · exact hlive q hq
    · rw [hfl]
      refine isList_congr r.heap.mem h1.mem l _ ?_ hl
      intro a ha
      have := (hch a (hlsub a ha)).2
      exact hoth a (by omega)
    · simp only [List.map_cons, e]
      exact (List.perm_middle).trans (List.Perm.cons _ hperm)

/-- Ownership holds in every run reached by requests that fit the parameter of `sbrk`
and releases of live pointers. -/
theorem reachable_owned (B : Nat) (r : Run) (hB : B + sizeof_chunk ≤ PTRDIFF_MAX)
    (hr : Reachable B r) : Owned r := by
  induction hr with
  | start h hf hb => exact owned_start h hf hb
  | alloc r fuel size p h1 _ hs hm ih => exact owned_alloc B r fuel size p h1 hB ih hs hm
  | release r p _ hp ih => exact owned_release r p ih hp

/-- The run at `init` is a start of runs. -/
theorem reachable_run_init (B b limit : Nat) (hb : 0 < b) : Reachable B (run_init b limit) :=
  Reachable.start (init b limit) rfl hb

/-- A call made through `run_malloc` keeps the run reachable. -/
theorem reachable_run_malloc (B fuel size : Nat) (r : Run) (hr : Reachable B r)
    (hs : size ≤ B) : Reachable B (run_malloc fuel r size) := by
  unfold run_malloc
  cases hm : malloc fuel r.heap size with
  | none => exact hr
  | some x =>
    obtain ⟨p, h1⟩ := x
    exact Reachable.alloc r fuel size p h1 hr hs hm

/-- A call made through `run_free` keeps the run reachable. -/
theorem reachable_run_free (B p : Nat) (r : Run) (hr : Reachable B r) :
    Reachable B (run_free r p) := by
  unfold run_free
  by_cases hp : p ∈ r.live
  · rw [if_pos hp]; exact Reachable.release r p hr hp
  · rw [if_neg hp]; exact hr

/-- The example run is reachable with requests of at most 4000 bytes. -/
theorem reachable_demo_run : Reachable 4000 demo_run :=
  reachable_run_free _ _ _
    (reachable_run_malloc _ _ _ _
      (reachable_run_malloc _ _ _ _ (reachable_run_init _ _ _ (by decide)) (by decide))
      (by decide))

/-! ## Sizes within the range of `int` -/

/-- With requests of at most `INT_MAX` bytes, `malloc` keeps the sizes in range. -/
theorem in_range_alloc (B : Nat) (r : Run) (fuel size p : Nat) (h1 : Heap) (hB : B ≤ INT_MAX)
    (ho : Owned r) (hi : InRange r) (hs : size ≤ B)
    (hm : malloc fuel r.heap size = some (p, h1)) : InRange (after_malloc r p h1) := by
  obtain ⟨_, hch, hnd, _, l, hl, hperm⟩ := ho
  obtain ⟨hcap, hlive⟩ := hi
  have hnd2 : (l ++ r.live.map (fun q => q - sizeof_chunk)).Nodup := hperm.nodup_iff.2 hnd
  have hdis := (List.nodup_append.1 hnd2).2.2
  have hsz : size < 2147483648 := by simp only [INT_MAX] at hB; omega
  rcases malloc_spec r.heap l fuel size p h1 hl hm with
    ⟨hp, hmem, _⟩ |
    ⟨l1, c, l2, rfl, hp, _, _, hfit, _, hsize, _, hused, hoth, _, _, hcalls⟩ |
    ⟨hpos, _, hp, _, hnew, hoth, hcalls, _⟩
  · simp only [after_malloc, hp, if_true, InRange, hmem]
    exact ⟨hcap, hlive⟩
  · have hpn : p ≠ NULL := by rw [hp]; simp [NULL, sizeof_chunk]
    have e : p - sizeof_chunk = c := by rw [hp]; omega
    have hcc : c ∈ r.chunks := hperm.subset (by simp)
    have hcpos := hcap c hcc
    have hle : (size : Int) ≤ (r.heap.mem c).size.val :=
      (fits_iff_of_nonneg _ _ (by omega)).1 hfit
    simp only [after_malloc, hpn, if_false, hcalls, if_true, InRange]
    refine ⟨fun a ha => by rw [hsize a]; exact hcap a ha, ?_⟩
    intro q hq
    rcases List.mem_cons.1 hq with rfl | hq
    · rw [e, hused, hsize c, to_int_val_of_lt size hsz]
      omega
    · have hqc : q - sizeof_chunk ≠ c := by
        intro ee
        exact hdis (show c ∈ l1 ++ c :: l2 by simp) (List.mem_map.2 ⟨q, hq, ee⟩)
      rw [hoth _ hqc, hsize]
      exact hlive q hq
  · have hpn : p ≠ NULL := by rw [hp]; simp [NULL, sizeof_chunk]
    have hne : ¬ h1.sbrk_calls = r.heap.sbrk_calls := by
      rw [hcalls]
      intro e
      have := congrArg List.length e
      simp at this
    have e : p - sizeof_chunk = r.heap.brk := by rw [hp]; omega
    have hv := to_int_val_of_lt size hsz
    simp only [after_malloc, hpn, if_false, hne, e, InRange]
    refine ⟨?_, ?_⟩
    · intro a ha
      rcases List.mem_cons.1 ha with rfl | ha
      · rw [hnew]; simp only [hv]; omega
      · have := (hch a ha).2
        rw [hoth a (by omega)]
        exact hcap a ha
    · intro q hq
      rcases List.mem_cons.1 hq with rfl | hq
      · rw [e, hnew]; simp only [hv]; omega
      · have hqc : q - sizeof_chunk ∈ r.chunks :=
          hperm.subset (List.mem_append.2 (Or.inr (List.mem_map.2 ⟨q, hq, rfl⟩)))
        have := (hch _ hqc).2
        rw [hoth _ (by omega)]
        exact hlive q hq

/-- The release of a live pointer keeps the sizes in range. -/
theorem in_range_release (r : Run) (p : Nat) (ho : Owned r) (hi : InRange r) (hp : p ∈ r.live) :
    InRange (after_free r p) := by
  obtain ⟨_, _, hnd, hl16, l, _, hperm⟩ := ho
  obtain ⟨hcap, hlive⟩ := hi
  have hnd2 : (l ++ r.live.map (fun q => q - sizeof_chunk)).Nodup := hperm.nodup_iff.2 hnd
  have hlnd : r.live.Nodup := ((List.nodup_append.1 hnd2).2.1).of_map _
  have hp16 := hl16 p hp
  have hpe : p = (p - sizeof_chunk) + sizeof_chunk := by omega
  simp only [after_free, InRange]
  refine ⟨fun a ha => by rw [free_size]; exact hcap a ha, ?_⟩
  intro q hq
  have hq2 := (hlnd.mem_erase_iff).1 hq
  have hq16 := hl16 q hq2.2
  have hne : q - sizeof_chunk ≠ p - sizeof_chunk := by
    have := hq2.1
    omega
  rw [hpe, free_mem_other _ _ _ hne]
  exact hlive q hq2.2

/-- In every run reached by requests of at most `INT_MAX` bytes and releases of live
pointers, every chunk has a positive stored capacity and every chunk behind a live
pointer has `0 <= used <= size`. -/
theorem reachable_in_range (B : Nat) (r : Run) (hB : B ≤ INT_MAX) (hr : Reachable B r) :
    InRange r := by
  have hB2 : B + sizeof_chunk ≤ PTRDIFF_MAX := by
    simp only [INT_MAX, PTRDIFF_MAX, sizeof_chunk] at hB ⊢
    omega
  induction hr with
  | start h hf hb =>
    refine ⟨?_, ?_⟩
    · intro c hc; simp at hc
    · intro p hp; simp at hp
  | alloc r fuel size p h1 hr hs hm ih =>
    exact in_range_alloc B r fuel size p h1 hB (reachable_owned B r hB2 hr) ih hs hm
  | release r p hr hp ih =>
    exact in_range_release r p (reachable_owned B r hB2 hr) ih hp

/-- The release of any pointer leaves the sum of the stored capacities as it was. -/
theorem total_capacity_release (r : Run) (p : Nat) :
    total_capacity (after_free r p) = total_capacity r := by
  simp only [total_capacity, after_free, free_size]

/-- With requests of at most `INT_MAX` bytes, a call of `malloc` leaves the sum of the
stored capacities as it was or, when it makes a new chunk, adds the size requested. -/
theorem total_capacity_alloc (B : Nat) (r : Run) (fuel size p : Nat) (h1 : Heap)
    (hB : B ≤ INT_MAX) (ho : Owned r) (hs : size ≤ B)
    (hm : malloc fuel r.heap size = some (p, h1)) :
    total_capacity (after_malloc r p h1) = total_capacity r ∨
      total_capacity (after_malloc r p h1) = total_capacity r + (size : Int) := by
  obtain ⟨_, hch, _, _, l, hl, _⟩ := ho
  have hsz : size < 2147483648 := by simp only [INT_MAX] at hB; omega
  rcases malloc_spec r.heap l fuel size p h1 hl hm with
    ⟨hp, hmem, _⟩ |
    ⟨l1, c, l2, _, hp, _, _, _, _, hsize, _, _, _, _, _, hcalls⟩ |
    ⟨_, _, hp, _, hnew, hoth, hcalls, _⟩
  · left
    simp only [after_malloc, hp, if_true, total_capacity, hmem]
  · left
    have hpn : p ≠ NULL := by rw [hp]; simp [NULL, sizeof_chunk]
    simp only [after_malloc, hpn, if_false, hcalls, if_true, total_capacity, hsize]
  · right
    have hpn : p ≠ NULL := by rw [hp]; simp [NULL, sizeof_chunk]
    have hne : ¬ h1.sbrk_calls = r.heap.sbrk_calls := by
      rw [hcalls]
      intro e
      have := congrArg List.length e
      simp at this
    have e : p - sizeof_chunk = r.heap.brk := by rw [hp]; omega
    have hmap : r.chunks.map (fun c => (h1.mem c).size.val)
        = r.chunks.map (fun c => (r.heap.mem c).size.val) := by
      apply List.map_congr_left
      intro a ha
      have := (hch a ha).2
      rw [hoth a (by omega)]
    simp only [after_malloc, hpn, if_false, hne, e, total_capacity, List.map_cons, List.sum_cons,
      hmap, hnew, to_int_val_of_lt size hsz]
    omega

/-- Monotonic growth within the range of `int`.  In every run reached by requests of
at most `INT_MAX` bytes and releases of live pointers, a further call of `malloc`
of at most `INT_MAX` bytes or of `free` does not make the sum of the stored
capacities of the chunks created smaller. -/
theorem total_capacity_monotone_in_range (B : Nat) (r : Run) (hB : B ≤ INT_MAX)
    (hr : Reachable B r) :
    (∀ fuel size p h1, size ≤ B → malloc fuel r.heap size = some (p, h1) →
      total_capacity r ≤ total_capacity (after_malloc r p h1)) ∧
    (∀ p, total_capacity r ≤ total_capacity (after_free r p)) := by
  have hB2 : B + sizeof_chunk ≤ PTRDIFF_MAX := by
    simp only [INT_MAX, PTRDIFF_MAX, sizeof_chunk] at hB ⊢
    omega
  refine ⟨?_, fun p => by rw [total_capacity_release]⟩
  intro fuel size p h1 hs hm
  rcases total_capacity_alloc B r fuel size p h1 hB (reachable_owned B r hB2 hr) hs hm with e | e
  · rw [e]
  · rw [e]; omega

/-! ## Layout of the chunks within the range of `int` -/

/-- The layout depends on the chunks, their capacities and the break only. -/
theorem layout_congr (r1 r2 : Run) (hc : r2.chunks = r1.chunks) (hb : r2.heap.brk = r1.heap.brk)
    (hs : ∀ a ∈ r1.chunks, (r2.heap.mem a).size = (r1.heap.mem a).size) (h : Layout r1) :
    Layout r2 := by
  obtain ⟨h1, h2⟩ := h
  unfold Layout
  rw [hc, hb]
  refine ⟨?_, ?_⟩
  · intro c hcm
    rw [hs c hcm]
    exact h1 c hcm
  · refine List.Pairwise.imp_of_mem ?_ h2
    intro a b _ hbm hab
    rw [hs b hbm]
    exact hab

/-- With requests of at most `INT_MAX` bytes, `malloc` keeps the layout. -/
theorem layout_alloc (B : Nat) (r : Run) (fuel size p : Nat) (h1 : Heap) (hB : B ≤ INT_MAX)
    (ho : Owned r) (hlay : Layout r) (hs : size ≤ B)
    (hm : malloc fuel r.heap size = some (p, h1)) : Layout (after_malloc r p h1) := by
  obtain ⟨_, hch, _, _, l, hl, _⟩ := ho
  have hsz : size < 2147483648 := by simp only [INT_MAX] at hB; omega
  have hB2 : B + sizeof_chunk ≤ PTRDIFF_MAX := by
    simp only [INT_MAX, PTRDIFF_MAX, sizeof_chunk] at hB ⊢
    omega
  rcases malloc_spec r.heap l fuel size p h1 hl hm with
    ⟨hp, hmem, _, hbrk, _⟩ |
    ⟨l1, c, l2, _, hp, _, _, _, _, hsize, _, _, _, hbrk, _, hcalls⟩ |
    ⟨_, _, hp, _, hnew, hoth, hcalls, hbrk, _⟩
  · refine layout_congr r _ ?_ ?_ ?_ hlay
    · simp only [after_malloc, hp, if_true]
    · simp only [after_malloc, hp, if_true, hbrk]
    · intro a _; simp only [after_malloc, hp, if_true, hmem]
  · have hpn : p ≠ NULL := by rw [hp]; simp [NULL, sizeof_chunk]
    refine layout_congr r _ ?_ ?_ ?_ hlay
    · simp only [after_malloc, hpn, if_false, hcalls, if_true]
    · simp only [after_malloc, hpn, if_false, hcalls, if_true, hbrk]
    · intro a _; simp only [after_malloc, hpn, if_false, hcalls, if_true, hsize]
  · have hpn : p ≠ NULL := by rw [hp]; simp [NULL, sizeof_chunk]
    have hne : ¬ h1.sbrk_calls = r.heap.sbrk_calls := by
      rw [hcalls]
      intro e
      have := congrArg List.length e
      simp at this
    have e : p - sizeof_chunk = r.heap.brk := by rw [hp]; omega
    rw [request_eq B size hB2 hs] at hbrk
    have hv := to_int_val_of_lt size hsz
    obtain ⟨hend, hpair⟩ := hlay
    have hsame : ∀ a ∈ r.chunks, h1.mem a = r.heap.mem a := by
      intro a ha
      have := (hch a ha).2
      exact hoth a (by omega)
    simp only [after_malloc, hpn, if_false, hne, e, Layout]
    refine ⟨?_, ?_⟩
    · intro a ha
      rcases List.mem_cons.1 ha with rfl | ha
      · rw [hnew]; simp only [hv]; push_cast at hbrk; omega
      · rw [hsame a ha]
        have := hend a ha
        push_cast at hbrk
        omega
    · refine List.pairwise_cons.2 ⟨?_, ?_⟩
      · intro d hd
        rw [hsame d hd]
        exact hend d hd
      · refine List.Pairwise.imp_of_mem ?_ hpair
        intro a b _ hbm hab
        rw [hsame b hbm]
        exact hab

/-- The release of a pointer keeps the layout. -/
theorem layout_release (r : Run) (p : Nat) (hlay : Layout r) : Layout (after_free r p) := by
  refine layout_congr r _ rfl ?_ ?_ hlay
  · by_cases hp : p = NULL
    · simp [after_free, free, hp]
    · simp [after_free, free, hp]
  · intro a _
    simp only [after_free, free_size]

/-- The layout holds in every run reached by requests of at most `INT_MAX` bytes and
releases of live pointers. -/
theorem reachable_layout (B : Nat) (r : Run) (hB : B ≤ INT_MAX) (hr : Reachable B r) :
    Layout r := by
  have hB2 : B + sizeof_chunk ≤ PTRDIFF_MAX := by
    simp only [INT_MAX, PTRDIFF_MAX, sizeof_chunk] at hB ⊢
    omega
  induction hr with
  | start h hf hb =>
    refine ⟨?_, List.Pairwise.nil⟩
    intro c hc; simp at hc
  | alloc r fuel size p h1 hr hs hm ih =>
    exact layout_alloc B r fuel size p h1 hB (reachable_owned B r hB2 hr) ih hs hm
  | release r p _ _ ih => exact layout_release r p ih

/-- Payloads do not overlap other chunks within the range of `int`.  In every run
reached by requests of at most `INT_MAX` bytes and releases of live pointers, for
every live pointer `p` the bytes `[p, p + used)` of its live size lie inside the
payload of its chunk, and they are disjoint from the region, header and payload,
of every other chunk created: that region ends at or below `p - 16`, or starts at or
above `p + used`. -/
theorem payload_disjoint_in_range (B : Nat) (r : Run) (hB : B ≤ INT_MAX) (hr : Reachable B r)
    (p : Nat) (hp : p ∈ r.live) (d : Nat) (hd : d ∈ r.chunks) (hne : d ≠ p - sizeof_chunk) :
    (d : Int) + sizeof_chunk + (r.heap.mem d).size.val ≤ ((p - sizeof_chunk : Nat) : Int) ∨
      (p : Int) + (r.heap.mem (p - sizeof_chunk)).used.val ≤ (d : Int) := by
  have hB2 : B + sizeof_chunk ≤ PTRDIFF_MAX := by
    simp only [INT_MAX, PTRDIFF_MAX, sizeof_chunk] at hB ⊢
    omega
  obtain ⟨_, _, _, hl16, l, _, hperm⟩ := reachable_owned B r hB2 hr
  obtain ⟨_, hlive⟩ := reachable_in_range B r hB hr
  obtain ⟨_, hpair⟩ := reachable_layout B r hB hr
  have hcc : p - sizeof_chunk ∈ r.chunks :=
    hperm.subset (List.mem_append.2 (Or.inr (List.mem_map.2 ⟨p, hp, rfl⟩)))
  have hp16 := hl16 p hp
  have hu := hlive p hp
  have hsym : r.chunks.Pairwise (fun (c e : Nat) =>
      (e : Int) + sizeof_chunk + (r.heap.mem e).size.val ≤ (c : Int) ∨
        (c : Int) + sizeof_chunk + (r.heap.mem c).size.val ≤ (e : Int)) :=
    hpair.imp (fun hab => Or.inl hab)
  have hall := hsym.forall (fun a b hab => hab.symm) hd hcc hne
  rcases hall with h1 | h2
  · right
    have : ((p - sizeof_chunk : Nat) : Int) = (p : Int) - sizeof_chunk := by omega
    omega
  · left
    exact h2

/-! ## The audit -/

/-- An integer within the range of `int` is not changed by the reduction. -/
theorem wrap_int_val (i : Int) (hlo : -2147483648 ≤ i) (hhi : i < 2147483648) :
    (wrap_int i).val = i := by
  unfold wrap_int
  split <;> simp <;> omega

/-- The reduction as one formula. -/
theorem wrap_int_val_eq (i : Int) :
    (wrap_int i).val = (i + 2147483648) % 4294967296 - 2147483648 := by
  unfold wrap_int
  split <;> simp <;> omega

/-- The reduction may be applied to a summand first. -/
theorem wrap_int_add (x y : Int) : wrap_int ((wrap_int x).val + y) = wrap_int (x + y) := by
  apply Subtype.ext
  rw [wrap_int_val_eq, wrap_int_val_eq, wrap_int_val_eq]
  omega

/-- The reduction may be applied to a middle summand first. -/
theorem wrap_int_add_mid (a x b : Int) :
    wrap_int (a + (wrap_int x).val + b) = wrap_int (a + (x + b)) := by
  apply Subtype.ext
  simp only [wrap_int_val_eq]
  omega

/-- The traversal of a free list that ends in `NULL` adds the number of its chunks and
the sum of their capacities to the accumulators, reduced into the range of `int`. -/
theorem memstats_free_spec (mem : Nat → chunk) :
    ∀ (l : List Nat) (fuel node : Nat) (free_blocks free_memory : c_int),
      isList mem node l → l.length ≤ fuel →
      memstats_free mem fuel node free_blocks free_memory
        = some (wrap_int (free_blocks.val + (l.length : Int)),
            wrap_int (free_memory.val + free_capacity mem l)) := by
  intro l
  induction l with
  | nil =>
    intro fuel node fb fm hl _
    simp only [isList] at hl
    unfold memstats_free
    have h1 : wrap_int fb.val = fb := Subtype.ext (wrap_int_val _ fb.property.1 fb.property.2)
    have h2 : wrap_int fm.val = fm := Subtype.ext (wrap_int_val _ fm.property.1 fm.property.2)
    simp [hl, free_capacity, h1, h2]
  | cons a l ih =>
    intro fuel node fb fm hl hk
    obtain ⟨f, rfl⟩ : ∃ f, fuel = f + 1 := ⟨fuel - 1, by simp at hk; omega⟩
    simp only [isList] at hl
    obtain ⟨rfl, ha, hl⟩ := hl
    unfold memstats_free
    simp only [ha, if_false]
    rw [ih f _ _ _ hl (by simp at hk; omega)]
    simp only [int_add, int_one, wrap_int_add, free_capacity, List.map_cons, List.sum_cons,
      List.length_cons]
    congr 2
    · push_cast; ring_nf
    · ring_nf

/-- The loop over the live handles adds, reduced into the range of `int`, the number
of non-null entries, the sum of the capacities behind them and the sum of
`capacity - live_size` over those whose capacity is above their live size. -/
theorem memstats_used_spec (mem : Nat → chunk) :
    ∀ (buffer : List Nat) (used_blocks used_memory unapplied_memory : c_int),
      memstats_used mem buffer (used_blocks, used_memory, unapplied_memory)
        = (wrap_int (used_blocks.val + ((live_entries buffer).length : Int)),
            wrap_int (used_memory.val + used_capacity mem buffer),
            wrap_int (unapplied_memory.val + wasted_capacity mem buffer)) := by
  intro buffer
  induction buffer with
  | nil =>
    intro ub um un
    have h1 : wrap_int ub.val = ub := Subtype.ext (wrap_int_val _ ub.property.1 ub.property.2)
    have h2 : wrap_int um.val = um := Subtype.ext (wrap_int_val _ um.property.1 um.property.2)
    have h3 : wrap_int un.val = un := Subtype.ext (wrap_int_val _ un.property.1 un.property.2)
    simp [memstats_used, live_entries, used_capacity, wasted_capacity, h1, h2, h3]
  | cons p buffer ih =>
    intro ub um un
    unfold memstats_used
    by_cases hp : p = NULL
    · simp only [hp, ne_eq, not_true_eq_false, if_false, ih]
      simp [live_entries, used_capacity, wasted_capacity]
    · simp only [ne_eq, hp, not_false_eq_true, if_true, ih]
      by_cases hw : (mem (p - sizeof_chunk)).size.val > (mem (p - sizeof_chunk)).used.val
      · simp only [hw, if_true, int_add, int_sub, int_one, wrap_int_add]
        have e1 : live_entries (p :: buffer) = p :: live_entries buffer := by
          simp [live_entries, hp]
        simp only [used_capacity, wasted_capacity, e1, List.map_cons, List.sum_cons,
          List.length_cons, List.filter_cons, hw, decide_True, if_true]
        congr 1
        · congr 1; push_cast; ring
        · congr 1
          · congr 1; ring
          · exact wrap_int_add_mid _ _ _
      · simp only [hw, if_false, int_add, int_one, wrap_int_add]
        have e1 : live_entries (p :: buffer) = p :: live_entries buffer := by
          simp [live_entries, hp]
        simp only [used_capacity, wasted_capacity, e1, List.map_cons, List.sum_cons,
          List.length_cons, List.filter_cons, hw, decide_False]
        congr 1
        · congr 1; push_cast; ring
        · congr 1
          congr 1; ring

/-- What `memstats` computes when the free list ends in `NULL`: every count and sum
is the mathematical one reduced into the range of `int`. -/
theorem memstats_values (mem : Nat → chunk) (freelist : Nat) (l buffer : List Nat) (fuel : Nat)
    (hl : isList mem freelist l) (hfuel : l.length ≤ fuel) :
    ∃ s, memstats fuel mem freelist buffer = some s ∧
      s.free_blocks = wrap_int (l.length : Int) ∧
      s.free_memory = wrap_int (free_capacity mem l) ∧
      s.used_blocks = wrap_int ((live_entries buffer).length : Int) ∧
      s.used_memory = wrap_int (used_capacity mem buffer) ∧
      s.unapplied_memory = wrap_int (wasted_capacity mem buffer) ∧
      s.total_blocks = int_add s.free_blocks s.used_blocks ∧
      s.total_memory = int_add s.used_memory s.free_memory ∧
      s.underutilized_memory = float_div s.unapplied_memory s.used_memory := by
  have hz : int_zero.val = 0 := rfl
  unfold memstats
  rw [memstats_free_spec mem l fuel freelist _ _ hl hfuel, memstats_used_spec]
  simp only [hz, zero_add]
  refine ⟨_, rfl, ?_⟩
  simp only [and_self]

/-! ## Claims C11 to C20 -/

/-- C12 (defect of the code).  The run `p = malloc(2147483648)`, `free(p)`,
`malloc(5)` is made of valid calls; its last call reuses the chunk at 4096, whose
stored capacity is `-2147483648`, and sets `used = 5`: the pointer 4112 is held by
the caller and the live size of its chunk is above the stored capacity. -/
theorem live_size_above_capacity :
    Reachable 2147483648
        (run_malloc 1 (run_free (run_malloc 0 (run_init 4096 1099511627776) 2147483648) 4112) 5) ∧
      (run_malloc 1 (run_free (run_malloc 0 (run_init 4096 1099511627776) 2147483648) 4112) 5).live
        = [4112] ∧
      ((run_malloc 1 (run_free (run_malloc 0 (run_init 4096 1099511627776) 2147483648) 4112)
        5).heap.mem 4096).used.val = 5 ∧
      ((run_malloc 1 (run_free (run_malloc 0 (run_init 4096 1099511627776) 2147483648) 4112)
        5).heap.mem 4096).size.val = -2147483648 := by
  refine ⟨?_, by decide, by decide, by decide⟩
  exact reachable_run_malloc _ _ _ _
    (reachable_run_free _ _ _
      (reachable_run_malloc _ _ _ _ (reachable_run_init _ _ _ (by decide)) (by decide)))
    (by decide)

/-- No duplicates in the free list, for requests that fit the `intptr_t` parameter of
`sbrk`.  In every run reached from an empty allocator by `malloc` calls with
`size + sizeof(struct chunk) <= PTRDIFF_MAX` and by `free` calls on live pointers,
the free list is a chain that ends in `NULL` and no chunk occurs in it more than
once. -/
theorem free_list_no_duplicates_bounded (B : Nat) (r : Run) (hB : B + sizeof_chunk ≤ PTRDIFF_MAX)
    (hr : Reachable B r) :
    ∃ l, isList r.heap.mem r.heap.flist l ∧ l.Nodup ∧ ∀ c, l.count c ≤ 1 := by
  obtain ⟨_, _, _, _, l, hl, _⟩ := reachable_owned B r hB hr
  have hnd := isList_nodup _ _ _ hl
  exact ⟨l, hl, hnd, fun c => List.nodup_iff_count_le_one.1 hnd c⟩

/-- Exclusive ownership, for requests that fit the `intptr_t` parameter of `sbrk`.  In
every run reached by such requests and by releases of live pointers the free list
is a chain `l` such that: no live pointer has its chunk on `l`; the chunks created
so far are exactly those on `l` and those behind live pointers; no pointer is held
twice and no two live pointers share a chunk.  A further `malloc` within the bound
returns for any fuel that covers `l`, and a non-null pointer it returns is not live
and its chunk is not on the free list left by the call. -/
theorem exclusive_ownership_bounded (B : Nat) (r : Run) (hB : B + sizeof_chunk ≤ PTRDIFF_MAX)
    (hr : Reachable B r) :
    ∃ l, isList r.heap.mem r.heap.flist l ∧
      (∀ p ∈ r.live, p - sizeof_chunk ∉ l) ∧
      (∀ c, c ∈ r.chunks ↔ (c ∈ l ∨ ∃ p ∈ r.live, p - sizeof_chunk = c)) ∧
      r.live.Nodup ∧ (r.live.map (fun p => p - sizeof_chunk)).Nodup ∧
      (∀ size fuel, size ≤ B → l.length ≤ fuel →
        ∃ p h1, malloc fuel r.heap size = some (p, h1) ∧
          (p ≠ NULL → p ∉ r.live ∧ ∀ l1, isList h1.mem h1.flist l1 → p - sizeof_chunk ∉ l1)) := by
  obtain ⟨_, _, hnd, _, l, hl, hperm⟩ := reachable_owned B r hB hr
  have hnd2 : (l ++ r.live.map (fun q => q - sizeof_chunk)).Nodup := hperm.nodup_iff.2 hnd
  obtain ⟨_, hmnd, hdis⟩ := List.nodup_append.1 hnd2
  refine ⟨l, hl, ?_, ?_, hmnd.of_map _, hmnd, ?_⟩
  · intro p hp hm
    exact hdis hm (List.mem_map.2 ⟨p, hp, rfl⟩)
  · intro c
    rw [← hperm.mem_iff, List.mem_append, List.mem_map]
  · intro size fuel hs hfuel
    obtain ⟨p, h1, hm⟩ := malloc_total r.heap l size fuel hl hfuel
    refine ⟨p, h1, hm, ?_⟩
    intro hpn
    obtain ⟨_, _, hnd3, _, l3, hl3, hperm3⟩ :=
      reachable_owned B _ hB (Reachable.alloc r fuel size p h1 hr hs hm)
    have hlive : (after_malloc r p h1).live = p :: r.live := by
      unfold after_malloc
      rw [if_neg hpn]
      split <;> rfl
    have hheap : (after_malloc r p h1).heap = h1 := by
      unfold after_malloc
      rw [if_neg hpn]
      split <;> rfl
    rw [hlive] at hperm3
    rw [hheap] at hl3
    have hnd4 : (l3 ++ (p :: r.live).map (fun q => q - sizeof_chunk)).Nodup :=
      hperm3.nodup_iff.2 hnd3
    obtain ⟨_, hm4, hdis4⟩ := List.nodup_append.1 hnd4
    refine ⟨?_, ?_⟩
    · exact (List.nodup_cons.1 (hm4.of_map _)).1
    · intro l1 hl1 hmem
      rw [isList_unique _ _ _ _ hl1 hl3] at hmem
      exact hdis4 hmem (List.mem_map.2 ⟨p, by simp, rfl⟩)

/-- C15 (defect of the code).  On the empty allocator the sum of the stored capacities
of the chunks created is 0; after the call `malloc(2147483648)` one chunk exists
and the sum is `-2147483648`: the call made the sum smaller. -/
theorem total_capacity_decreases :
    total_capacity (run_init 4096 1099511627776) = 0 ∧
      (run_malloc 0 (run_init 4096 1099511627776) 2147483648).chunks = [4096] ∧
      total_capacity (run_malloc 0 (run_init 4096 1099511627776) 2147483648) = -2147483648 := by
  decide

/-- C16 (defect of the code).  The run `p = malloc(2147483648)`, `q = malloc(8)`,
`free(p)`, `malloc(4294967295)` is made of valid calls.  Its last call reuses the
chunk of `p`, whose negative stored capacity passes the test, and returns 4112 for
a request of 4294967295 bytes.  The chunk of `q` has its header at 2147487760,
inside the byte range `[4112, 4112 + 4294967295)` of the pointer returned, and `q`
is still live. -/
theorem payload_overlaps_next_chunk :
    Reachable 4294967295
        (run_malloc 1
          (run_free (run_malloc 0 (run_malloc 0 (run_init 4096 1099511627776) 2147483648) 8) 4112)
          4294967295) ∧
      (malloc 1
        (run_free (run_malloc 0 (run_malloc 0 (run_init 4096 1099511627776) 2147483648) 8)
          4112).heap 4294967295).map Prod.fst = some 4112 ∧
      (run_malloc 1
        (run_free (run_malloc 0 (run_malloc 0 (run_init 4096 1099511627776) 2147483648) 8) 4112)
        4294967295).live = [4112, 2147487776] ∧
      (run_malloc 1
        (run_free (run_malloc 0 (run_malloc 0 (run_init 4096 1099511627776) 2147483648) 8) 4112)
        4294967295).chunks = [2147487760, 4096] ∧
      (4112 ≤ 2147487760 ∧ 2147487760 < 4112 + 4294967295) := by
  refine ⟨?_, by decide, by decide, by decide, by decide⟩
  exact reachable_run_malloc _ _ _ _
    (reachable_run_free _ _ _
      (reachable_run_malloc _ _ _ _
        (reachable_run_malloc _ _ _ _ (reachable_run_init _ _ _ (by decide)) (by decide))
        (by decide)))
    (by decide)

/-- C17, amended.  Audit of the free list: for every free list `l` that ends in
`NULL` whose number of chunks and whose sum of capacities lie within the range of
`int`, `memstats` returns (any fuel that covers the list is enough) with
`free_blocks` equal to the number of chunks of `l` and `free_memory` equal to the
sum of their capacities. -/
theorem memstats_free_statistics (mem : Nat → chunk) (freelist : Nat) (l buffer : List Nat)
    (hl : isList mem freelist l) (hn : l.length ≤ INT_MAX)
    (hlo : -2147483648 ≤ free_capacity mem l) (hhi : free_capacity mem l ≤ 2147483647) :
    ∀ fuel, l.length ≤ fuel → ∃ s, memstats fuel mem freelist buffer = some s ∧
      s.free_blocks.val = (l.length : Int) ∧ s.free_memory.val = free_capacity mem l := by
  intro fuel hfuel
  obtain ⟨s, hs, hfb, hfm, _⟩ := memstats_values mem freelist l buffer fuel hl hfuel
  refine ⟨s, hs, ?_, ?_⟩
  · rw [hfb]
    simp only [INT_MAX] at hn
    exact wrap_int_val _ (by omega) (by omega)
  · rw [hfm]
    exact wrap_int_val _ hlo (by omega)

/-- C17 amended, at `one_free`: one free chunk of capacity 100. -/
theorem memstats_free_statistics_witness :
    isList one_free.mem one_free.flist [4096] ∧ [4096].length ≤ INT_MAX ∧
      -2147483648 ≤ free_capacity one_free.mem [4096] ∧
      free_capacity one_free.mem [4096] ≤ 2147483647 ∧
      ∀ fuel, [4096].length ≤ fuel → ∃ s, memstats fuel one_free.mem one_free.flist [4228] = some s ∧
        s.free_blocks.val = (([4096] : List Nat).length : Int) ∧
        s.free_memory.val = free_capacity one_free.mem [4096] :=
  ⟨by decide, by decide, by decide, by decide,
    memstats_free_statistics one_free.mem one_free.flist [4096] [4228] (by decide) (by decide)
      (by decide) (by decide)⟩

/-- C17 as stated fails when the sum leaves the range of `int`.  After two calls
`malloc(1073741824)` and the release of both pointers the free list holds two
chunks of capacity 1073741824; the sum of the capacities is 2147483648, and the
`int` accumulator `free_memory` ends with `-2147483648`. -/
theorem free_memory_overflows :
    (do
      let (p1, h1) ← malloc 0 (init 4096 1099511627776) 1073741824
      let (p2, h2) ← malloc 0 h1 1073741824
      let h4 := free (free h2 p1) p2
      let s ← memstats 2 h4.mem h4.flist []
      pure (decide (isList h4.mem h4.flist [p2 - sizeof_chunk, p1 - sizeof_chunk]),
        free_capacity h4.mem [p2 - sizeof_chunk, p1 - sizeof_chunk],
        s.free_blocks.val, s.free_memory.val))
      = some (true, 2147483648, 2, -2147483648) := by
  decide

/-- C18, amended.  Audit of the live handles: for every array `buffer` of live
handles for which the number of non-null entries, the sum of the capacities behind
them and the sum of `capacity - live_size` over the entries whose capacity is above
their live size lie within the range of `int`, `memstats` returns (on a free list
that ends in `NULL`) with `used_blocks`, `used_memory` and `unapplied_memory` equal
to these three numbers. -/
theorem memstats_used_statistics (mem : Nat → chunk) (freelist : Nat) (l buffer : List Nat)
    (hl : isList mem freelist l) (hn : (live_entries buffer).length ≤ INT_MAX)
    (hulo : -2147483648 ≤ used_capacity mem buffer) (huhi : used_capacity mem buffer ≤ 2147483647)
    (hwlo : -2147483648 ≤ wasted_capacity mem buffer)
    (hwhi : wasted_capacity mem buffer ≤ 2147483647) :
    ∀ fuel, l.length ≤ fuel → ∃ s, memstats fuel mem freelist buffer = some s ∧
      s.used_blocks.val = ((live_entries buffer).length : Int) ∧
      s.used_memory.val = used_capacity mem buffer ∧
      s.unapplied_memory.val = wasted_capacity mem buffer := by
  intro fuel hfuel
  obtain ⟨s, hs, _, _, hub, hum, hun, _⟩ := memstats_values mem freelist l buffer fuel hl hfuel
  refine ⟨s, hs, ?_, ?_, ?_⟩
  · rw [hub]
    simp only [INT_MAX] at hn
    exact wrap_int_val _ (by omega) (by omega)
  · rw [hum]
    exact wrap_int_val _ hulo (by omega)
  · rw [hun]
    exact wrap_int_val _ hwlo (by omega)

/-- C18 amended, at `one_free` with the handles `[NULL, 4228]`. -/
theorem memstats_used_statistics_witness :
    isList one_free.mem one_free.flist [4096] ∧ (live_entries [NULL, 4228]).length ≤ INT_MAX ∧
      -2147483648 ≤ used_capacity one_free.mem [NULL, 4228] ∧
      used_capacity one_free.mem [NULL, 4228] ≤ 2147483647 ∧
      -2147483648 ≤ wasted_capacity one_free.mem [NULL, 4228] ∧
      wasted_capacity one_free.mem [NULL, 4228] ≤ 2147483647 ∧
      ∀ fuel, [4096].length ≤ fuel →
        ∃ s, memstats fuel one_free.mem one_free.flist [NULL, 4228] = some s ∧
          s.used_blocks.val = ((live_entries [NULL, 4228]).length : Int) ∧
          s.used_memory.val = used_capacity one_free.mem [NULL, 4228] ∧
          s.unapplied_memory.val = wasted_capacity one_free.mem [NULL, 4228] :=
  ⟨by decide, by decide, by decide, by decide, by decide, by decide,
    memstats_used_statistics one_free.mem one_free.flist [4096] [NULL, 4228] (by decide)
      (by decide) (by decide) (by decide) (by decide) (by decide)⟩

/-- C18 as stated fails when a sum leaves the range of `int`.  With the two pointers of
two calls `malloc(1073741824)` as live handles, the sum of the capacities behind
them is 2147483648, and the `int` accumulator `used_memory` ends with
`-2147483648`. -/
theorem used_memory_overflows :
    (do
      let (p1, h1) ← malloc 0 (init 4096 1099511627776) 1073741824
      let (p2, h2) ← malloc 0 h1 1073741824
      let s ← memstats 0 h2.mem h2.flist [p1, p2]
      pure (used_capacity h2.mem [p1, p2], s.used_blocks.val, s.used_memory.val))
      = some (2147483648, 2, -2147483648) := by
  decide

/-- C19.  Audit scenario: from the empty allocator, after `p1 = malloc(100)`,
`p2 = malloc(50)` and `free(p1)`, `memstats` on the free list and the live handles
`[p2]` gives `free_blocks = 1`, `free_memory = 100`, `used_blocks = 1`,
`used_memory = 50` and `total_memory = 150` (and `total_blocks = 2`). -/
theorem audit_scenario :
    (do
      let (p1, h1) ← malloc 0 (init 4096 65536) 100
      let (p2, h2) ← malloc 0 h1 50
      let h3 := free h2 p1
      let s ← memstats 1 h3.mem h3.flist [p2]
      pure (s.free_blocks.val, s.free_memory.val, s.used_blocks.val, s.used_memory.val,
        s.total_memory.val, s.total_blocks.val))
      = some (1, 100, 1, 50, 150, 2) := by
  decide

/-- C20 as stated fails: in the fragmentation scenario the ratio computed is the
quotient of 90 by 100, which is not 9. -/
theorem fragmentation_ratio_is_not_nine :
    (do
      let (p, h1) ← malloc 0 (init 4096 65536) 100
      let (q, h2) ← malloc 1 (free h1 p) 10
      let s ← memstats 0 h2.mem h2.flist [q]
      pure s.underutilized_memory) = some (c_float.quot 90 100) ∧
    (c_float.quot 90 100).value ≠ some 9 := by
  refine ⟨by decide, ?_⟩
  norm_num [c_float.value]

/-- C20, amended.  Fragmentation scenario: from the empty allocator, after
`p = malloc(100)`, `free(p)` and `q = malloc(10)`, the call reuses the chunk (`q` is
`p`, capacity 100, live size 10), and `memstats` on the live handles `[q]` gives
`unapplied_memory = 90`, `used_memory = 100` and the ratio `90 / 100`, that is 0.9. -/
theorem fragmentation_scenario :
    (do
      let (p, h1) ← malloc 0 (init 4096 65536) 100
      let (q, h2) ← malloc 1 (free h1 p) 10
      let s ← memstats 0 h2.mem h2.flist [q]
      pure (decide (q = p), (h2.mem (q - sizeof_chunk)).size.val,
        (h2.mem (q - sizeof_chunk)).used.val, s.unapplied_memory.val, s.used_memory.val,
        s.underutilized_memory))
      = some (true, 100, 10, 90, 100, c_float.quot 90 100) ∧
    (c_float.quot 90 100).value = some (9 / 10) := by
  refine ⟨by decide, ?_⟩
  norm_num [c_float.value]

/-! ## Further facts about the audit and the runs -/

/-- When every live entry has a live size between 0 and its capacity, the wasted
bytes are between 0 and the used bytes. -/
theorem wasted_le_used (mem : Nat → chunk) :
    ∀ (buffer : List Nat),
      (∀ p ∈ buffer, p ≠ NULL → 0 ≤ (mem (p - sizeof_chunk)).used.val ∧
        (mem (p - sizeof_chunk)).used.val ≤ (mem (p - sizeof_chunk)).size.val) →
      0 ≤ wasted_capacity mem buffer ∧ wasted_capacity mem buffer ≤ used_capacity mem buffer := by
  intro buffer
  induction buffer with
  | nil => intro _; simp [wasted_capacity, used_capacity, live_entries]
  | cons p rest ih =>
    intro hb
    have ih2 := ih (fun q hq => hb q (List.mem_cons_of_mem _ hq))
    have hp := hb p (List.mem_cons_self _ _)
    unfold wasted_capacity used_capacity live_entries at ih2 ⊢
    by_cases hn : p = NULL
    · simpa [List.filter_cons, hn] using ih2
    · have hp2 := hp hn
      by_cases hw : (mem (p - sizeof_chunk)).size.val > (mem (p - sizeof_chunk)).used.val
      · simp only [List.filter_cons, hn, hw, decide_True, decide_False, not_false_eq_true,
          ite_true, List.map_cons, List.sum_cons, ne_eq] at ih2 ⊢
        omega
      · simp only [List.filter_cons, hn, hw, decide_True, decide_False, not_false_eq_true,
          ite_true, Bool.false_eq_true, if_false, List.map_cons, List.sum_cons, ne_eq] at ih2 ⊢
        omega

/-- An array whose entries are all null has no live entry. -/
theorem live_entries_null (buffer : List Nat) (hb : ∀ p ∈ buffer, p = NULL) :
    live_entries buffer = [] := by
  unfold live_entries
  rw [List.filter_eq_nil_iff]
  intro p hp
  simp [hb p hp]

/-- A chunk whose link points to itself is the only chunk ever reached from it. -/
theorem nth_chunk_self_loop (mem : Nat → chunk) (c : Nat) (hc : c ≠ NULL)
    (hn : (mem c).next = c) : ∀ k, nth_chunk mem c k = c := by
  intro k
  induction k with
  | zero => rfl
  | succ k ih =>
    unfold nth_chunk
    rw [if_neg hc, hn]
    exact ih

/-- No chain that ends in `NULL` starts at a chunk whose link points to itself. -/
theorem not_isList_self_loop (mem : Nat → chunk) (c : Nat) (hc : c ≠ NULL)
    (hn : (mem c).next = c) : ∀ l, ¬ isList mem c l := by
  intro l hl
  cases l with
  | nil => exact hc hl
  | cons a l2 =>
    obtain ⟨ha, _, hrest⟩ := hl
    subst ha
    rw [hn] at hrest
    have hc2 : isList mem c (c :: l2) := ⟨rfl, hc, by rw [hn]; exact hrest⟩
    have he := isList_unique mem _ _ c hc2 hrest
    have hlen := congrArg List.length he
    simp at hlen

/-- The chunks of the free list and the chunks behind the live handles make up the
chunks created: the capacities add up, and so do the numbers of chunks. -/
theorem capacity_split (r : Run) (l buffer : List Nat)
    (hperm : (l ++ r.live.map (fun p => p - sizeof_chunk)).Perm r.chunks)
    (hbuf : (live_entries buffer).Perm r.live) :
    free_capacity r.heap.mem l + used_capacity r.heap.mem buffer = total_capacity r ∧
      l.length + (live_entries buffer).length = r.chunks.length := by
  constructor
  · unfold free_capacity used_capacity total_capacity
    rw [← (hperm.map (fun c => (r.heap.mem c).size.val)).sum_eq, List.map_append,
      List.sum_append, List.map_map,
      (hbuf.map (fun p => (r.heap.mem (p - sizeof_chunk)).size.val)).sum_eq]
    rfl
  · rw [← hperm.length_eq, List.length_append, List.length_map, hbuf.length_eq]

/-- A sum of positive integers is at least the number of its terms. -/
theorem length_le_sum (f : Nat → Int) :
    ∀ (l : List Nat), (∀ c ∈ l, 0 < f c) → (l.length : Int) ≤ (l.map f).sum := by
  intro l
  induction l with
  | nil => intro _; simp
  | cons a l ih =>
    intro h
    have h1 := h a (List.mem_cons_self _ _)
    have h2 := ih (fun c hc => h c (List.mem_cons_of_mem _ hc))
    simp only [List.length_cons, List.map_cons, List.sum_cons]
    push_cast
    omega

/-- With requests of at most `INT_MAX` bytes: a call of `malloc` that returns null or
does not call `sbrk` leaves the chunks created and the sum of their capacities as
they were; a call that returns a pointer after calling `sbrk` adds one chunk and the
size requested. -/
theorem accounts_after_malloc (B : Nat) (r : Run) (fuel size p : Nat) (h1 : Heap)
    (hB : B ≤ INT_MAX) (ho : Owned r) (hs : size ≤ B)
    (hm : malloc fuel r.heap size = some (p, h1)) :
    (p = NULL ∨ h1.sbrk_calls = r.heap.sbrk_calls →
      total_capacity (after_malloc r p h1) = total_capacity r ∧
        (after_malloc r p h1).chunks = r.chunks) ∧
    (p ≠ NULL → h1.sbrk_calls ≠ r.heap.sbrk_calls →
      total_capacity (after_malloc r p h1) = total_capacity r + (size : Int) ∧
        (after_malloc r p h1).chunks.length = r.chunks.length + 1) := by
  obtain ⟨_, hch, _, _, l, hl, _⟩ := ho
  have hsz : size < 2147483648 := by simp only [INT_MAX] at hB; omega
  rcases malloc_spec r.heap l fuel size p h1 hl hm with
    ⟨hp, hmem, _⟩ |
    ⟨l1, c, l2, _, hp, _, _, _, _, hsize, _, _, _, _, _, hcalls⟩ |
    ⟨_, _, hp, _, hnew, hoth, hcalls, _⟩
  · refine ⟨fun _ => ?_, fun hpn => absurd hp hpn⟩
    simp only [after_malloc, hp, if_true, total_capacity, hmem, and_self]
  · have hpn : p ≠ NULL := by rw [hp]; simp [NULL, sizeof_chunk]
    refine ⟨fun _ => ?_, fun _ hne => absurd hcalls hne⟩
    simp only [after_malloc, hpn, if_false, hcalls, if_true, total_capacity, hsize, and_self]
  · have hpn : p ≠ NULL := by rw [hp]; simp [NULL, sizeof_chunk]
    have hne : ¬ h1.sbrk_calls = r.heap.sbrk_calls := by
      rw [hcalls]
      intro e
      have := congrArg List.length e
      simp at this
    refine ⟨fun hor => (hor.elim (fun e => absurd e hpn) (fun e => absurd e hne)), fun _ _ => ?_⟩
    have e : p - sizeof_chunk = r.heap.brk := by rw [hp]; omega
    have hmap : r.chunks.map (fun c => (h1.mem c).size.val)
        = r.chunks.map (fun c => (r.heap.mem c).size.val) := by
      apply List.map_congr_left
      intro a ha
      have := (hch a ha).2
      rw [hoth a (by omega)]
    simp only [after_malloc, hpn, if_false, hne, e, total_capacity, List.map_cons, List.sum_cons,
      hmap, hnew, to_int_val_of_lt size hsz, List.length_cons, and_true]
    omega

/-- A chain of `l.length` chunks is at `NULL` after `l.length` links and stays there. -/
theorem nth_chunk_of_isList (mem : Nat → chunk) :
    ∀ (l : List Nat) (p k : Nat), isList mem p l → l.length ≤ k → nth_chunk mem p k = NULL := by
  intro l
  induction l with
  | nil =>
    intro p k hl _
    have hp : p = NULL := hl
    subst hp
    cases k with
    | zero => rfl
    | succ k => simp [nth_chunk]
  | cons a l ih =>
    intro p k hl hk
    obtain ⟨hp, ha, hrest⟩ := hl
    subst hp
    cases k with
    | zero => simp at hk
    | succ k =>
      unfold nth_chunk
      rw [if_neg ha]
      exact ih _ k hrest (by simpa using hk)

/-! ## Claims C21 to C24 and C28 to C30 -/

/-- C21, amended.  Underutilization ratio in `[0, 1]`.  In every run reached by
`malloc` calls of at most `INT_MAX` bytes and by `free` calls on live pointers, for
an array of handles whose entries are null or live pointers and whose capacities
sum up to at most `INT_MAX`: `memstats` returns (any fuel that covers the free list
is enough) with `0 <= unapplied_memory <= used_memory`, and when `used_memory > 0`
the ratio it computes is a number between 0 and 1. -/
theorem underutilization_within_unit_interval (B : Nat) (r : Run) (buffer : List Nat)
    (hB : B ≤ INT_MAX) (hr : Reachable B r) (hbuf : ∀ p ∈ buffer, p = NULL ∨ p ∈ r.live)
    (hsum : used_capacity r.heap.mem buffer ≤ 2147483647) :
    ∃ l, isList r.heap.mem r.heap.flist l ∧ ∀ fuel, l.length ≤ fuel →
      ∃ s, memstats fuel r.heap.mem r.heap.flist buffer = some s ∧
        0 ≤ s.unapplied_memory.val ∧ s.unapplied_memory.val ≤ s.used_memory.val ∧
        (0 < s.used_memory.val →
          ∃ q, s.underutilized_memory.value = some q ∧ 0 ≤ q ∧ q ≤ 1) := by
  have hB2 : B + sizeof_chunk ≤ PTRDIFF_MAX := by
    simp only [INT_MAX] at hB
    simp only [sizeof_chunk, PTRDIFF_MAX]
    omega
  obtain ⟨_, _, _, _, l, hl, _⟩ := reachable_owned B r hB2 hr
  obtain ⟨_, hlive⟩ := reachable_in_range B r hB hr
  have hw := wasted_le_used r.heap.mem buffer (fun p hp hn =>
    hlive p ((hbuf p hp).resolve_left hn))
  refine ⟨l, hl, ?_⟩
  intro fuel hfuel
  obtain ⟨s, hs, _, _, _, hum, hun, _, _, hratio⟩ :=
    memstats_values r.heap.mem r.heap.flist l buffer fuel hl hfuel
  have hu : s.used_memory.val = used_capacity r.heap.mem buffer := by
    rw [hum]
    exact wrap_int_val _ (by omega) (by omega)
  have hn : s.unapplied_memory.val = wasted_capacity r.heap.mem buffer := by
    rw [hun]
    exact wrap_int_val _ (by omega) (by omega)
  refine ⟨s, hs, by omega, by omega, ?_⟩
  intro hpos
  have hne : s.used_memory.val ≠ 0 := by omega
  refine ⟨(s.unapplied_memory.val : ℚ) / (s.used_memory.val : ℚ), ?_, ?_, ?_⟩
  · rw [hratio]
    simp [float_div, hne, c_float.value]
  · apply div_nonneg
    · exact_mod_cast (by omega : 0 ≤ s.unapplied_memory.val)
    · exact_mod_cast (by omega : 0 ≤ s.used_memory.val)
  · apply div_le_one_of_le₀
    · exact_mod_cast (by omega : s.unapplied_memory.val ≤ s.used_memory.val)
    · exact_mod_cast (by omega : 0 ≤ s.used_memory.val)

/-- C21 as stated fails when a sum leaves the range of `int`.  The run `reuse_run`
makes requests of at most `INT_MAX` bytes; its three live chunks have the capacities
2147483647, 2147483647 and 3 and the live sizes 1, 1 and 3.  The capacities sum up
to 4294967297 and the wasted bytes to 4294967292; the `int` accumulators end with
`used_memory = 1` and `unapplied_memory = -4`, and the ratio is `-4 / 1`. -/
theorem wasted_memory_negative :
    Reachable 2147483647 reuse_run ∧ reuse_run.live = [4112, 2147487775, 4294971438] ∧
      used_capacity reuse_run.heap.mem reuse_run.live = 4294967297 ∧
      wasted_capacity reuse_run.heap.mem reuse_run.live = 4294967292 ∧
      (memstats 0 reuse_run.heap.mem reuse_run.heap.flist reuse_run.live).map
        (fun s => (s.used_memory.val, s.unapplied_memory.val, s.underutilized_memory))
        = some (1, -4, c_float.quot (-4) 1) := by
  refine ⟨?_, by decide, by decide, by decide, by decide⟩
  exact reachable_run_malloc _ _ _ _ (reachable_run_malloc _ _ _ _
    (reachable_run_free _ _ _ (reachable_run_free _ _ _
      (reachable_run_malloc _ _ _ _ (reachable_run_malloc _ _ _ _
        (reachable_run_malloc _ _ _ _ (reachable_run_init _ _ _ (by decide)) (by decide))
        (by decide)) (by decide)))) (by decide)) (by decide)

/-- C21 amended, at the example run with the handles `[NULL, 4228]`. -/
theorem underutilization_within_unit_interval_witness :
    4000 ≤ INT_MAX ∧ Reachable 4000 demo_run ∧ (∀ p ∈ [NULL, 4228], p = NULL ∨ p ∈ demo_run.live) ∧
    used_capacity demo_run.heap.mem [NULL, 4228] ≤ 2147483647 ∧
    ∃ l, isList demo_run.heap.mem demo_run.heap.flist l ∧ ∀ fuel, l.length ≤ fuel →
      ∃ s, memstats fuel demo_run.heap.mem demo_run.heap.flist [NULL, 4228] = some s ∧
        0 ≤ s.unapplied_memory.val ∧ s.unapplied_memory.val ≤ s.used_memory.val ∧
        (0 < s.used_memory.val →
          ∃ q, s.underutilized_memory.value = some q ∧ 0 ≤ q ∧ q ≤ 1) :=
  ⟨by decide, reachable_demo_run, by decide, by decide,
    underutilization_within_unit_interval 4000 demo_run [NULL, 4228] (by decide)
      reachable_demo_run (by decide) (by decide)⟩

/-- C22 as stated fails when the report is the first output to `stdout`: at
`one_free` (break 4278, one free chunk of capacity 100) the first `printf` of
`memstats` takes the buffer of the stream from `malloc`.  With a buffer of 1024
bytes the break moves to 5318; with a buffer of 64 bytes the free chunk is taken
and the head of the free list becomes `NULL`, so that a later `malloc(100)` gives
4294 where it gave 4112 without the audit. -/
theorem memstats_first_output_allocates :
    one_free.brk = 4278 ∧ one_free.flist = 4096 ∧
      (memstats_call 1 1024 false one_free [4228]).map (fun x => (x.2.2.1.brk, x.2.2.1.flist))
        = some (5318, 4096) ∧
      (memstats_call 1 64 false one_free [4228]).map (fun x => (x.2.2.1.brk, x.2.2.1.flist))
        = some (4278, NULL) ∧
      (malloc 1 one_free 100).map Prod.fst = some 4112 ∧
      ((memstats_call 1 64 false one_free [4228]).bind
        (fun x => malloc 1 x.2.2.1 100)).map Prod.fst = some 4294 := by
  decide

/-- C22, amended.  Audit is read-only once `stdout` has its buffer.  For every
allocator state and every array of handles: the call of `memstats` leaves every
entry of the array as it was.  When `stdout` has its buffer the call leaves the
head of the free list, every header (capacity, live size and link) and the break
as they were, and any later call of `malloc` or `free` gives what it gives without
the audit.  When the report is the first output to `stdout`, the state after the
call is the state after one call `malloc(bufsize)`.  On a state whose free list
ends in `NULL` the call returns in both cases, for any fuel that covers the list,
with the values that `memstats` computes. -/
theorem memstats_read_only (bufsize : Nat) (h : Heap) (buffer : List Nat) :
    (∀ fuel s b1 h1 buffer1,
      memstats_call fuel bufsize true h buffer = some (s, b1, h1, buffer1) →
      h1.flist = h.flist ∧ (∀ a, h1.mem a = h.mem a) ∧ buffer1 = buffer ∧ h1.brk = h.brk ∧
      (∀ f size, malloc f h1 size = malloc f h size) ∧ (∀ p, free h1 p = free h p)) ∧
    (∀ fuel s b1 h1 buffer1,
      memstats_call fuel bufsize false h buffer = some (s, b1, h1, buffer1) →
      buffer1 = buffer ∧ ∃ p, malloc fuel h bufsize = some (p, h1)) ∧
    (∀ l, isList h.mem h.flist l → ∀ fuel, l.length ≤ fuel →
      ∃ s, memstats fuel h.mem h.flist buffer = some s ∧
        memstats_call fuel bufsize true h buffer = some (s, true, h, buffer) ∧
        ∃ p h1, malloc fuel h bufsize = some (p, h1) ∧
          memstats_call fuel bufsize false h buffer = some (s, true, h1, buffer)) := by
  refine ⟨?_, ?_, ?_⟩
  · intro fuel s b1 h1 buffer1 hc
    unfold memstats_call at hc
    cases hm : memstats fuel h.mem h.flist buffer with
    | none => rw [hm] at hc; cases hc
    | some s2 =>
      rw [hm] at hc
      simp only [printf, if_true] at hc
      cases hc
      exact ⟨rfl, fun _ => rfl, rfl, rfl, fun _ _ => rfl, fun _ => rfl⟩
  · intro fuel s b1 h1 buffer1 hc
    unfold memstats_call at hc
    cases hm : memstats fuel h.mem h.flist buffer with
    | none => rw [hm] at hc; cases hc
    | some s2 =>
      rw [hm] at hc
      cases hp : malloc fuel h bufsize with
      | none =>
        simp only [printf, Bool.false_eq_true, if_false, hp] at hc
        cases hc
      | some r =>
        obtain ⟨p, h2⟩ := r
        simp only [printf, Bool.false_eq_true, if_false, hp, if_true] at hc
        cases hc
        exact ⟨rfl, p, rfl⟩
  · intro l hl fuel hfuel
    obtain ⟨s, hs, _⟩ := memstats_values h.mem h.flist l buffer fuel hl hfuel
    obtain ⟨p, h1, hp⟩ := malloc_total h l bufsize fuel hl hfuel
    refine ⟨s, hs, by simp only [memstats_call, hs, printf, if_true], p, h1, hp, ?_⟩
    simp only [memstats_call, hs, printf, Bool.false_eq_true, if_false, hp, if_true]

/-- C22 amended, at `one_free` with the handles `[4228]` and a buffered `stdout`: the
call returns and hands on the state and the handles. -/
theorem memstats_read_only_witness :
    isList one_free.mem one_free.flist [4096] ∧
      ∃ s, memstats 1 one_free.mem one_free.flist [4228] = some s ∧
        memstats_call 1 1024 true one_free [4228] = some (s, true, one_free, [4228]) ∧
        ∃ p h1, malloc 1 one_free 1024 = some (p, h1) ∧
          memstats_call 1 1024 false one_free [4228] = some (s, true, h1, [4228]) :=
  ⟨by decide, (memstats_read_only 1024 one_free [4228]).2.2 [4096] (by decide) 1 (by decide)⟩

/-- C23 as stated fails: with two null handles `used_memory` is 0, and the ratio that
`memstats` computes is the quotient `(float)0 / (float)0` all the same, which is NaN. -/
theorem ratio_divides_by_zero :
    (memstats 1 one_free.mem one_free.flist [NULL, NULL]).map
        (fun s => (s.used_blocks.val, s.unapplied_memory.val, s.used_memory.val,
          s.underutilized_memory, decide (s.underutilized_memory
            = float_div s.unapplied_memory s.used_memory)))
      = some (0, 0, 0, c_float.nan, true) := by
  decide

/-- C23, amended.  Zero used memory.  When the array of handles has no non-null entry,
`memstats` returns (on a free list that ends in `NULL`) with `used_memory = 0` and
`unapplied_memory = 0`; the ratio is the unguarded quotient of the two, which is
NaN and stands for no number. -/
theorem ratio_is_nan_without_handles (mem : Nat → chunk) (freelist : Nat) (l buffer : List Nat)
    (hl : isList mem freelist l) (hb : ∀ p ∈ buffer, p = NULL) :
    ∀ fuel, l.length ≤ fuel → ∃ s, memstats fuel mem freelist buffer = some s ∧
      s.used_memory.val = 0 ∧ s.unapplied_memory.val = 0 ∧
      s.underutilized_memory = float_div s.unapplied_memory s.used_memory ∧
      s.underutilized_memory = c_float.nan ∧ s.underutilized_memory.value = none := by
  intro fuel hfuel
  obtain ⟨s, hs, _, _, _, hum, hun, _, _, hratio⟩ :=
    memstats_values mem freelist l buffer fuel hl hfuel
  have hu : s.used_memory = int_zero := by
    rw [hum]
    simp only [used_capacity, live_entries_null buffer hb, List.map_nil, List.sum_nil]
    rfl
  have hn : s.unapplied_memory = int_zero := by
    rw [hun]
    simp only [wasted_capacity, live_entries_null buffer hb, List.filter_nil, List.map_nil,
      List.sum_nil]
    rfl
  have hnan : s.underutilized_memory = c_float.nan := by
    rw [hratio, hu, hn]
    rfl
  refine ⟨s, hs, by rw [hu]; rfl, by rw [hn]; rfl, hratio, hnan, by rw [hnan]; rfl⟩

/-- C23 amended, at `one_free` with two null handles. -/
theorem ratio_is_nan_without_handles_witness :
    isList one_free.mem one_free.flist [4096] ∧ (∀ p ∈ [NULL, NULL], p = NULL) ∧
    ∀ fuel, [4096].length ≤ fuel →
      ∃ s, memstats fuel one_free.mem one_free.flist [NULL, NULL] = some s ∧
        s.used_memory.val = 0 ∧ s.unapplied_memory.val = 0 ∧
        s.underutilized_memory = float_div s.unapplied_memory s.used_memory ∧
        s.underutilized_memory = c_float.nan ∧ s.underutilized_memory.value = none :=
  ⟨by decide, by decide,
    ratio_is_nan_without_handles one_free.mem one_free.flist [4096] [NULL, NULL] (by decide)
      (by decide)⟩

/-- C24 as stated fails for the null pointer: `malloc(0)` returns `NULL`, and two
calls `free(NULL)` leave the free list empty, which is a chain that ends in `NULL`
and not a cycle. -/
theorem double_free_of_null :
    (do
      let (p, h1) ← malloc 0 (init 4096 65536) 0
      let h3 := free (free h1 p) p
      pure (p, h3.flist, decide (isList h3.mem h3.flist []))) = some (NULL, NULL, true) := by
  decide

/-- C24, amended.  Double release of a non-null pointer.  A non-null pointer returned
by `malloc` is the address after a header `c` that is not null.  After two calls
`free` on it in a row, `c` is the head of the free list and its link points to
`c`; following the links from the head one stays at `c` for ever, so no chain from
the head ends in `NULL`, and no other chunk of the free list of before is reached
from the head any more. -/
theorem double_free_creates_cycle (h : Heap) (c : Nat) (hc : c ≠ NULL) :
    (free (free h (c + sizeof_chunk)) (c + sizeof_chunk)).flist = c ∧
      ((free (free h (c + sizeof_chunk)) (c + sizeof_chunk)).mem c).next = c ∧
      (∀ k, nth_chunk (free (free h (c + sizeof_chunk)) (c + sizeof_chunk)).mem
        (free (free h (c + sizeof_chunk)) (c + sizeof_chunk)).flist k = c) ∧
      (∀ l, ¬ isList (free (free h (c + sizeof_chunk)) (c + sizeof_chunk)).mem
        (free (free h (c + sizeof_chunk)) (c + sizeof_chunk)).flist l) ∧
      (∀ l, isList h.mem h.flist l → ∀ a ∈ l, a ≠ c →
        ∀ k, nth_chunk (free (free h (c + sizeof_chunk)) (c + sizeof_chunk)).mem
          (free (free h (c + sizeof_chunk)) (c + sizeof_chunk)).flist k ≠ a) := by
  have hf : (free (free h (c + sizeof_chunk)) (c + sizeof_chunk)).flist = c := free_flist _ c
  have hn : ((free (free h (c + sizeof_chunk)) (c + sizeof_chunk)).mem c).next = c := by
    rw [free_mem_self, free_flist]
  have hk := nth_chunk_self_loop _ c hc hn
  refine ⟨hf, hn, ?_, ?_, ?_⟩
  · intro k
    rw [hf]
    exact hk k
  · intro l
    rw [hf]
    exact not_isList_self_loop _ c hc hn l
  · intro l _ a _ hac k
    rw [hf, hk k]
    exact fun e => hac e.symm

/-- C24 amended, at `one_free` for the pointer 4228 of the chunk at 4212. -/
theorem double_free_creates_cycle_witness :
    (4212 : Nat) ≠ NULL ∧
    ((free (free one_free (4212 + sizeof_chunk)) (4212 + sizeof_chunk)).flist = 4212 ∧
      ((free (free one_free (4212 + sizeof_chunk)) (4212 + sizeof_chunk)).mem 4212).next = 4212 ∧
      (∀ k, nth_chunk (free (free one_free (4212 + sizeof_chunk)) (4212 + sizeof_chunk)).mem
        (free (free one_free (4212 + sizeof_chunk)) (4212 + sizeof_chunk)).flist k = 4212) ∧
      (∀ l, ¬ isList (free (free one_free (4212 + sizeof_chunk)) (4212 + sizeof_chunk)).mem
        (free (free one_free (4212 + sizeof_chunk)) (4212 + sizeof_chunk)).flist l) ∧
      (∀ l, isList one_free.mem one_free.flist l → ∀ a ∈ l, a ≠ 4212 →
        ∀ k, nth_chunk (free (free one_free (4212 + sizeof_chunk)) (4212 + sizeof_chunk)).mem
          (free (free one_free (4212 + sizeof_chunk)) (4212 + sizeof_chunk)).flist k ≠ a)) :=
  ⟨by decide, double_free_creates_cycle one_free 4212 (by decide)⟩

/-- C28, amended.  Audit accounts for every chunk.  In every run reached by `malloc`
calls of at most `INT_MAX` bytes and `free` calls on live pointers in which the
capacities of the chunks created sum up to at most `INT_MAX`, and for handles that
hold each live pointer once: `memstats` returns with `total_memory` equal to the
sum of the capacities of all chunks created and `total_blocks` equal to their
number.  A release leaves both as they are, so does a `malloc` that reuses a chunk
(no call of `sbrk`), and a `malloc` that returns a pointer after calling `sbrk`
adds `size` to the sum and 1 to the number. -/
theorem audit_accounts_for_every_chunk (B : Nat) (r : Run) (buffer : List Nat)
    (hB : B ≤ INT_MAX) (hr : Reachable B r) (hbuf : (live_entries buffer).Perm r.live)
    (hsum : total_capacity r ≤ 2147483647) :
    (∃ l, isList r.heap.mem r.heap.flist l ∧ ∀ fuel, l.length ≤ fuel →
      ∃ s, memstats fuel r.heap.mem r.heap.flist buffer = some s ∧
        s.total_memory.val = total_capacity r ∧
        s.total_blocks.val = (r.chunks.length : Int)) ∧
    (∀ p, p ∈ r.live → total_capacity (after_free r p) = total_capacity r ∧
      (after_free r p).chunks.length = r.chunks.length) ∧
    (∀ fuel size p h1, size ≤ B → malloc fuel r.heap size = some (p, h1) →
      (p ≠ NULL → h1.sbrk_calls = r.heap.sbrk_calls →
        total_capacity (after_malloc r p h1) = total_capacity r ∧
          (after_malloc r p h1).chunks.length = r.chunks.length) ∧
      (p ≠ NULL → h1.sbrk_calls ≠ r.heap.sbrk_calls →
        total_capacity (after_malloc r p h1) = total_capacity r + (size : Int) ∧
          (after_malloc r p h1).chunks.length = r.chunks.length + 1)) := by
  have hB2 : B + sizeof_chunk ≤ PTRDIFF_MAX := by
    simp only [INT_MAX, PTRDIFF_MAX, sizeof_chunk] at hB ⊢
    omega
  have ho := reachable_owned B r hB2 hr
  obtain ⟨hpos, _⟩ := reachable_in_range B r hB hr
  refine ⟨?_, ?_, ?_⟩
  · obtain ⟨_, _, _, _, l, hl, hperm⟩ := ho
    obtain ⟨hcap, hlen⟩ := capacity_split r l buffer hperm hbuf
    have hge := length_le_sum (fun c => (r.heap.mem c).size.val) r.chunks hpos
    have hge2 : (r.chunks.length : Int) ≤ total_capacity r := hge
    refine ⟨l, hl, ?_⟩
    intro fuel hfuel
    obtain ⟨s, hs, hfb, hfm, hub, hum, _, htb, htm, _⟩ :=
      memstats_values r.heap.mem r.heap.flist l buffer fuel hl hfuel
    refine ⟨s, hs, ?_, ?_⟩
    · rw [htm, hum, hfm]
      unfold int_add
      rw [wrap_int_add, add_comm, wrap_int_add, hcap]
      exact wrap_int_val _ (by omega) (by omega)
    · rw [htb, hfb, hub]
      unfold int_add
      rw [wrap_int_add, add_comm, wrap_int_add]
      rw [wrap_int_val _ (by omega) (by omega)]
      omega
  · intro p _
    exact ⟨total_capacity_release r p, rfl⟩
  · intro fuel size p h1 hs hm
    obtain ⟨h1a, h1b⟩ := accounts_after_malloc B r fuel size p h1 hB ho hs hm
    refine ⟨fun _ hc => ?_, h1b⟩
    obtain ⟨e1, e2⟩ := h1a (Or.inr hc)
    exact ⟨e1, by rw [e2]⟩

/-- C28 as stated fails when the sum leaves the range of `int`.  After two calls
`malloc(1073741824)` both pointers are live and the capacities of the two chunks
created sum up to 2147483648; `memstats` on these handles ends with
`total_memory = -2147483648` (and `total_blocks = 2`). -/
theorem total_memory_overflows :
    Reachable 1073741824 gib_run ∧ gib_run.live = [1073745952, 4112] ∧
      total_capacity gib_run = 2147483648 ∧
      (memstats 0 gib_run.heap.mem gib_run.heap.flist gib_run.live).map
        (fun s => (s.total_memory.val, s.total_blocks.val)) = some (-2147483648, 2) := by
  refine ⟨?_, by decide, by decide, by decide⟩
  exact reachable_run_malloc _ _ _ _
    (reachable_run_malloc _ _ _ _ (reachable_run_init _ _ _ (by decide)) (by decide)) (by decide)

/-- C28 amended, at the example run with the handles `[NULL, 4228]`. -/
theorem audit_accounts_for_every_chunk_witness :
    4000 ≤ INT_MAX ∧ Reachable 4000 demo_run ∧ (live_entries [NULL, 4228]).Perm demo_run.live ∧
    total_capacity demo_run ≤ 2147483647 ∧
    ((∃ l, isList demo_run.heap.mem demo_run.heap.flist l ∧ ∀ fuel, l.length ≤ fuel →
      ∃ s, memstats fuel demo_run.heap.mem demo_run.heap.flist [NULL, 4228] = some s ∧
        s.total_memory.val = total_capacity demo_run ∧
        s.total_blocks.val = (demo_run.chunks.length : Int)) ∧
    (∀ p, p ∈ demo_run.live → total_capacity (after_free demo_run p) = total_capacity demo_run ∧
      (after_free demo_run p).chunks.length = demo_run.chunks.length) ∧
    (∀ fuel size p h1, size ≤ 4000 → malloc fuel demo_run.heap size = some (p, h1) →
      (p ≠ NULL → h1.sbrk_calls = demo_run.heap.sbrk_calls →
        total_capacity (after_malloc demo_run p h1) = total_capacity demo_run ∧
          (after_malloc demo_run p h1).chunks.length = demo_run.chunks.length) ∧
      (p ≠ NULL → h1.sbrk_calls ≠ demo_run.heap.sbrk_calls →
        total_capacity (after_malloc demo_run p h1) = total_capacity demo_run + (size : Int) ∧
          (after_malloc demo_run p h1).chunks.length = demo_run.chunks.length + 1))) :=
  ⟨by decide, reachable_demo_run, List.Perm.refl [4228], by decide,
    audit_accounts_for_every_chunk 4000 demo_run [NULL, 4228] (by decide) reachable_demo_run
      (List.Perm.refl [4228]) (by decide)⟩

/-- Scans terminate, for requests that fit the `intptr_t` parameter of `sbrk`.  In every
run reached from an empty allocator by such requests and by `free` calls on live
pointers, the free list is a chain `l` without repetition that ends in `NULL`, and
in the model the scan of `malloc`, the call of `malloc`, the traversal of
`memstats` and the call of `memstats` come to their end with fuel `l.length`, that
is after visiting at most as many chunks as the list holds. -/
theorem scans_terminate_bounded (B : Nat) (r : Run) (hB : B + sizeof_chunk ≤ PTRDIFF_MAX)
    (hr : Reachable B r) :
    ∃ l, isList r.heap.mem r.heap.flist l ∧ l.Nodup ∧
      (∀ k, l.length ≤ k → nth_chunk r.heap.mem r.heap.flist k = NULL) ∧
      (∀ size, ∃ x, malloc_loop size r.heap l.length NULL r.heap.flist = some x) ∧
      (∀ size, ∃ p h1, malloc l.length r.heap size = some (p, h1)) ∧
      (∃ x, memstats_free r.heap.mem l.length r.heap.flist int_zero int_zero = some x) ∧
      (∀ buffer, ∃ s, memstats l.length r.heap.mem r.heap.flist buffer = some s) := by
  obtain ⟨_, _, _, _, l, hl, _⟩ := reachable_owned B r hB hr
  refine ⟨l, hl, isList_nodup _ _ _ hl, ?_, ?_, ?_, ?_, ?_⟩
  · intro k hk
    exact nth_chunk_of_isList _ l _ k hl hk
  · intro size
    exact malloc_loop_total size r.heap l l.length NULL r.heap.flist hl (le_refl _)
  · intro size
    exact malloc_total r.heap l size l.length hl (le_refl _)
  · exact ⟨_, memstats_free_spec r.heap.mem l l.length r.heap.flist int_zero int_zero hl
      (le_refl _)⟩
  · intro buffer
    obtain ⟨s, hs, _⟩ := memstats_values r.heap.mem r.heap.flist l buffer l.length hl (le_refl _)
    exact ⟨s, hs⟩

/-- C30.  No truncation within the range of `int`.  For every size with
`0 < size <= INT_MAX` and every free list whose chunks have a non-negative stored
capacity: the test `current->size >= size` of the scan agrees with the comparison
of the capacity with the size, the conversion of `size` to `int` keeps its value,
and `malloc` returns with the size stored as it is: on a hit (no call of `sbrk`)
the chunk is one of the list with a capacity of at least `size` and its `used`
is `size`; on a miss (a pointer after a call of `sbrk`) no chunk of the list was
large enough and both `size` and `used` of the new chunk are `size`. -/
theorem no_truncation_in_int_range (h : Heap) (l : List Nat) (size : Nat) (hs : 0 < size)
    (hmax : size ≤ INT_MAX) (hl : isList h.mem h.flist l)
    (hnn : ∀ a ∈ l, 0 ≤ (h.mem a).size.val) :
    (∀ a ∈ l, fits (h.mem a) size ↔ (size : Int) ≤ (h.mem a).size.val) ∧
    (to_int size).val = (size : Int) ∧
    ∀ fuel, l.length ≤ fuel → ∃ p h1, malloc fuel h size = some (p, h1) ∧
      (p ≠ NULL → h1.sbrk_calls = h.sbrk_calls →
        p - sizeof_chunk ∈ l ∧ (size : Int) ≤ (h.mem (p - sizeof_chunk)).size.val ∧
        (h1.mem (p - sizeof_chunk)).used.val = (size : Int) ∧
        (h1.mem (p - sizeof_chunk)).size = (h.mem (p - sizeof_chunk)).size) ∧
      (p ≠ NULL → h1.sbrk_calls ≠ h.sbrk_calls →
        (∀ a ∈ l, (h.mem a).size.val < (size : Int)) ∧
        (h1.mem (p - sizeof_chunk)).size.val = (size : Int) ∧
        (h1.mem (p - sizeof_chunk)).used.val = (size : Int)) := by
  have hsz : size < 2147483648 := by simp only [INT_MAX] at hmax; omega
  have hval := to_int_val_of_lt size hsz
  refine ⟨fun a ha => fits_iff_of_nonneg _ _ (hnn a ha), hval, ?_⟩
  intro fuel hfuel
  obtain ⟨p, h1, hm⟩ := malloc_total h l size fuel hl hfuel
  refine ⟨p, h1, hm, ?_⟩
  rcases malloc_spec h l fuel size p h1 hl hm with
    ⟨hp, _⟩ |
    ⟨l1, c, l2, hsplit, hp, _, _, hfit, _, hsize, _, hused, _, _, _, hcalls⟩ |
    ⟨_, hno, hp, _, hnew, _, hcalls, _⟩
  · exact ⟨fun hpn => absurd hp hpn, fun hpn => absurd hp hpn⟩
  · have e : p - sizeof_chunk = c := by rw [hp]; omega
    have hc : c ∈ l := by rw [hsplit]; simp
    refine ⟨fun _ _ => ?_, fun _ hne => absurd hcalls hne⟩
    rw [e]
    exact ⟨hc, (fits_iff_of_nonneg _ _ (hnn c hc)).1 hfit, by rw [hused]; exact hval, hsize c⟩
  · have e : p - sizeof_chunk = h.brk := by rw [hp]; omega
    have hne : ¬ h1.sbrk_calls = h.sbrk_calls := by
      rw [hcalls]
      intro e2
      have := congrArg List.length e2
      simp at this
    refine ⟨fun _ hc => absurd hc hne, fun _ _ => ?_⟩
    rw [e, hnew]
    refine ⟨fun a ha => ?_, hval, hval⟩
    have h1 := hno a ha
    rw [fits_iff_of_nonneg _ _ (hnn a ha)] at h1
    omega

/-- C30 at `one_free` for a request of 60 bytes. -/
theorem no_truncation_in_int_range_witness :
    0 < 60 ∧ 60 ≤ INT_MAX ∧ isList one_free.mem one_free.flist [4096] ∧
    (∀ a ∈ [4096], 0 ≤ (one_free.mem a).size.val) ∧
    ((∀ a ∈ [4096], fits (one_free.mem a) 60 ↔ ((60 : Nat) : Int) ≤ (one_free.mem a).size.val) ∧
    (to_int 60).val = ((60 : Nat) : Int) ∧
    ∀ fuel, [4096].length ≤ fuel → ∃ p h1, malloc fuel one_free 60 = some (p, h1) ∧
      (p ≠ NULL → h1.sbrk_calls = one_free.sbrk_calls →
        p - sizeof_chunk ∈ [4096] ∧ ((60 : Nat) : Int) ≤ (one_free.mem (p - sizeof_chunk)).size.val ∧
        (h1.mem (p - sizeof_chunk)).used.val = ((60 : Nat) : Int) ∧
        (h1.mem (p - sizeof_chunk)).size = (one_free.mem (p - sizeof_chunk)).size) ∧
      (p ≠ NULL → h1.sbrk_calls ≠ one_free.sbrk_calls →
        (∀ a ∈ [4096], (one_free.mem a).size.val < ((60 : Nat) : Int)) ∧
        (h1.mem (p - sizeof_chunk)).size.val = ((60 : Nat) : Int) ∧
        (h1.mem (p - sizeof_chunk)).used.val = ((60 : Nat) : Int))) :=
  ⟨by decide, by decide, by decide, by decide,
    no_truncation_in_int_range one_free [4096] 60 (by decide) (by decide) (by decide)
      (by decide)⟩

/-! ## Claims C8, C13, C14 and C29: requests that the code does not check -/

/-- The traversal of `memstats` never ends on a chunk whose link points to itself. -/
theorem memstats_free_self_loop (mem : Nat → chunk) (c : Nat) (hc : c ≠ NULL)
    (hn : (mem c).next = c) :
    ∀ (fuel : Nat) (free_blocks free_memory : c_int),
      memstats_free mem fuel c free_blocks free_memory = none := by
  intro fuel
  induction fuel with
  | zero =>
    intro a b
    unfold memstats_free
    rw [if_neg hc]
  | succ fuel ih =>
    intro a b
    unfold memstats_free
    rw [if_neg hc]
    simp only [hn]
    exact ih _ _

/-- The scan of `malloc` never ends on a chunk whose link points to itself and that
does not pass the test. -/
theorem malloc_loop_self_loop (size : Nat) (h : Heap) (c : Nat) (hc : c ≠ NULL)
    (hn : (h.mem c).next = c) (hf : ¬ fits (h.mem c) size) :
    ∀ (fuel prev : Nat), malloc_loop size h fuel prev c = none := by
  intro fuel
  induction fuel with
  | zero =>
    intro prev
    unfold malloc_loop
    rw [if_neg hc]
  | succ fuel ih =>
    intro prev
    unfold malloc_loop
    rw [if_neg hc]
    simp only [hf, if_false, hn]
    exact ih _

/-- C13 (defect of the code).  The run `wrap_run` is made of `malloc` calls and of
`free` calls on live pointers.  For `malloc(18446744073709551600)` the request
`size + sizeof(struct chunk)` wraps to 0: both calls get the unmoved break 4096 from
`sbrk(0)` and return 4112, which is then held twice.  After the release of both,
the chunk at 4096 is the head of the free list and its own successor: it occurs in
the free list more than once. -/
theorem free_list_duplicate_after_wrap :
    Reachable 18446744073709551600 wrap_run ∧ wrap_run.heap.flist = 4096 ∧
      (wrap_run.heap.mem 4096).next = 4096 ∧
      nth_chunk wrap_run.heap.mem wrap_run.heap.flist 0 = 4096 ∧
      nth_chunk wrap_run.heap.mem wrap_run.heap.flist 1 = 4096 := by
  refine ⟨?_, by decide, by decide, by decide, by decide⟩
  exact reachable_run_free _ _ _ (reachable_run_free _ _ _
    (reachable_run_malloc _ _ _ _
      (reachable_run_malloc _ _ _ _ (reachable_run_init _ _ _ (by decide)) (by decide))
      (by decide)))

/-- C14 (defect of the code).  After `p = malloc(18446744073709551600)` on the empty
allocator the pointer 4112 is live, and a second call of the same size returns
4112 again: `malloc` returns a pointer that is currently live.  After one release
of the pointer held twice, it is still live and its chunk at 4096 is the head of
the free list: the chunk belongs to both sets. -/
theorem malloc_returns_live_pointer :
    Reachable 18446744073709551600 (run_malloc 0 (run_init 4096 65536) 18446744073709551600) ∧
      (run_malloc 0 (run_init 4096 65536) 18446744073709551600).live = [4112] ∧
      (malloc 0 (run_malloc 0 (run_init 4096 65536) 18446744073709551600).heap
        18446744073709551600).map Prod.fst = some 4112 ∧
      (run_free (run_malloc 0 (run_malloc 0 (run_init 4096 65536) 18446744073709551600)
        18446744073709551600) 4112).live = [4112] ∧
      (run_free (run_malloc 0 (run_malloc 0 (run_init 4096 65536) 18446744073709551600)
        18446744073709551600) 4112).heap.flist = 4112 - sizeof_chunk := by
  refine ⟨?_, by decide, by decide, by decide, by decide⟩
  exact reachable_run_malloc _ _ _ _ (reachable_run_init _ _ _ (by decide)) (by decide)

/-- C29 (defect of the code).  In the run `wrap_run`, made of `malloc` calls and of
`free` calls on live pointers, the free list is a cycle: no chain from its head
ends in `NULL`.  The traversal of `memstats` runs out of every fuel, and so does
the scan of `malloc` for a request of `2^64 - 1` bytes, which the chunk of the
cycle does not pass. -/
theorem scans_do_not_terminate_after_wrap :
    Reachable 18446744073709551600 wrap_run ∧
      (∀ l, ¬ isList wrap_run.heap.mem wrap_run.heap.flist l) ∧
      (∀ fuel, memstats_free wrap_run.heap.mem fuel wrap_run.heap.flist int_zero int_zero = none) ∧
      (∀ fuel buffer, memstats fuel wrap_run.heap.mem wrap_run.heap.flist buffer = none) ∧
      (∀ fuel, malloc fuel wrap_run.heap 18446744073709551615 = none) := by
  have hf : wrap_run.heap.flist = 4096 := by decide
  have hn : (wrap_run.heap.mem 4096).next = 4096 := by decide
  have hc : (4096 : Nat) ≠ NULL := by decide
  have hfit : ¬ fits (wrap_run.heap.mem 4096) 18446744073709551615 := by decide
  have hm := memstats_free_self_loop wrap_run.heap.mem 4096 hc hn
  refine ⟨?_, ?_, ?_, ?_, ?_⟩
  · exact reachable_run_free _ _ _ (reachable_run_free _ _ _
      (reachable_run_malloc _ _ _ _
        (reachable_run_malloc _ _ _ _ (reachable_run_init _ _ _ (by decide)) (by decide))
        (by decide)))
  · intro l
    rw [hf]
    exact not_isList_self_loop _ 4096 hc hn l
  · intro fuel
    rw [hf]
    exact hm fuel _ _
  · intro fuel buffer
    unfold memstats
    rw [hf, hm fuel _ _]
  · intro fuel
    unfold malloc
    rw [if_neg (by decide), hf, malloc_loop_self_loop _ _ 4096 hc hn hfit fuel NULL]

/-- C8 (defect of the code).  On an allocator whose break can grow by 2147483664 bytes
and no more, after `p = malloc(2147483648)` and `free(p)` the free list holds one
chunk, of stored capacity `-2147483648`, and `sbrk` fails for a request of 50
bytes.  No free chunk has a capacity of at least 50, yet `malloc(50)` returns 4112
and the head of the free list changes from 4096 to `NULL`. -/
theorem exhaustion_reuses_negative_capacity :
    (do
      let (p, h1) ← malloc 0 (init 4096 2147487760) 2147483648
      let h2 := free h1 p
      let (q, h3) ← malloc 1 h2 50
      pure (decide (isList h2.mem h2.flist [4096]), (h2.mem 4096).size.val,
        (sbrk h2 (to_intptr ((50 + sizeof_chunk) % 18446744073709551616))).1, q, h2.flist,
        h3.flist))
      = some (true, -2147483648, none, 4112, 4096, NULL) := by
  decide

end Mylloc

/-! # Steganography of A06: theorems -/

namespace Stego

/-- A store inside the array succeeds and keeps the length of the array. -/
theorem write_lsb_inside (bytes : List Nat) (bitIndex bitValue : Nat)
    (h : bitIndex < bytes.length) :
    ∃ bytes1, write_lsb bytes bitIndex bitValue = some bytes1 ∧ bytes1.length = bytes.length := by
  unfold write_lsb
  rw [dif_pos h]
  exact ⟨_, rfl, by simp⟩

/-- A loop of stores whose indices all lie inside the array succeeds and keeps the
length of the array. -/
theorem stores_inside (f g : Nat → Nat) :
    ∀ (bits bytes : List Nat), (∀ b ∈ bits, f b < bytes.length) →
      ∃ bytes1, bits.foldlM (fun bs bit => write_lsb bs (f bit) (g bit)) bytes = some bytes1 ∧
        bytes1.length = bytes.length := by
  intro bits
  induction bits with
  | nil => intro bytes _; exact ⟨bytes, rfl, rfl⟩
  | cons b bits ih =>
    intro bytes h
    obtain ⟨b1, hb1, hl1⟩ := write_lsb_inside bytes (f b) (g b) (h b (List.mem_cons_self _ _))
    obtain ⟨b2, hb2, hl2⟩ := ih b1 (fun x hx => by
      rw [hl1]
      exact h x (List.mem_cons_of_mem _ hx))
    refine ⟨b2, ?_, by rw [hl2, hl1]⟩
    simp only [List.foldlM, hb1, Option.bind_eq_bind, Option.some_bind]
    exact hb2

/-- Length of the string in an array that starts with a character other than NUL. -/
theorem strlen_cons (c : Nat) (rest : List Nat) (hc : c ≠ 0) :
    strlen (c :: rest) = strlen rest + 1 := by
  simp [strlen, c_string, List.takeWhile, hc]

/-- The loop over the characters stays inside the array when eight bytes for each
character of the string are there. -/
theorem embed_message_inside :
    ∀ (message : List Nat) (bitIndex : Nat) (bytes : List Nat),
      bitIndex + 8 * strlen message ≤ bytes.length →
      ∃ bytes1, embed_message message bitIndex bytes = some bytes1 ∧
        bytes1.length = bytes.length := by
  intro message
  induction message with
  | nil => intro bitIndex bytes _; exact ⟨bytes, rfl, rfl⟩
  | cons c rest ih =>
    intro bitIndex bytes h
    unfold embed_message
    by_cases hc : c = 0
    · rw [if_pos hc]
      exact ⟨bytes, rfl, rfl⟩
    · rw [if_neg hc]
      rw [strlen_cons c rest hc] at h
      obtain ⟨b1, hb1, hl1⟩ := stores_inside (fun bit => bitIndex + bit)
        (fun bit => (c >>> bit) &&& 1) (List.range 8) bytes (fun b hb => by
          have := List.mem_range.1 hb
          show bitIndex + b < bytes.length
          omega)
      have hb1b : embed_char c bitIndex bytes = some b1 := hb1
      rw [hb1b]
      obtain ⟨b2, hb2, hl2⟩ := ih (bitIndex + 8) b1 (by rw [hl1]; omega)
      exact ⟨b2, hb2, by rw [hl2, hl1]⟩

/-- For an image of at least 8 colour bytes the test of encode.c is the comparison
of `8 * (L + 1)` with the number of bytes. -/
theorem too_long_iff (n L : Nat) (h8 : 8 ≤ n) (hn : n ≤ 2147483647) :
    L > to_size_t (maxChars n) ↔ 8 * (L + 1) > n := by
  unfold to_size_t maxChars
  omega

/-- With an image of at least 8 colour bytes `main` of encode.c rejects exactly the
messages that do not fit, and otherwise all its stores lie inside the array. -/
theorem encode_checks_length (bytes message : List Nat) (h8 : 8 ≤ bytes.length)
    (hn : bytes.length ≤ 2147483647) :
    (8 * (strlen message + 1) > bytes.length → encode_main bytes message = encode_result.too_long) ∧
    (8 * (strlen message + 1) ≤ bytes.length →
      ∃ bytes2, encode_main bytes message = encode_result.written bytes2 ∧
        bytes2.length = bytes.length) := by
  have hiff := too_long_iff bytes.length (strlen message) h8 hn
  constructor
  · intro h
    unfold encode_main
    rw [if_pos (hiff.2 h)]
  · intro h
    unfold encode_main
    rw [if_neg (fun hc => by have := hiff.1 hc; omega)]
    obtain ⟨b1, hb1, hl1⟩ := embed_message_inside message 0 bytes (by omega)
    obtain ⟨b2, hb2, hl2⟩ := stores_inside (fun bit => 8 * strlen message + bit) (fun _ => 0)
      (List.range 8) b1 (fun b hb => by
        have := List.mem_range.1 hb
        show 8 * strlen message + b < b1.length
        rw [hl1]
        omega)
    have hb2b : embed_terminator message b1 = some b2 := hb2
    rw [hb1]
    simp only [hb2b]
    exact ⟨b2, rfl, by rw [hl2, hl1]⟩

/-! ## Claims C25 and C26 -/

/-- C25 (defect of the code).  For an image of 16 colour bytes, all zero, and the
message "a" (one character, 97, and `16 / 8 - 1 = 1`), `main` of encode.c writes the
bits of 97 into the least significant bits with bit 0 first: 1, 0, 0, 0, 0, 1, 1, 0,
followed by eight zero bits.  The loop of decode.c puts the first bit it reads at
bit 7 and gives the character 134, the bits of 97 in reverse order, and not 97. -/
theorem round_trip_reverses_bits :
    strlen [97] ≤ (List.replicate 16 0).length / 8 - 1 ∧
      encode_main (List.replicate 16 0) [97]
        = encode_result.written [1, 0, 0, 0, 0, 1, 1, 0, 0, 0, 0, 0, 0, 0, 0, 0] ∧
      decode_main [1, 0, 0, 0, 0, 1, 1, 0, 0, 0, 0, 0, 0, 0, 0, 0] = [134] := by
  decide

/-- C26 (defect of the code).  For an image of 3 colour bytes (one pixel) `maxChars` is
`-1`, which the comparison with `strlen(message)` converts to `2^64 - 1`: no message
is rejected.  The empty message needs 8 bytes and the image has 3, and `main` of
encode.c goes on to its loops and stores outside the array; so it does for the
message "hi". -/
theorem encode_accepts_message_that_does_not_fit :
    8 * (strlen [] + 1) > [255, 255, 255].length ∧ maxChars 3 = -1 ∧
      to_size_t (maxChars 3) = 18446744073709551615 ∧
      encode_main [255, 255, 255] [] = encode_result.out_of_bounds ∧
      encode_main [255, 255, 255] [104, 105] = encode_result.out_of_bounds := by
  decide

end Stego

/-! # Binary search tree of A11: theorems -/

namespace Bst

/-- The result of `strcmp` is -1, 0 or 1. -/
theorem strcmp_range : ∀ (s t : List Nat), strcmp s t = -1 ∨ strcmp s t = 0 ∨ strcmp s t = 1 := by
  intro s
  induction s with
  | nil => intro t; cases t <;> simp [strcmp]
  | cons a s ih =>
    intro t
    cases t with
    | nil => simp [strcmp]
    | cons b t =>
      unfold strcmp
      split
      · simp
      · split
        · simp
        · exact ih t

/-- Two strings compare equal exactly when they are the same string. -/
theorem strcmp_eq_zero : ∀ (s t : List Nat), strcmp s t = 0 ↔ s = t := by
  intro s
  induction s with
  | nil => intro t; cases t <;> simp [strcmp]
  | cons a s ih =>
    intro t
    cases t with
    | nil => simp [strcmp]
    | cons b t =>
      unfold strcmp
      split
      · simp; omega
      · split
        · simp; omega
        · rw [ih t]
          have : a = b := by omega
          simp [this]

/-- Swapping the arguments of `strcmp` negates the result. -/
theorem strcmp_swap : ∀ (s t : List Nat), strcmp t s = - strcmp s t := by
  intro s
  induction s with
  | nil => intro t; cases t <;> simp [strcmp]
  | cons a s ih =>
    intro t
    cases t with
    | nil => simp [strcmp]
    | cons b t =>
      unfold strcmp
      by_cases h1 : a < b
      · have h2 : ¬ b < a := by omega
        simp [h1, h2]
      · by_cases h2 : b < a
        · simp [h1, h2]
        · simp [h1, h2, ih t]

/-- The order of `strcmp` is transitive. -/
theorem strcmp_trans : ∀ (s t u : List Nat), strcmp s t < 0 → strcmp t u < 0 → strcmp s u < 0 := by
  intro s
  induction s with
  | nil =>
    intro t u h1 h2
    cases t with
    | nil => simp [strcmp] at h1
    | cons b t =>
      cases u with
      | nil => simp [strcmp] at h2
      | cons c u => simp [strcmp]
  | cons a s ih =>
    intro t u h1 h2
    cases t with
    | nil => simp [strcmp] at h1
    | cons b t =>
      cases u with
      | nil => simp [strcmp] at h2
      | cons c u =>
        unfold strcmp at h1 h2 ⊢
        by_cases hab : a < b
        · by_cases hbc : b < c
          · have : a < c := by omega
            simp [this]
          · by_cases hcb : c < b
            · simp [hbc, hcb] at h2
            · have : a < c := by omega
              simp [this]
        · by_cases hba : b < a
          · simp [hab, hba] at h1
          · simp only [hab, hba, if_false] at h1
            have hab2 : a = b := by omega
            subst hab2
            by_cases hbc : a < c
            · simp [hbc]
            · by_cases hcb : c < a
              · simp [hbc, hcb] at h2
              · simp only [hbc, hcb, if_false] at h2 ⊢
                exact ih t u h1 h2

/-- After `insert` the tree holds the name inserted and the names it held before. -/
theorem insert_names (name_size : Nat) (name : List Nat) :
    ∀ (root root1 : tree_node), insert name_size name root = some root1 →
      ∀ x, x ∈ names root1 ↔ x = name ∨ x ∈ names root := by
  intro root
  induction root with
  | null =>
    intro root1 h x
    unfold insert at h
    split at h
    · cases h
      simp [names]
    · cases h
  | node nm l r ihl ihr =>
    intro root1 h x
    unfold insert at h
    split at h
    · cases hl : insert name_size name l with
      | none => rw [hl] at h; cases h
      | some l1 =>
        rw [hl] at h
        cases h
        have := ihl l1 hl x
        simp only [names, List.mem_append, List.mem_cons, this]
        tauto
    · split at h
      · cases hr : insert name_size name r with
        | none => rw [hr] at h; cases h
        | some r1 =>
          rw [hr] at h
          cases h
          have := ihr r1 hr x
          simp only [names, List.mem_append, List.mem_cons, this]
          tauto
      · cases h
        have h0 : strcmp name nm = 0 := by omega
        have he : name = nm := (strcmp_eq_zero _ _).1 h0
        simp only [names, List.mem_append, List.mem_cons, he]
        tauto

/-- The function `insert` keeps the search-tree order. -/
theorem insert_ordered (name_size : Nat) (name : List Nat) :
    ∀ (root root1 : tree_node), Ordered root → insert name_size name root = some root1 →
      Ordered root1 := by
  intro root
  induction root with
  | null =>
    intro root1 _ h
    unfold insert at h
    split at h
    · cases h
      simp [Ordered, names]
    · cases h
  | node nm l r ihl ihr =>
    intro root1 ho h
    obtain ⟨hol, hor, hlt, hgt⟩ := ho
    unfold insert at h
    split at h
    · rename_i hc
      cases hl : insert name_size name l with
      | none => rw [hl] at h; cases h
      | some l1 =>
        rw [hl] at h
        cases h
        refine ⟨ihl l1 hol hl, hor, ?_, hgt⟩
        intro x hx
        rcases (insert_names name_size name l l1 hl x).1 hx with e | e
        · rw [e]; exact hc
        · exact hlt x e
    · split at h
      · rename_i hc
        cases hr : insert name_size name r with
        | none => rw [hr] at h; cases h
        | some r1 =>
          rw [hr] at h
          cases h
          refine ⟨hol, ihr r1 hor hr, hlt, ?_⟩
          intro x hx
          rcases (insert_names name_size name r r1 hr x).1 hx with e | e
          · rw [e]; exact hc
          · exact hgt x e
      · cases h
        exact ⟨hol, hor, hlt, hgt⟩

/-- A string that fits the array `data.name` is inserted: `insert` returns a tree. -/
theorem insert_total (name_size : Nat) (name : List Nat) (hfit : name.length < name_size) :
    ∀ (root : tree_node), ∃ root1, insert name_size name root = some root1 := by
  intro root
  induction root with
  | null => exact ⟨tree_node.node name tree_node.null tree_node.null, by simp [insert, hfit]⟩
  | node nm l r ihl ihr =>
    obtain ⟨l1, hl⟩ := ihl
    obtain ⟨r1, hr⟩ := ihr
    unfold insert
    split
    · exact ⟨_, by rw [hl]⟩
    · split
      · exact ⟨_, by rw [hr]⟩
      · exact ⟨_, rfl⟩

/-- In a search tree `find` returns the node that holds the name when the tree holds
it, and the null pointer otherwise. -/
theorem find_ordered (name : List Nat) :
    ∀ (root : tree_node), Ordered root →
      (name ∈ names root → ∃ l r, find name root = tree_node.node name l r) ∧
      (name ∉ names root → find name root = tree_node.null) := by
  intro root
  induction root with
  | null =>
    intro _
    simp [names, find]
  | node nm l r ihl ihr =>
    intro ho
    obtain ⟨hol, hor, hlt, hgt⟩ := ho
    obtain ⟨ihl1, ihl2⟩ := ihl hol
    obtain ⟨ihr1, ihr2⟩ := ihr hor
    unfold find
    by_cases h0 : strcmp nm name = 0
    · have he : nm = name := (strcmp_eq_zero _ _).1 h0
      rw [if_pos h0]
      subst he
      refine ⟨fun _ => ⟨l, r, rfl⟩, fun hn => ?_⟩
      exact absurd (by simp [names]) hn
    · rw [if_neg h0]
      have hsw := strcmp_swap nm name
      have hne : name ≠ nm := fun e => h0 ((strcmp_eq_zero _ _).2 e.symm)
      by_cases hlt2 : strcmp name nm < 0
      · rw [if_pos hlt2]
        have hnr : name ∉ names r := fun hm => by
          have := hgt name hm
          omega
        refine ⟨fun hm => ?_, fun hn => ?_⟩
        · simp only [names, List.mem_append, List.mem_cons] at hm
          rcases hm with hm | hm | hm
          · exact ihl1 hm
          · exact absurd hm hne
          · exact absurd hm hnr
        · apply ihl2
          intro hm
          exact hn (by simp [names, hm])
      · rw [if_neg hlt2]
        have hnl : name ∉ names l := fun hm => hlt2 (hlt name hm)
        refine ⟨fun hm => ?_, fun hn => ?_⟩
        · simp only [names, List.mem_append, List.mem_cons] at hm
          rcases hm with hm | hm | hm
          · exact absurd hm hnl
          · exact absurd hm hne
          · exact ihr1 hm
        · apply ihr2
          intro hm
          exact hn (by simp [names, hm])

/-- A tree built by calls of `insert` is a search tree that holds the names inserted
and those it held before. -/
theorem insert_calls_spec (name_size : Nat) :
    ∀ (ns : List (List Nat)) (root root1 : tree_node), Ordered root →
      insert_calls name_size ns root = some root1 →
      Ordered root1 ∧ ∀ x, x ∈ names root1 ↔ x ∈ ns ∨ x ∈ names root := by
  intro ns
  induction ns with
  | nil =>
    intro root root1 ho h
    cases h
    exact ⟨ho, fun x => by simp⟩
  | cons n ns ih =>
    intro root root1 ho h
    unfold insert_calls at h
    cases hi : insert name_size n root with
    | none => rw [hi] at h; cases h
    | some root2 =>
      rw [hi] at h
      obtain ⟨ho1, hn1⟩ := ih root2 root1 (insert_ordered name_size n root root2 ho hi) h
      refine ⟨ho1, fun x => ?_⟩
      rw [hn1 x, insert_names name_size n root root2 hi x]
      simp only [List.mem_cons]
      tauto

/-! ## Claim C27 -/

/-- C27.  Membership in the search tree.  For every tree built from the empty tree
by a sequence of calls of `insert` (each of which returned) and for every name:
`find` returns a node that holds the name when the name was among those inserted,
and the null pointer otherwise; `find` on the tree returned by `insert` of the
name is never null, and `insert` returns when the name fits the array
`data.name`. -/
theorem find_after_inserts (name_size : Nat) (ns : List (List Nat)) (root : tree_node)
    (hroot : insert_calls name_size ns tree_node.null = some root) (name : List Nat) :
    (name ∈ ns → ∃ l r, find name root = tree_node.node name l r) ∧
    (name ∉ ns → find name root = tree_node.null) ∧
    (∀ root1, insert name_size name root = some root1 → find name root1 ≠ tree_node.null) ∧
    (name.length < name_size → ∃ root1, insert name_size name root = some root1) := by
  obtain ⟨ho, hn⟩ := insert_calls_spec name_size ns tree_node.null root trivial hroot
  obtain ⟨h1, h2⟩ := find_ordered name root ho
  refine ⟨fun hm => h1 ((hn name).2 (Or.inl hm)), fun hm => h2 ?_, ?_, ?_⟩
  · intro hx
    rcases (hn name).1 hx with e | e
    · exact hm e
    · simp [names] at e
  · intro root1 hi
    have ho1 := insert_ordered name_size name root root1 ho hi
    obtain ⟨l, r, hf⟩ :=
      (find_ordered name root1 ho1).1 ((insert_names name_size name root root1 hi name).2 (Or.inl rfl))
    rw [hf]
    exact fun e => tree_node.noConfusion e
  · intro hfit
    exact insert_total name_size name hfit root

/-- C27 for the names "m", "c", "x", "c" inserted in this order and the name "c". -/
theorem find_after_inserts_witness :
    insert_calls 64 [[109], [99], [120], [99]] tree_node.null
        = some (tree_node.node [109] (tree_node.node [99] tree_node.null tree_node.null)
            (tree_node.node [120] tree_node.null tree_node.null)) ∧
    ((([99] : List Nat) ∈ [[109], [99], [120], [99]] → ∃ l r,
        find [99] (tree_node.node [109] (tree_node.node [99] tree_node.null tree_node.null)
          (tree_node.node [120] tree_node.null tree_node.null)) = tree_node.node [99] l r) ∧
    (([99] : List Nat) ∉ [[109], [99], [120], [99]] →
      find [99] (tree_node.node [109] (tree_node.node [99] tree_node.null tree_node.null)
        (tree_node.node [120] tree_node.null tree_node.null)) = tree_node.null) ∧
    (∀ root1, insert 64 [99] (tree_node.node [109]
        (tree_node.node [99] tree_node.null tree_node.null)
        (tree_node.node [120] tree_node.null tree_node.null)) = some root1 →
      find [99] root1 ≠ tree_node.null) ∧
    (([99] : List Nat).length < 64 → ∃ root1, insert 64 [99] (tree_node.node [109]
        (tree_node.node [99] tree_node.null tree_node.null)
        (tree_node.node [120] tree_node.null tree_node.null)) = some root1)) :=
  ⟨by decide, find_after_inserts 64 [[109], [99], [120], [99]] _ (by decide) [99]⟩

end Bst
